import Mathlib

/-!
# PIC32MZ crypto-engine driver (`_pic32mz-crypt.c`)

A shallow embedding of the driver: byte/word transforms, the one-shot job
`Pic32Crypto`, the streaming hash engine (`reset_engine`, `update_engine`,
`start_engine`, `wait_engine`) and the hash accumulation cache
(`wc_Pic32HashUpdate`, `wc_Pic32HashFinal`, `wc_Pic32HashCopy`).

Conventions.
* `word32`/`unsigned int` values are `Nat`s reduced `% 2^32` where the C
  arithmetic can wrap; `int` values are `Int`s.
* A pointer is the address it holds (`Nat`, `0` is `NULL`); the object it points
  to is passed next to it as a list of bytes (or of 32-bit words).
* The hardware and the host services (mutex, allocator) are oracles passed as
  arguments; busy-wait loops without a budget take a `fuel` argument and
  return `none` when it runs out.
* The cached (KVA0) and uncached (KVA1) views of an object are one object.
-/

namespace Pic32

/-! ## Constants of the absent header -/

/-- Constants, error codes and array sizes that `_pic32mz-crypt.c` takes from
`pic32mz-crypt.h` and the wolfSSL headers; the driver is embedded for any
values of them. -/
structure Header where
  BAD_FUNC_ARG : Int
  BUFFER_E : Int
  MEMORY_E : Int
  ASYNC_OP_E : Int
  PIC32_ENCRYPTION : Int
  PIC32_DECRYPTION : Int
  PIC32_ALGO_HMAC1 : Int
  PIC32_ALGO_SHA256 : Int
  PIC32_ALGO_SHA1 : Int
  PIC32_ALGO_MD5 : Int
  PIC32_ALGO_AES : Int
  PIC32_ALGO_TDES : Int
  PIC32_ALGO_DES : Int
  PIC32_BLOCKSIZE_HMAC : Int
  PIC32_BLOCKSIZE_SHA256 : Int
  PIC32_BLOCKSIZE_SHA1 : Int
  PIC32_BLOCKSIZE_MD5 : Int
  PIC32_BLOCKSIZE_AES : Int
  PIC32_BLOCKSIZE_TDES : Int
  PIC32_BLOCKSIZE_DES : Int
  PIC32_BLOCKSIZE_HASH : Nat
  PIC32_KEYSIZE_256 : Nat
  PIC32_KEYSIZE_192 : Nat
  PIC32_KEYSIZE_128 : Nat
  PIC32_CRYPTOALGO_RECB : Int
  PIC32_CRYPTOALGO_RCBC : Int
  PIC32_CRYPTOALGO_RCTR : Int
  AES_BLOCK_SIZE : Nat
  /-- The compile-time switch `PIC32_NO_OUT_SWAP`. -/
  PIC32_NO_OUT_SWAP : Bool
  /-- The value of `sizeof (sa.SA_ENCKEY) / sizeof (word32)`. -/
  encKeyWords : Nat
  /-- The value of `sizeof (sa.SA_ENCIV) / sizeof (word32)`. -/
  encIvWords : Nat
  /-- The value of `sizeof (sa.SA_AUTHIV) / sizeof (word32)`. -/
  authIvWords : Nat
  /-- The width in bits of the bit-field `BD_CTRL.BUFLEN`. -/
  bufLenBits : Nat

/-- Concrete values for these constants, following wolfSSL's `pic32mz-crypt.h`
and `error-crypt.h`; used only to evaluate the embedding on concrete inputs. -/
def wolfHeader : Header where
  BAD_FUNC_ARG := -173
  BUFFER_E := -132
  MEMORY_E := -125
  ASYNC_OP_E := -245
  PIC32_ENCRYPTION := 1
  PIC32_DECRYPTION := 0
  PIC32_ALGO_HMAC1 := 64
  PIC32_ALGO_SHA256 := 32
  PIC32_ALGO_SHA1 := 16
  PIC32_ALGO_MD5 := 8
  PIC32_ALGO_AES := 4
  PIC32_ALGO_TDES := 2
  PIC32_ALGO_DES := 1
  PIC32_BLOCKSIZE_HMAC := 64
  PIC32_BLOCKSIZE_SHA256 := 64
  PIC32_BLOCKSIZE_SHA1 := 64
  PIC32_BLOCKSIZE_MD5 := 64
  PIC32_BLOCKSIZE_AES := 16
  PIC32_BLOCKSIZE_TDES := 24
  PIC32_BLOCKSIZE_DES := 8
  PIC32_BLOCKSIZE_HASH := 64
  PIC32_KEYSIZE_256 := 2
  PIC32_KEYSIZE_192 := 1
  PIC32_KEYSIZE_128 := 0
  PIC32_CRYPTOALGO_RECB := 8
  PIC32_CRYPTOALGO_RCBC := 9
  PIC32_CRYPTOALGO_RCTR := 13
  AES_BLOCK_SIZE := 16
  PIC32_NO_OUT_SWAP := false
  encKeyWords := 8
  encIvWords := 4
  authIvWords := 8
  bufLenBits := 16

/-- Tunable large hash block size (`#define PIC32_BLOCK_SIZE 256`). -/
def PIC32_BLOCK_SIZE : Nat := 256

/-- Largest transfer of one descriptor (`#define PIC32MZ_MAX_BLOCK (32*1024)`). -/
def PIC32MZ_MAX_BLOCK : Nat := 32 * 1024

/-- Number of ring descriptors (`#define PIC32MZ_MAX_BD 2`). -/
def PIC32MZ_MAX_BD : Nat := 2

/-- Conversion of an `int` to `word32`/`size_t` (two's complement, 32 bits). -/
def toU32 (x : Int) : Nat := (x % 4294967296).toNat

/-! ## Endian / word transform -/

/-- `rotlFixed`: `(x << y) | (x >> (sizeof (y) * 8 - y))` on `word32`. -/
def rotlFixed (x y : Nat) : Nat :=
  ((x <<< y) % 4294967296) ||| (x >>> (32 - y))

/-- `rotrFixed`: `(x >> y) | (x << (sizeof (y) * 8 - y))` on `word32`. -/
def rotrFixed (x y : Nat) : Nat :=
  (x >>> y) ||| ((x <<< (32 - y)) % 4294967296)

/-- `ByteReverseWord32`: swap the bytes of each half-word, then rotate by 16. -/
def ByteReverseWord32 (value : Nat) : Nat :=
  let value := ((value &&& 0xFF00FF00) >>> 8) ||| (((value &&& 0x00FF00FF) <<< 8) % 4294967296)
  rotlFixed value 16

/-- `ByteReverseWords(out, in, byteCount)`: the `byteCount / 4` words it stores
to `out`, from the words at `in` (a word past the end of `in` reads as `0`). -/
def ByteReverseWords (inp : List Nat) (byteCount : Nat) : List Nat :=
  (List.range (byteCount / 4)).map (fun i => ByteReverseWord32 (inp.getD i 0))

/-- Little-endian 32-bit word at word index `i` of a byte buffer. -/
def wordAt (bytes : List Nat) (i : Nat) : Nat :=
  bytes.getD (4 * i) 0 + 256 * bytes.getD (4 * i + 1) 0
    + 65536 * bytes.getD (4 * i + 2) 0 + 16777216 * bytes.getD (4 * i + 3) 0

/-- A byte buffer read as `word32*`. -/
def wordsOf (bytes : List Nat) : List Nat :=
  (List.range ((bytes.length + 3) / 4)).map (wordAt bytes)

/-- The four little-endian bytes of each word. -/
def bytesOf (words : List Nat) : List Nat :=
  words.flatMap (fun w => [w % 256, w / 256 % 256, w / 65536 % 256, w / 16777216 % 256])

/-- `XMEMSET(p, 0, n)` on the object at `p` (the part inside the object). -/
def memsetZero (buf : List Nat) (n : Nat) : List Nat :=
  List.replicate (min n buf.length) 0 ++ buf.drop n

/-- `XMEMCPY(p + off, src, src.length)` on the object at `p` (the part inside
the object). -/
def memWrite (buf : List Nat) (off : Nat) (src : List Nat) : List Nat :=
  buf.take off ++ (src.take (buf.length - off) ++ buf.drop (off + src.length))

/-- Store the words `ws` at `slot + off` (`off` in words, possibly negative):
the resulting contents of the array `slot`. Words that fall outside the array
land in memory this model does not track. -/
def storeWords (slot : List Nat) (off : Int) (ws : List Nat) : List Nat :=
  (List.range slot.length).map (fun (j : Nat) =>
    if 0 ≤ (j : Int) - off ∧ (j : Int) - off < ws.length
    then ws.getD ((j : Int) - off).toNat 0 else slot.getD j 0)

/-! ## Descriptor and security-association model -/

/-- A physical address handed to the engine, kept symbolic. -/
inductive PA
  /-- The value left by `XMEMSET(.., 0, ..)`. -/
  | zero
  /-- `KVA_TO_PA(&sa)`. -/
  | sa
  /-- `KVA_TO_PA(&bd)` (one-shot: index `0`) or `KVA_TO_PA(&bd[i])`. -/
  | bd (i : Nat)
  /-- `KVA_TO_PA(&gLHDataBuf[i])`. -/
  | staging (i : Nat)
  /-- `KVA_TO_PA(input)` for input outside RAM: the read-only data found there. -/
  | input (data : List Nat)
  /-- `KVA_TO_PA(p)` for a caller pointer holding address `addr`. -/
  | ptr (addr : Nat)
  deriving DecidableEq, Repr

/-- The fields of `SA_CTRL` the driver writes. -/
structure saCtrl where
  ALGO : Int := 0
  ENCTYPE : Int := 0
  FB : Nat := 0
  LNC : Nat := 0
  CRYPTOALGO : Int := 0
  KEYSIZE : Nat := 0
  LOADIV : Nat := 0
  IRFLAG : Nat := 0
  deriving DecidableEq, Repr

/-- `securityAssociation`: control word and the key / IV slots the driver fills. -/
structure securityAssociation where
  SA_CTRL : saCtrl
  SA_ENCKEY : List Nat
  SA_AUTHIV : List Nat
  SA_ENCIV : List Nat
  deriving DecidableEq, Repr

/-- The fields of `BD_CTRL` the driver writes. `BUFLEN` is a bit-field whose
width the absent header fixes (`Header.bufLenBits`); the one-shot path stores an
`int` length into it, reduced to that width, while the ring path stores a fill
offset that a session keeps within `PIC32MZ_MAX_BLOCK`. -/
structure bdCtrl where
  BUFLEN : Nat := 0
  SA_FETCH_EN : Bool := false
  PKT_INT_EN : Bool := false
  LAST_BD : Bool := false
  LIFM : Bool := false
  DESC_EN : Bool := false
  deriving DecidableEq, Repr

/-- `bufferDescriptor`. -/
structure bufferDescriptor where
  BD_CTRL : bdCtrl := {}
  SA_ADDR : PA := PA.zero
  SRCADDR : PA := PA.zero
  DSTADDR : PA := PA.zero
  NXTPTR : PA := PA.zero
  UPDPTR : PA := PA.zero
  MSGLEN : Nat := 0
  deriving DecidableEq, Repr

/-- Engine registers written by the driver. -/
inductive Reg
  | CECON | CEINTSRC | CEBDPADDR | CEINTEN | CEPOLLCON
  deriving DecidableEq, Repr

/-- Observable actions of the driver on the host and on the engine. -/
inductive Ev
  /-- A call of `wolfSSL_CryptHwMutexLock()` and the code it returned. -/
  | lock (ret : Int)
  /-- A call of `wolfSSL_CryptHwMutexUnLock()`. -/
  | unlock
  /-- A store of a number to an engine register. -/
  | reg (r : Reg) (v : Nat)
  /-- A store of a descriptor address to `CEBDPADDR`. -/
  | bdp (a : PA)
  deriving DecidableEq, Repr

/-- Is the event a store to an engine register. -/
def Ev.isRegWrite : Ev → Bool
  | Ev.reg _ _ => true
  | Ev.bdp _ => true
  | _ => false

/-- Is the event a call of the mutex (lock or unlock). -/
def Ev.isLock : Ev → Bool
  | Ev.lock _ => true
  | _ => false

/-- Is the event a release of the mutex. -/
def Ev.isUnlock : Ev → Bool
  | Ev.unlock => true
  | _ => false

/-! ## One-shot job engine -/

/-- `Pic32GetBlockSize`. -/
def Pic32GetBlockSize (K : Header) (algo : Int) : Int :=
  if algo = K.PIC32_ALGO_HMAC1 then K.PIC32_BLOCKSIZE_HMAC
  else if algo = K.PIC32_ALGO_SHA256 then K.PIC32_BLOCKSIZE_SHA256
  else if algo = K.PIC32_ALGO_SHA1 then K.PIC32_BLOCKSIZE_SHA1
  else if algo = K.PIC32_ALGO_MD5 then K.PIC32_BLOCKSIZE_MD5
  else if algo = K.PIC32_ALGO_AES then K.PIC32_BLOCKSIZE_AES
  else if algo = K.PIC32_ALGO_TDES then K.PIC32_BLOCKSIZE_TDES
  else if algo = K.PIC32_ALGO_DES then K.PIC32_BLOCKSIZE_DES
  else 0

/-- The arguments of `Pic32Crypto`, each pointer with the object it points to. -/
structure CryptoArgs where
  /-- The pointer `in` (`0` is `NULL`). -/
  inAddr : Nat
  /-- The bytes at `in`. -/
  inBytes : List Nat
  inLen : Int
  /-- The pointer `out` (`0` is `NULL`). -/
  outAddr : Nat
  /-- The bytes of the object at `out`. -/
  out : List Nat
  outLen : Int
  dir : Int
  algo : Int
  cryptoalgo : Int
  /-- The words at `key`, `none` for `NULL`. -/
  key : Option (List Nat)
  keyLen : Int
  /-- The words at `iv`, `none` for `NULL`. -/
  iv : Option (List Nat)
  ivLen : Int

/-- What the engine and the host do during one call of `Pic32Crypto`. -/
structure Engine where
  /-- Return value of `wolfSSL_CryptHwMutexLock()`. -/
  lockRet : Int
  /-- Value of the `k`-th read of `CECON` after the software reset. -/
  cecon : Nat → Nat
  /-- Value of the `k`-th read of `CEINTSRCbits.PKTIF`. -/
  pktif : Nat → Bool
  /-- Value of `CESTATbits.ERROP` when it is checked. -/
  errop : Bool
  /-- The destination object after the engine ran, from the object before. -/
  dma : List Nat → List Nat
  /-- The byte at an offset outside the object at `out`. -/
  stray : Int → Nat

/-- The job as set up by `Pic32Crypto`: its two control blocks and the
`inLen` message bytes found at `in`. -/
structure Job where
  sa : securityAssociation
  bd : bufferDescriptor
  src : List Nat
  deriving DecidableEq, Repr

/-- State on return from `Pic32Crypto`. -/
structure CryptoResult where
  ret : Int
  /-- The object at `out`. -/
  out : List Nat
  /-- The words at `iv`. -/
  iv : Option (List Nat)
  /-- The control blocks built, `none` when validation failed. -/
  job : Option Job
  /-- Mutex calls and register stores, in order. -/
  events : List Ev
  /-- Number of reads of the completion flag `PKTIF`. -/
  reads : Nat

/-- Lines 113-154 of `Pic32Crypto`: set up the security association.
`outWords` are the words at `out` (loaded as IV of a hash job). -/
def Pic32Crypto_setupSA (K : Header) (a : CryptoArgs) : securityAssociation :=
  let ctrl : saCtrl := { ALGO := a.algo, ENCTYPE := a.dir, FB := 1, LNC := 1 }
  let zeroKey := List.replicate K.encKeyWords 0
  let zeroAuthIv := List.replicate K.authIvWords 0
  let zeroIv := List.replicate K.encIvWords 0
  match a.key with
  | some key =>
    let ctrl := { ctrl with CRYPTOALGO := a.cryptoalgo }
    let ctrl :=
      if a.keyLen = 32 then { ctrl with KEYSIZE := K.PIC32_KEYSIZE_256 }
      else if a.keyLen = 24 ∨ a.keyLen = 8 then { ctrl with KEYSIZE := K.PIC32_KEYSIZE_192 }
      else if a.keyLen = 16 then { ctrl with KEYSIZE := K.PIC32_KEYSIZE_128 }
      else ctrl
    let encKey := storeWords zeroKey ((K.encKeyWords : Int) - (toU32 a.keyLen / 4 : Nat))
      (ByteReverseWords key (toU32 a.keyLen))
    match a.iv with
    | some iv =>
      if a.ivLen > 0 then
        { SA_CTRL := { ctrl with LOADIV := 1 }, SA_ENCKEY := encKey, SA_AUTHIV := zeroAuthIv,
          SA_ENCIV := storeWords zeroIv ((K.encIvWords : Int) - (toU32 a.ivLen / 4 : Nat))
            (ByteReverseWords iv (toU32 a.ivLen)) }
      else { SA_CTRL := ctrl, SA_ENCKEY := encKey, SA_AUTHIV := zeroAuthIv, SA_ENCIV := zeroIv }
    | none => { SA_CTRL := ctrl, SA_ENCKEY := encKey, SA_AUTHIV := zeroAuthIv, SA_ENCIV := zeroIv }
  | none =>
    { SA_CTRL := { ctrl with LOADIV := 1, IRFLAG := 0 }, SA_ENCKEY := zeroKey,
      SA_AUTHIV := storeWords zeroAuthIv ((K.authIvWords : Int) - (toU32 a.outLen / 4 : Nat))
        (ByteReverseWords (wordsOf a.out) (toU32 a.outLen)),
      SA_ENCIV := zeroIv }

/-- Lines 156-181 of `Pic32Crypto`: set up the buffer descriptor. `BUFLEN` is
a bit-field of `K.bufLenBits` bits: the store `BUFLEN = inLen` and the update
`BUFLEN += (4 - padRemain)` both keep the low bits only. -/
def Pic32Crypto_setupBD (K : Header) (a : CryptoArgs) : bufferDescriptor :=
  let buflen := toU32 a.inLen % 2 ^ K.bufLenBits
  let padRemain := toU32 (a.inLen % 4)
  let buflen := if padRemain ≠ 0 then (buflen + (4 - padRemain)) % 2 ^ K.bufLenBits else buflen
  { BD_CTRL := { BUFLEN := buflen, SA_FETCH_EN := true, PKT_INT_EN := true, LAST_BD := true,
                 LIFM := true, DESC_EN := true },
    SA_ADDR := PA.sa,
    SRCADDR := PA.ptr a.inAddr,
    DSTADDR := if a.key.isSome then PA.ptr a.outAddr else PA.zero,
    UPDPTR := if a.key.isSome then PA.zero else PA.ptr a.outAddr,
    NXTPTR := PA.bd 0,
    MSGLEN := toU32 a.inLen }

/-- The loop `while (CECON);` after the software reset: the number of reads it
makes, `none` when the register does not clear within `fuel` reads. -/
def waitReset (cecon : Nat → Nat) : Nat → Nat → Option Nat
  | 0, _ => none
  | fuel + 1, k => if cecon k = 0 then some (k + 1) else waitReset cecon fuel (k + 1)

/-- The loop `while (CEINTSRCbits.PKTIF == 0 && --timeout > 0) {}`, started at
read `k` with the counter at `timeout`: the number of reads made so far and the
counter on exit. The first argument bounds the iterations and is given the
initial counter `0xFFFFFF`, which the loop cannot exceed. -/
def pollLoop (pktif : Nat → Bool) : Nat → Nat → Int → Nat × Int
  | 0, k, timeout => (k, timeout)
  | n + 1, k, timeout =>
    if pktif k then (k + 1, timeout)
    else if timeout - 1 > 0 then pollLoop pktif n (k + 1) (timeout - 1)
    else (k + 1, timeout - 1)

/-- Byte at offset `off` from the start of an object; outside the object the
byte comes from the environment. -/
def readByte (buf : List Nat) (stray : Int → Nat) (off : Int) : Nat :=
  if 0 ≤ off ∧ off < buf.length then buf.getD off.toNat 0 else stray off

/-- The `n` bytes at byte offset `off` of an object. -/
def readBytes (buf : List Nat) (stray : Int → Nat) (off : Int) (n : Nat) : List Nat :=
  (List.range n).map (fun i => readByte buf stray (off + i))

/-- Lines 222-233 of `Pic32Crypto`: the IV for the next call. `outE` and `inE`
are the objects at `out` and `in` once the engine has run. -/
def Pic32Crypto_nextIv (K : Header) (hw : Engine) (a : CryptoArgs) (outE inE : List Nat) :
    Option (List Nat) :=
  match a.iv with
  | none => none
  | some iv =>
    if a.ivLen > 0 then
      if a.dir = K.PIC32_ENCRYPTION then
        -- `out` is a `word32*`, so `out + (outLen - ivLen)` advances by words
        let copied := wordsOf (memWrite (bytesOf iv) 0
          (readBytes outE hw.stray (4 * (a.outLen - a.ivLen)) (toU32 a.ivLen)))
        if K.PIC32_NO_OUT_SWAP then some copied
        else some (storeWords copied 0 (ByteReverseWords copied (toU32 a.ivLen)))
      else
        some (storeWords iv 0 (ByteReverseWords
          (wordsOf (readBytes inE hw.stray (a.inLen - a.ivLen) (toU32 a.ivLen))) (toU32 a.ivLen)))
    else some iv

/-- `Pic32Crypto`. -/
def Pic32Crypto (K : Header) (hw : Engine) (fuel : Nat) (a : CryptoArgs) : Option CryptoResult :=
  let blockSize := Pic32GetBlockSize K a.algo
  -- check args
  if a.inAddr = 0 ∨ a.inLen ≤ 0 ∨ a.outAddr = 0 ∨ blockSize = 0 then
    some { ret := K.BAD_FUNC_ARG, out := a.out, iv := a.iv, job := none, events := [], reads := 0 }
  -- check pointer alignment - must be word aligned
  else if a.inAddr % 4 ≠ 0 ∨ a.outAddr % 4 ≠ 0 then
    some { ret := K.BUFFER_E, out := a.out, iv := a.iv, job := none, events := [], reads := 0 }
  else
    let sa := Pic32Crypto_setupSA K a
    let bd := Pic32Crypto_setupBD K a
    let job : Job := { sa := sa, bd := bd, src := a.inBytes.take a.inLen.toNat }
    -- cipher: clear output buffer
    let out1 := if a.key.isSome ∧ a.inAddr ≠ a.outAddr then memsetZero a.out (toU32 a.outLen)
                else a.out
    -- begin access to hardware
    if hw.lockRet = 0 then
      match waitReset hw.cecon fuel 0 with
      | none => none
      | some _ =>
        let start := [Ev.lock 0, Ev.reg Reg.CECON 64, Ev.reg Reg.CEINTSRC 15,
          Ev.bdp (PA.bd 0), Ev.reg Reg.CEINTEN 7,
          Ev.reg Reg.CECON (if K.PIC32_NO_OUT_SWAP then 0x25 else 0xa5)]
        -- wait for operation to complete
        let polled := pollLoop hw.pktif 0xFFFFFF 0 0xFFFFFF
        let ret := if hw.errop ∨ polled.2 ≤ 0 then K.ASYNC_OP_E else 0
        let outE := hw.dma out1
        let inE := if a.inAddr = a.outAddr then outE else a.inBytes
        let iv := Pic32Crypto_nextIv K hw a outE inE
        -- copy result to output
        let outR := if K.PIC32_NO_OUT_SWAP
          then memWrite outE 0 (bytesOf (ByteReverseWords (wordsOf outE) (toU32 a.outLen)))
          else outE
        some { ret := ret, out := outR, iv := iv, job := some job,
               events := start ++ [Ev.reg Reg.CEINTSRC 15, Ev.unlock], reads := polled.1 }
    else
      some { ret := hw.lockRet, out := out1, iv := a.iv, job := some job,
             events := [Ev.lock hw.lockRet], reads := 0 }

/-- `wc_Pic32Hash`. -/
def wc_Pic32Hash (K : Header) (hw : Engine) (fuel : Nat) (inAddr : Nat) (inBytes : List Nat)
    (inLen : Int) (outAddr : Nat) (out : List Nat) (outLen : Int) (algo : Int) :
    Option CryptoResult :=
  Pic32Crypto K hw fuel
    { inAddr := inAddr, inBytes := inBytes, inLen := inLen, outAddr := outAddr, out := out,
      outLen := outLen, dir := K.PIC32_ENCRYPTION, algo := algo, cryptoalgo := 0,
      key := none, keyLen := 0, iv := none, ivLen := 0 }

/-! ## Streaming hash engine -/

/-- `pic32mz_desc`: the crypt engine descriptor `gLHDesc`. -/
structure pic32mz_desc where
  currBd : Nat
  err : Int
  msgSize : Nat
  processed : Nat
  dbPtr : Nat
  engine_ready : Int
  bd : List bufferDescriptor
  sa : securityAssociation
  deriving DecidableEq, Repr

/-- What the engine and the host do during a streaming session. -/
structure RingHw where
  /-- Return value of `wolfSSL_CryptHwMutexLock()` (ignored by `reset_engine`). -/
  lockRet : Int
  /-- Value of the `k`-th read of `CECON` after the software reset. -/
  cecon : Nat → Nat
  /-- Whether the engine clears the enable flag of descriptor `i` right before
  the `k`-th time the driver polls enable flags. -/
  done : Nat → Nat → Bool
  /-- The digest object after the engine ran, from the object before. -/
  dma : List Nat → List Nat

/-- A descriptor at the moment the driver sets its `DESC_EN`: its index, its
fields, the memory its `SRCADDR` designates and the fill offset `dbPtr`. -/
structure Submission where
  idx : Nat
  bd : bufferDescriptor
  src : List Nat
  filled : Nat
  deriving DecidableEq, Repr

/-- The globals `gLHDesc` and `gLHDataBuf`, with a record of what the driver
did to the ring: `submitted` lists the descriptors enabled, `touched` lists
each store to a descriptor or its staging buffer by `update_engine` and
`start_engine` with the `DESC_EN` of that descriptor at that moment. -/
structure Ring where
  desc : pic32mz_desc
  dataBuf : List (List Nat)
  polls : Nat
  events : List Ev
  submitted : List Submission
  touched : List (Nat × Bool)

/-- The memory a descriptor source address designates. -/
def Ring.srcBytes (r : Ring) : PA → List Nat
  | PA.staging i => r.dataBuf.getD i []
  | PA.input data => data
  | _ => []

/-- The descriptor `bd[i]`. -/
def Ring.bdAt (r : Ring) (i : Nat) : bufferDescriptor := r.desc.bd.getD i {}

/-- A store to fields of `bd[i]`, recorded with the enable flag before it. -/
def Ring.setBd (r : Ring) (i : Nat) (f : bufferDescriptor → bufferDescriptor) : Ring :=
  { r with desc := { r.desc with bd := r.desc.bd.set i (f (r.bdAt i)) },
           touched := r.touched ++ [(i, (r.bdAt i).BD_CTRL.DESC_EN)] }

/-- The store `bd[i].BD_CTRL.DESC_EN = 1`, recorded as a submission. -/
def Ring.enable (r : Ring) (i : Nat) : Ring :=
  let b := r.bdAt i
  let b1 := { b with BD_CTRL := { b.BD_CTRL with DESC_EN := true } }
  { r with desc := { r.desc with bd := r.desc.bd.set i b1 },
           submitted := r.submitted ++
             [{ idx := i, bd := b1, src := r.srcBytes b1.SRCADDR, filled := r.desc.dbPtr }] }

/-- `XMEMCPY(&gLHDataBuf[i][off], src, src.length)`, recorded with the enable
flag of descriptor `i`. -/
def Ring.copyIn (r : Ring) (i off : Nat) (src : List Nat) : Ring :=
  { r with dataBuf := r.dataBuf.set i (memWrite (r.dataBuf.getD i []) off src),
           touched := r.touched ++ [(i, (r.bdAt i).BD_CTRL.DESC_EN)] }

/-- One poll of enable flags: the engine first clears the flags of the
descriptors it has finished. -/
def Ring.poll (hw : RingHw) (r : Ring) : Ring :=
  { r with
    desc := { r.desc with bd := r.desc.bd.enum.map (fun ib =>
      if hw.done r.polls ib.1 then { ib.2 with BD_CTRL := { ib.2.BD_CTRL with DESC_EN := false } }
      else ib.2) },
    polls := r.polls + 1 }

/-- Descriptor `i` as `reset_engine` initialises it. -/
def reset_bd (i : Nat) : bufferDescriptor :=
  { BD_CTRL := { LAST_BD := true, LIFM := true, PKT_INT_EN := true,
                 SA_FETCH_EN := decide (i = 0) },
    SA_ADDR := PA.sa,
    SRCADDR := PA.staging i,
    NXTPTR := if PIC32MZ_MAX_BD > i + 1 then PA.bd (i + 1) else PA.bd 0 }

/-- `reset_engine`. -/
def reset_engine (K : Header) (hw : RingHw) (fuel : Nat) (r : Ring) (algo : Int) : Option Ring :=
  match waitReset hw.cecon fuel 0 with
  | none => none
  | some _ =>
    some { r with
      desc := { currBd := 0, err := 0, msgSize := 0, processed := 0, dbPtr := 0,
                engine_ready := 0,
                bd := (List.range PIC32MZ_MAX_BD).map reset_bd,
                sa := { SA_CTRL := { ALGO := algo, LNC := 1, FB := 1, ENCTYPE := 1, LOADIV := 1 },
                        SA_ENCKEY := List.replicate K.encKeyWords 0,
                        SA_AUTHIV := List.replicate K.authIvWords 0,
                        SA_ENCIV := List.replicate K.encIvWords 0 } },
      dataBuf := List.replicate PIC32MZ_MAX_BD (List.replicate PIC32_BLOCK_SIZE 0),
      events := r.events ++ [Ev.lock hw.lockRet, Ev.reg Reg.CECON 64, Ev.reg Reg.CEINTSRC 15,
        Ev.bdp (PA.bd 0), Ev.reg Reg.CEPOLLCON 10,
        Ev.reg Reg.CECON (if K.PIC32_NO_OUT_SWAP then 0x27 else 0xa7)] }

/-- The loop `while (uc_desc->bd[desc->currBd].BD_CTRL.DESC_EN);`. -/
def waitDescFree (hw : RingHw) : Nat → Ring → Option Ring
  | 0, _ => none
  | fuel + 1, r =>
    let r1 := r.poll hw
    if (r1.bdAt r1.desc.currBd).BD_CTRL.DESC_EN then waitDescFree hw fuel r1 else some r1

/-- Lines 357-361 of `update_engine`: wrap up the buffer descriptor and enable
it so the engine can process. -/
def update_engine_submit (r : Ring) : Ring :=
  let r := r.setBd r.desc.currBd (fun b =>
    { b with MSGLEN := r.desc.msgSize,
             BD_CTRL := { b.BD_CTRL with BUFLEN := r.desc.dbPtr, LAST_BD := false, LIFM := false } })
  r.enable r.desc.currBd

/-- Lines 363-365 of `update_engine`: move to the next buffer descriptor, or
wrap around. -/
def update_engine_advance (r : Ring) : Ring :=
  { r with desc := { r.desc with
      currBd := if r.desc.currBd + 1 ≥ PIC32MZ_MAX_BD then 0 else r.desc.currBd + 1 } }

/-- Lines 368-369 of `update_engine`: point the new descriptor at the digest
and restart the fill offset. -/
def update_engine_rearm (hash : Nat) (r : Ring) : Ring :=
  let r := r.setBd r.desc.currBd (fun b => { b with UPDPTR := PA.ptr hash })
  { r with desc := { r.desc with dbPtr := 0 } }

/-- Lines 355-370 of `update_engine`: wrap up the full descriptor, enable it,
move to the next one and wait until the engine has released it. -/
def update_engine_flush (hw : RingHw) (fuel : Nat) (hash : Nat) (r : Ring) : Option Ring :=
  match waitDescFree hw fuel (update_engine_advance (update_engine_submit r)) with
  | none => none
  | some r => some (update_engine_rearm hash r)

/-- The loop `while (len)` of `update_engine`; `input` holds the `len` bytes
left. The first argument bounds the iterations (each consumes a byte). -/
def update_engine_loop (hw : RingHw) (fuel : Nat) (inRam : Bool) (hash : Nat) :
    Nat → Ring → List Nat → Option Ring
  | 0, r, input => if input.length = 0 then some r else none
  | n + 1, r, input =>
    if input.length = 0 then some r
    else
      match (if r.desc.dbPtr ≥ PIC32_BLOCK_SIZE then update_engine_flush hw fuel hash r
             else some r) with
      | none => none
      | some r =>
        if !inRam then
          -- inputting from flash: let the BD have the address
          let total := if input.length > PIC32MZ_MAX_BLOCK then PIC32MZ_MAX_BLOCK else input.length
          let r := r.setBd r.desc.currBd (fun b => { b with SRCADDR := PA.input input })
          let r := { r with desc := { r.desc with dbPtr := total } }
          update_engine_loop hw fuel inRam hash n r (input.drop total)
        else if input.length > toU32 ((PIC32_BLOCK_SIZE : Int) - r.desc.dbPtr) then
          let total := toU32 ((PIC32_BLOCK_SIZE : Int) - r.desc.dbPtr)
          let r := r.copyIn r.desc.currBd r.desc.dbPtr (input.take total)
          let r := { r with desc := { r.desc with dbPtr := PIC32_BLOCK_SIZE } }
          update_engine_loop hw fuel inRam hash n r (input.drop total)
        else
          let r := r.copyIn r.desc.currBd r.desc.dbPtr input
          let r := { r with desc := { r.desc with dbPtr := r.desc.dbPtr + input.length } }
          update_engine_loop hw fuel inRam hash n r []

/-- `update_engine`: `input` is the data at `input` (its length is `len`),
`inRam` the value of `PIC32MZ_IF_RAM(input)`, `hash` the digest pointer. -/
def update_engine (hw : RingHw) (fuel : Nat) (r : Ring) (input : List Nat) (inRam : Bool)
    (hash : Nat) : Option Ring :=
  let r := r.setBd r.desc.currBd (fun b => { b with UPDPTR := PA.ptr hash })
  update_engine_loop hw fuel inRam hash input.length r input

/-- `start_engine`. -/
def start_engine (r : Ring) : Ring :=
  let bufferLen := r.desc.dbPtr
  let bufferLen := if bufferLen % 4 ≠ 0 then (bufferLen + 4) - (bufferLen % 4) else bufferLen
  let r := r.setBd r.desc.currBd (fun b =>
    { b with BD_CTRL := { b.BD_CTRL with BUFLEN := bufferLen, LAST_BD := true, LIFM := true } })
  r.enable r.desc.currBd

/-- The `do ... while (engineRunning)` loop of `wait_engine`. -/
def waitAllFree (hw : RingHw) : Nat → Ring → Option Ring
  | 0, _ => none
  | fuel + 1, r =>
    let r1 := r.poll hw
    if r1.desc.bd.any (fun b => b.BD_CTRL.DESC_EN) then waitAllFree hw fuel r1 else some r1

/-- `wait_engine`: the ring and the digest object (`hash`) on return. -/
def wait_engine (K : Header) (hw : RingHw) (fuel : Nat) (r : Ring) (hash : List Nat)
    (hash_sz : Int) : Option (Ring × List Nat) :=
  match waitAllFree hw fuel r with
  | none => none
  | some r =>
    let hashE := hw.dma hash
    let hashR := if K.PIC32_NO_OUT_SWAP
      then memWrite hashE 0 (bytesOf (ByteReverseWords (wordsOf hashE) (toU32 hash_sz)))
      else hashE
    some ({ r with events := r.events ++ [Ev.unlock] }, hashR)

/-! ## Hash accumulation cache -/

/-- `hashUpdCache`. -/
structure hashUpdCache where
  /-- The pointer `buf` (`0` is `NULL`). -/
  buf : Nat
  bufLen : Nat
  updLen : Nat
  isCopy : Int
  finalLen : Nat
  deriving DecidableEq, Repr

/-- The memory around a hash context and the record of host calls. -/
structure World where
  /-- The object at each base address: inline scratch buffers and heap blocks. -/
  objs : Nat → List Nat
  /-- The pointers passed to `XFREE`, in call order. -/
  freed : List Nat
  /-- The object at `digest`. -/
  digest : List Nat
  /-- The object at `hash`. -/
  hash : List Nat
  /-- The streaming engine globals. -/
  ring : Ring
  /-- Mutex calls and register stores of one-shot jobs, in order. -/
  events : List Ev
  /-- The one-shot jobs set up, in order. -/
  jobs : List Job

/-- Replace the object at address `p`. -/
def World.setObj (w : World) (p : Nat) (bytes : List Nat) : World :=
  { w with objs := fun q => if q = p then bytes else w.objs q }

/-- `XFREE(p, heap, DYNAMIC_TYPE_HASH_TMP)`. -/
def World.free (w : World) (p : Nat) : World :=
  { w with freed := w.freed ++ [p] }

/-- Conversion of a `word32` to `int` (two's complement, 32 bits). -/
def toI32 (n : Nat) : Int :=
  if n % 4294967296 < 2147483648 then (n % 4294967296 : Nat) else (n % 4294967296 : Nat) - 4294967296

/-- `wc_Pic32HashCopy`: the destination cache on return (`none` for `NULL`). -/
def wc_Pic32HashCopy (dst : Option hashUpdCache) : Int × Option hashUpdCache :=
  match dst with
  | some d => (0, some { d with isCopy := 1 })
  | none => (0, none)

/-- Lines 472-477 of `wc_Pic32HashUpdate`: the new length padded to a multiple
of `PIC32_BLOCKSIZE_HASH` for the hardware. -/
def paddedLen (K : Header) (newLenUpd : Nat) : Nat :=
  let padRemain := newLenUpd % K.PIC32_BLOCKSIZE_HASH
  if padRemain ≠ 0 then (newLenUpd + (K.PIC32_BLOCKSIZE_HASH - padRemain)) % 4294967296
  else newLenUpd

/-- Lines 503-509 of `wc_Pic32HashUpdate`: copy the accumulated bytes forward
into `newBuf`, free the old buffer when a new one was allocated and the old one
is not `stdBuf`, then append the new data. -/
def wc_Pic32HashUpdate_store (w : World) (cache : hashUpdCache) (stdBuf newBuf : Nat)
    (isNewBuf : Bool) (data : List Nat) : World :=
  let w1 := if cache.buf ≠ 0 ∧ cache.updLen > 0 then
      let w2 := w.setObj newBuf (memWrite (w.objs newBuf) 0 ((w.objs cache.buf).take cache.updLen))
      if isNewBuf = true ∧ cache.buf ≠ stdBuf then w2.free cache.buf else w2
    else w
  w1.setObj newBuf (memWrite (w1.objs newBuf) cache.updLen data)

/-- `wc_Pic32HashUpdate`. `data` are the `len` bytes at `data`, `inRam` is
`PIC32MZ_IF_RAM(data)`, `alloc` is what `XMALLOC` returns if it is called
(`0` for `NULL`); a block it returns holds `newLenPad` bytes. -/
def wc_Pic32HashUpdate (K : Header) (hw : RingHw) (fuel : Nat) (w : World)
    (cache : hashUpdCache) (stdBuf : Nat) (stdBufLen : Nat) (digest : Nat)
    (data : List Nat) (inRam : Bool) (algo : Int) (alloc : Nat) :
    Option (Int × hashUpdCache × World) :=
  let len := data.length
  -- if final length is set then pass straight to hardware
  if cache.finalLen ≠ 0 then
    match (if cache.bufLen = 0 then
             (reset_engine K hw fuel w.ring algo).map (fun r =>
               { r with desc := { r.desc with msgSize := cache.finalLen } })
           else some w.ring) with
    | none => none
    | some r =>
      match update_engine hw fuel r data inRam digest with
      | none => none
      | some r =>
        some (0, { cache with bufLen := (cache.bufLen + len) % 4294967296 }, { w with ring := r })
  else
    -- calculate new len
    let newLenUpd := (cache.updLen + len) % 4294967296
    -- calculate padded len - pad buffer at 64-bytes for hardware
    let newLenPad := paddedLen K newLenUpd
    -- determine buffer source
    if newLenPad ≤ stdBufLen then
      -- use standard buffer
      some (0, { cache with buf := stdBuf, updLen := newLenUpd, bufLen := newLenPad },
            wc_Pic32HashUpdate_store w cache stdBuf stdBuf false data)
    else if newLenPad > cache.bufLen then
      -- alloc buffer
      if alloc = 0 then
        if cache.buf ≠ stdBuf ∧ cache.isCopy = 0 then
          some (K.MEMORY_E, { cache with buf := 0, updLen := 0, bufLen := 0 }, w.free cache.buf)
        else some (K.MEMORY_E, cache, w)
      else
        some (0, { cache with buf := alloc, updLen := newLenUpd, bufLen := newLenPad, isCopy := 0 },
              wc_Pic32HashUpdate_store (w.setObj alloc (List.replicate newLenPad 0)) cache stdBuf
                alloc true data)
    else
      -- use existing buffer
      some (0, { cache with updLen := newLenUpd, bufLen := newLenPad },
            wc_Pic32HashUpdate_store w cache stdBuf cache.buf false data)

/-- The string literal `sha256EmptyHash`. -/
def sha256EmptyHash : List Nat :=
  [0xe3, 0xb0, 0xc4, 0x42, 0x98, 0xfc, 0x1c, 0x14, 0x9a, 0xfb, 0xf4, 0xc8, 0x99, 0x6f, 0xb9,
   0x24, 0x27, 0xae, 0x41, 0xe4, 0x64, 0x9b, 0x93, 0x4c, 0xa4, 0x95, 0x99, 0x1b, 0x78, 0x52,
   0xb8, 0x55]

/-- The string literal `shaEmptyHash`. -/
def shaEmptyHash : List Nat :=
  [0xda, 0x39, 0xa3, 0xee, 0x5e, 0x6b, 0x4b, 0x0d, 0x32, 0x55, 0xbf, 0xef, 0x95, 0x60, 0x18,
   0x90, 0xaf, 0xd8, 0x07, 0x09]

/-- The string literal `md5EmptyHash`. -/
def md5EmptyHash : List Nat :=
  [0xd4, 0x1d, 0x8c, 0xd9, 0x8f, 0x00, 0xb2, 0x04, 0xe9, 0x80, 0x09, 0x98, 0xec, 0xf8, 0x42,
   0x7e]

/-- `XMEMCPY(dst, src, n)` with `n` an `int`: the first `n` bytes of `src`
(as far as `src` reaches) stored at the start of `dst`. -/
def memcpyN (dst src : List Nat) (n : Int) : List Nat :=
  memWrite dst 0 (src.take (toU32 n))

/-- `wc_Pic32HashFinal`. -/
def wc_Pic32HashFinal (K : Header) (hw : Engine) (rhw : RingHw) (fuel : Nat) (w : World)
    (cache : hashUpdCache) (stdBuf : Nat) (digest : Nat) (digestSz : Int) (algo : Int) :
    Option (Int × hashUpdCache × World) :=
  -- if room add the pad
  let w := if cache.buf ≠ 0 ∧ cache.updLen < cache.bufLen
    then w.setObj cache.buf (memWrite (w.objs cache.buf) cache.updLen [0x80]) else w
  -- free the buffer and reset the cache
  let finish := fun (ret : Int) (cache : hashUpdCache) (w : World) =>
    let w := if cache.buf ≠ 0 ∧ cache.buf ≠ stdBuf ∧ cache.isCopy = 0 then w.free cache.buf else w
    (ret, { cache with buf := 0, bufLen := 0, updLen := 0 }, w)
  if cache.finalLen ≠ 0 then
    match wait_engine K rhw fuel (start_engine w.ring) w.digest digestSz with
    | none => none
    | some (r, dg) =>
      some (finish 0 { cache with finalLen := 0 }
        { w with ring := r, digest := dg, hash := memcpyN w.hash dg digestSz })
  else if cache.updLen = 0 then
    -- handle empty input
    let w :=
      if algo = K.PIC32_ALGO_SHA256 then { w with hash := memcpyN w.hash sha256EmptyHash digestSz }
      else if algo = K.PIC32_ALGO_SHA1 then { w with hash := memcpyN w.hash shaEmptyHash digestSz }
      else if algo = K.PIC32_ALGO_MD5 then { w with hash := memcpyN w.hash md5EmptyHash digestSz }
      else w
    some (finish 0 cache w)
  else
    match wc_Pic32Hash K hw fuel cache.buf (w.objs cache.buf) (toI32 cache.updLen)
            digest w.digest digestSz algo with
    | none => none
    | some res =>
      let w := { w with digest := res.out, events := w.events ++ res.events,
                        jobs := w.jobs ++ res.job.toList }
      let w := if res.ret = 0 then { w with hash := memcpyN w.hash res.out digestSz } else w
      some (finish res.ret cache w)

/-- An engine that grants the mutex and completes at the first poll, leaving the
destination as it is; used to evaluate the embedding on concrete inputs. -/
def idleEngine : Engine :=
  { lockRet := 0, cecon := fun _ => 0, pktif := fun _ => true, errop := false,
    dma := fun o => o, stray := fun _ => 0 }

/-- The validation of `Pic32Crypto` rejects the arguments (line 93). -/
def CryptoArgs.invalid (K : Header) (a : CryptoArgs) : Prop :=
  a.inAddr = 0 ∨ a.inLen ≤ 0 ∨ a.outAddr = 0 ∨
    a.algo ∉ [K.PIC32_ALGO_HMAC1, K.PIC32_ALGO_SHA256, K.PIC32_ALGO_SHA1, K.PIC32_ALGO_MD5,
              K.PIC32_ALGO_AES, K.PIC32_ALGO_TDES, K.PIC32_ALGO_DES]

/-- The alignment check of `Pic32Crypto` rejects the pointers (line 98). -/
def CryptoArgs.misaligned (a : CryptoArgs) : Prop :=
  a.inAddr % 4 ≠ 0 ∨ a.outAddr % 4 ≠ 0

/-- The seven block sizes of the header are non-zero. -/
def Header.blockSizesNonzero (K : Header) : Prop :=
  K.PIC32_BLOCKSIZE_HMAC ≠ 0 ∧ K.PIC32_BLOCKSIZE_SHA256 ≠ 0 ∧ K.PIC32_BLOCKSIZE_SHA1 ≠ 0 ∧
  K.PIC32_BLOCKSIZE_MD5 ≠ 0 ∧ K.PIC32_BLOCKSIZE_AES ≠ 0 ∧ K.PIC32_BLOCKSIZE_TDES ≠ 0 ∧
  K.PIC32_BLOCKSIZE_DES ≠ 0


/-- A CBC encryption of one block with a 128-bit key and an IV, used to
evaluate the embedding on a concrete input. -/
def aesDemoArgs : CryptoArgs :=
  { inAddr := 4096, inBytes := List.replicate 16 0, inLen := 16,
    outAddr := 8192, out := List.replicate 16 0, outLen := 16,
    dir := 1, algo := 4, cryptoalgo := 9,
    key := some [0x03020100, 0x07060504, 0x0b0a0908, 0x0f0e0d0c], keyLen := 16,
    iv := some [0x13121110, 0x17161514, 0x1b1a1918, 0x1f1e1d1c], ivLen := 16 }

/-- An engine whose mutex is refused with `BAD_MUTEX_E` (-106). -/
def busyEngine : Engine :=
  { lockRet := -106, cecon := fun _ => 0, pktif := fun _ => true, errop := false,
    dma := fun o => o, stray := fun _ => 0 }

/-- The engine eventually finishes every descriptor: from any poll on, each
descriptor has its enable flag cleared at some later poll. -/
def RingHw.live (hw : RingHw) : Prop := ∀ i n, ∃ k, n ≤ k ∧ hw.done k i = true

/-- The call reaches `XMALLOC` (line 485): no final length is declared and the
padded new length exceeds both the inline buffer and the current capacity. -/
def reachesAlloc (K : Header) (cache : hashUpdCache) (stdBufLen len : Nat) : Prop :=
  cache.finalLen = 0 ∧
  ¬ paddedLen K ((cache.updLen + len) % 4294967296) ≤ stdBufLen ∧
  paddedLen K ((cache.updLen + len) % 4294967296) > cache.bufLen

/-- An engine that clears every descriptor at every poll. -/
def idleRingHw : RingHw :=
  { lockRet := 0, cecon := fun _ => 0, done := fun _ _ => true, dma := fun o => o }

/-- The zero-initialised statics `gLHDesc` and `gLHDataBuf`. -/
def initRing : Ring :=
  { desc := { currBd := 0, err := 0, msgSize := 0, processed := 0, dbPtr := 0, engine_ready := 0,
              bd := List.replicate PIC32MZ_MAX_BD {},
              sa := { SA_CTRL := {}, SA_ENCKEY := [], SA_AUTHIV := [], SA_ENCIV := [] } },
    dataBuf := List.replicate PIC32MZ_MAX_BD (List.replicate PIC32_BLOCK_SIZE 0),
    polls := 0, events := [], submitted := [], touched := [] }

/-- A memory with a 64-byte inline scratch buffer at address 4096, 32-byte
digest and output objects, and nothing freed yet. -/
def demoWorld : World :=
  { objs := fun p => if p = 4096 then List.replicate 64 0 else [],
    freed := [], digest := List.replicate 32 0, hash := List.replicate 32 0,
    ring := initRing, events := [], jobs := [] }

/-- Lines 573-580 of `wc_Pic32HashFinal`: the buffer is passed to `XFREE` when
it is non-`NULL`, not the inline scratch buffer and the cache is no copy. -/
def freesBuffer (cache : hashUpdCache) (stdBuf : Nat) : Prop :=
  cache.buf ≠ 0 ∧ cache.buf ≠ stdBuf ∧ cache.isCopy = 0

instance (cache : hashUpdCache) (stdBuf : Nat) : Decidable (freesBuffer cache stdBuf) := by
  unfold freesBuffer; infer_instance

/-- The memory after the pad write of `wc_Pic32HashFinal` (lines 520-523). -/
def padWorld (w : World) (cache : hashUpdCache) : World :=
  if cache.buf ≠ 0 ∧ cache.updLen < cache.bufLen
    then w.setObj cache.buf (memWrite (w.objs cache.buf) cache.updLen [0x80]) else w

/-- The memory after the final `XFREE` of `wc_Pic32HashFinal` (lines 573-576). -/
def freeWorld (w : World) (cache : hashUpdCache) (stdBuf : Nat) : World :=
  if cache.buf ≠ 0 ∧ cache.buf ≠ stdBuf ∧ cache.isCopy = 0 then w.free cache.buf else w

/-- A cache that is no copy holds no buffer, its inline scratch buffer `s`, or
a heap block that was not passed to `XFREE` and is no inline buffer. -/
def Owns (s a b : Nat) (c : hashUpdCache) (freed : List Nat) : Prop :=
  c.isCopy = 0 → c.buf = 0 ∨ c.buf = s ∨ (c.buf ∉ freed ∧ c.buf ≠ a ∧ c.buf ≠ b)

/-- Ownership invariant of two contexts `x`, `y` with inline buffers `sx`, `sy`
over the `XFREE` record: each owner's heap block is live, two owners hold
different blocks, no block was freed twice and no inline buffer was freed. -/
def Inv2 (sx sy : Nat) (x y : hashUpdCache) (freed : List Nat) : Prop :=
  Owns sx sx sy x freed ∧ Owns sy sx sy y freed ∧
  (x.isCopy = 0 → y.isCopy = 0 → x.buf = y.buf → x.buf = 0) ∧
  (freed.filter (fun p => decide (p ≠ 0))).Nodup ∧ sx ∉ freed ∧ sy ∉ freed

/-- One call on the original context (`dup = false`) or on its duplicate
(`dup = true`). -/
inductive CacheOp
  | update (dup : Bool) (data : List Nat) (inRam : Bool) (alloc : Nat)
  | final (dup : Bool)

/-- An original hash context and its duplicate, over one memory. -/
structure Pair where
  orig : hashUpdCache
  dup : hashUpdCache
  w : World

/-- The fixed arguments of the calls on the two contexts: `stdO` and `stdD` are
the inline scratch buffers of the original and of the duplicate. -/
structure PairEnv where
  K : Header
  rhw : RingHw
  ehw : Engine
  fuel : Nat
  stdO : Nat
  stdD : Nat
  stdBufLen : Nat
  digest : Nat
  digestSz : Int
  algo : Int

/-- One call on one of the two contexts. -/
def stepPair (E : PairEnv) (s : Pair) : CacheOp → Option Pair
  | CacheOp.update false data inRam alloc =>
    (wc_Pic32HashUpdate E.K E.rhw E.fuel s.w s.orig E.stdO E.stdBufLen E.digest data inRam
      E.algo alloc).map (fun r => { s with orig := r.2.1, w := r.2.2 })
  | CacheOp.update true data inRam alloc =>
    (wc_Pic32HashUpdate E.K E.rhw E.fuel s.w s.dup E.stdD E.stdBufLen E.digest data inRam
      E.algo alloc).map (fun r => { s with dup := r.2.1, w := r.2.2 })
  | CacheOp.final false =>
    (wc_Pic32HashFinal E.K E.ehw E.rhw E.fuel s.w s.orig E.stdO E.digest E.digestSz
      E.algo).map (fun r => { s with orig := r.2.1, w := r.2.2 })
  | CacheOp.final true =>
    (wc_Pic32HashFinal E.K E.ehw E.rhw E.fuel s.w s.dup E.stdD E.digest E.digestSz
      E.algo).map (fun r => { s with dup := r.2.1, w := r.2.2 })

/-- A sequence of calls on the two contexts. -/
def runPair (E : PairEnv) : Pair → List CacheOp → Option Pair
  | s, [] => some s
  | s, op :: rest =>
    match stepPair E s op with
    | none => none
    | some s1 => runPair E s1 rest

/-- The update of cache `c`, whose inline scratch buffer is `std`, is
admissible: a block returned by `XMALLOC` is fresh (never passed to `XFREE`
before, no inline buffer, held by neither context), and the update is not the
one in which line 506 frees a buffer the cache does not own: a copy-flagged
cache that holds data in a buffer other than its own inline buffer and
allocates a new one. -/
def admissibleUpdate (E : PairEnv) (s : Pair) (c : hashUpdCache) (std len alloc : Nat) : Prop :=
  (alloc ≠ 0 → alloc ∉ s.w.freed ∧ alloc ≠ E.stdO ∧ alloc ≠ E.stdD ∧ alloc ≠ s.orig.buf ∧
    alloc ≠ s.dup.buf) ∧
  ¬ (c.isCopy ≠ 0 ∧ c.buf ≠ 0 ∧ c.buf ≠ std ∧ c.updLen > 0 ∧
      reachesAlloc E.K c E.stdBufLen len ∧ alloc ≠ 0)

/-- Every update of the run is admissible in the state it is made in. -/
def Admissible (E : PairEnv) : Pair → List CacheOp → Prop
  | _, [] => True
  | s, op :: rest =>
    (match op with
      | CacheOp.update false data _ alloc =>
        admissibleUpdate E s s.orig E.stdO data.length alloc
      | CacheOp.update true data _ alloc =>
        admissibleUpdate E s s.dup E.stdD data.length alloc
      | CacheOp.final _ => True) ∧
    match stepPair E s op with
    | none => True
    | some s1 => Admissible E s1 rest

/-- The arguments of the demo runs on two contexts: inline buffers of 64 bytes at
4096 (original) and 8192 (duplicate). -/
def demoEnv : PairEnv :=
  { K := wolfHeader, rhw := idleRingHw, ehw := idleEngine, fuel := 1, stdO := 4096,
    stdD := 8192, stdBufLen := 64, digest := 20480, digestSz := 32, algo := 32 }

/-- A memory with the two inline buffers and a 128-byte heap block at 12288. -/
def demoHeap : World :=
  { objs := fun p => if p = 4096 ∨ p = 8192 then List.replicate 64 0
                     else if p = 12288 then List.replicate 128 0 else [],
    freed := [], digest := List.replicate 32 0, hash := List.replicate 32 0,
    ring := initRing, events := [], jobs := [] }

/-- An original holding 100 bytes in the heap block at 12288. -/
def heapCache : hashUpdCache :=
  { buf := 12288, bufLen := 128, updLen := 100, isCopy := 0, finalLen := 0 }

/-- An original holding 10 bytes in its inline buffer at 4096. -/
def inlineCache : hashUpdCache :=
  { buf := 4096, bufLen := 64, updLen := 10, isCopy := 0, finalLen := 0 }

/-- A streaming session in protocol order: `reset_engine`, the assignment
`gLHDesc.msgSize = msgSize`, one `update_engine` call per chunk (its data and
whether it lies in RAM), then `start_engine`. -/
def streamSession (K : Header) (hw : RingHw) (fuel : Nat) (algo : Int) (hash : Nat)
    (r0 : Ring) (msgSize : Nat) (chunks : List (List Nat × Bool)) : Option Ring :=
  match reset_engine K hw fuel r0 algo with
  | none => none
  | some r =>
    (chunks.foldlM (fun r ch => update_engine hw fuel r ch.1 ch.2 hash)
      { r with desc := { r.desc with msgSize := msgSize } }).map start_engine

/-- The data handed to the engine: the source bytes of the descriptors enabled,
in submission order, each taken to its filled length. -/
def Ring.handed (r : Ring) : List Nat :=
  r.submitted.flatMap (fun s => s.src.take s.filled)

/-- The engine clears the enable flag of any descriptor within `fuel` polls. -/
def RingHw.responsive (hw : RingHw) (fuel : Nat) : Prop :=
  ∀ i n, ∃ k, n ≤ k ∧ k < n + fuel ∧ hw.done k i = true

/-- The ring is laid out as `reset_engine` leaves it: `PIC32MZ_MAX_BD`
descriptors, each reading from its own staging buffer of `PIC32_BLOCK_SIZE`
bytes, and the cursors are in range. -/
def RingOk (r : Ring) : Prop :=
  r.desc.bd.length = PIC32MZ_MAX_BD ∧ r.dataBuf.length = PIC32MZ_MAX_BD ∧
  (∀ i, i < PIC32MZ_MAX_BD → (r.dataBuf.getD i []).length = PIC32_BLOCK_SIZE) ∧
  (∀ i, i < PIC32MZ_MAX_BD → (r.bdAt i).SRCADDR = PA.staging i) ∧
  r.desc.currBd < PIC32MZ_MAX_BD ∧ r.desc.dbPtr ≤ PIC32_BLOCK_SIZE

/-- The bytes `msg` fed so far are those handed to the engine followed by the
filled part of the current staging buffer. -/
def Staged (r : Ring) (msg : List Nat) : Prop :=
  RingOk r ∧ r.handed ++ (r.dataBuf.getD r.desc.currBd []).take r.desc.dbPtr = msg

/-- `r'` differs from `r` only in enable flags and the poll count. -/
def SameButEnable (r r' : Ring) : Prop :=
  r'.dataBuf = r.dataBuf ∧ r'.submitted = r.submitted ∧ r'.desc.currBd = r.desc.currBd ∧
  r'.desc.dbPtr = r.desc.dbPtr ∧ r'.desc.msgSize = r.desc.msgSize ∧
  r'.desc.bd.length = r.desc.bd.length ∧ ∀ i, (r'.bdAt i).SRCADDR = (r.bdAt i).SRCADDR

/-- An engine whose completion flag is seen set at the third read. -/
def slowEngine : Engine :=
  { lockRet := 0, cecon := fun _ => 0, pktif := fun k => decide (k = 2), errop := false,
    dma := fun o => o, stray := fun _ => 0 }

/-- `wc_Pic32AesCrypt`: `sz` is a `word32`, passed on as the `int` lengths of
`Pic32Crypto`. -/
def wc_Pic32AesCrypt (K : Header) (hw : Engine) (fuel : Nat) (key : Option (List Nat))
    (keyLen : Int) (iv : Option (List Nat)) (ivLen : Int) (outAddr : Nat) (out : List Nat)
    (inAddr : Nat) (inBytes : List Nat) (sz : Nat) (dir algo cryptoalgo : Int) :
    Option CryptoResult :=
  Pic32Crypto K hw fuel
    { inAddr := inAddr, inBytes := inBytes, inLen := toI32 sz, outAddr := outAddr, out := out,
      outLen := toI32 sz, dir := dir, algo := algo, cryptoalgo := cryptoalgo,
      key := key, keyLen := keyLen, iv := iv, ivLen := ivLen }

/-- The fields of `Aes` the CBC functions use: the key words, the key length
and the chaining register `reg`. -/
structure Aes where
  key : List Nat
  keylen : Int
  reg : List Nat
  deriving DecidableEq, Repr

/-- State on return from `wc_AesCbcEncrypt` / `wc_AesCbcDecrypt`. -/
structure AesCbcResult where
  ret : Int
  /-- The words of `aes->reg`. -/
  reg : List Nat
  /-- The object at `out`. -/
  out : List Nat
  /-- Mutex calls and register stores, in order. -/
  events : List Ev
  /-- The control blocks built, `none` when no job was set up. -/
  job : Option Job

/-- `wc_AesCbcEncrypt`. -/
def wc_AesCbcEncrypt (K : Header) (hw : Engine) (fuel : Nat) (aes : Aes) (outAddr : Nat)
    (out : List Nat) (inAddr : Nat) (inBytes : List Nat) (sz : Nat) : Option AesCbcResult :=
  -- hardware fails on input that is not a multiple of AES block size
  if sz % K.AES_BLOCK_SIZE ≠ 0 then
    some { ret := K.BAD_FUNC_ARG, reg := aes.reg, out := out, events := [], job := none }
  else
    match wc_Pic32AesCrypt K hw fuel (some aes.key) aes.keylen (some aes.reg) K.AES_BLOCK_SIZE
        outAddr out inAddr inBytes sz K.PIC32_ENCRYPTION K.PIC32_ALGO_AES
        K.PIC32_CRYPTOALGO_RCBC with
    | none => none
    | some res =>
      let reg := res.iv.getD aes.reg
      -- store iv for next call
      let reg := if res.ret = 0
        then wordsOf (memWrite (bytesOf reg) 0
          (readBytes res.out hw.stray ((sz : Int) - K.AES_BLOCK_SIZE) K.AES_BLOCK_SIZE))
        else reg
      some { ret := res.ret, reg := reg, out := res.out, events := res.events, job := res.job }

/-- `wc_AesCbcDecrypt`. -/
def wc_AesCbcDecrypt (K : Header) (hw : Engine) (fuel : Nat) (aes : Aes) (outAddr : Nat)
    (out : List Nat) (inAddr : Nat) (inBytes : List Nat) (sz : Nat) : Option AesCbcResult :=
  -- hardware fails on input that is not a multiple of AES block size
  if sz % K.AES_BLOCK_SIZE ≠ 0 then
    some { ret := K.BAD_FUNC_ARG, reg := aes.reg, out := out, events := [], job := none }
  else
    let scratch := readBytes inBytes hw.stray ((sz : Int) - K.AES_BLOCK_SIZE) K.AES_BLOCK_SIZE
    match wc_Pic32AesCrypt K hw fuel (some aes.key) aes.keylen (some aes.reg) K.AES_BLOCK_SIZE
        outAddr out inAddr inBytes sz K.PIC32_DECRYPTION K.PIC32_ALGO_AES
        K.PIC32_CRYPTOALGO_RCBC with
    | none => none
    | some res =>
      let reg := res.iv.getD aes.reg
      -- store iv for next call
      let reg := if res.ret = 0 then wordsOf (memWrite (bytesOf reg) 0 scratch) else reg
      some { ret := res.ret, reg := reg, out := res.out, events := res.events, job := res.job }

/-- An AES context with a 128-bit key and a chaining register. -/
def demoAes : Aes :=
  { key := [0x03020100, 0x07060504, 0x0b0a0908, 0x0f0e0d0c, 0, 0, 0, 0], keylen := 16,
    reg := [0x13121110, 0x17161514, 0x1b1a1918, 0x1f1e1d1c] }

/-- A streaming session run to its end: `streamSession` followed by
`wait_engine` on the digest object. -/
def streamSessionWait (K : Header) (hw : RingHw) (fuel : Nat) (algo : Int) (hash : Nat)
    (r0 : Ring) (msgSize : Nat) (chunks : List (List Nat × Bool)) (digest : List Nat)
    (hash_sz : Int) : Option (Ring × List Nat) :=
  match streamSession K hw fuel algo hash r0 msgSize chunks with
  | none => none
  | some r => wait_engine K hw fuel r digest hash_sz

/-- Between two driver steps of a session with declared length `L`: the ring
has its `PIC32MZ_MAX_BD` descriptors, the current one is disabled, every store
recorded since `t0` hit a disabled descriptor of the ring, and every descriptor
submitted since `s0` carried `MSGLEN = L`. -/
def Quiet (L : Nat) (t0 : List (Nat × Bool)) (s0 : List Submission) (r : Ring) : Prop :=
  r.desc.bd.length = PIC32MZ_MAX_BD ∧ r.desc.currBd < PIC32MZ_MAX_BD ∧
  (r.bdAt r.desc.currBd).BD_CTRL.DESC_EN = false ∧ r.desc.msgSize = L ∧
  (∃ new, r.touched = t0 ++ new ∧ ∀ t ∈ new, t.2 = false ∧ t.1 < PIC32MZ_MAX_BD) ∧
  (∃ subs, r.submitted = s0 ++ subs ∧ ∀ s ∈ subs, s.bd.MSGLEN = L)

/-- Between two driver steps of a session: the ring has its descriptors, the
fill offset is at most `PIC32MZ_MAX_BLOCK`, and every descriptor submitted since
`s0` carried a `BUFLEN` of at most `PIC32MZ_MAX_BLOCK`. -/
def Capped (s0 : List Submission) (r : Ring) : Prop :=
  r.desc.bd.length = PIC32MZ_MAX_BD ∧ r.desc.currBd < PIC32MZ_MAX_BD ∧
  r.desc.dbPtr ≤ PIC32MZ_MAX_BLOCK ∧
  ∃ subs, r.submitted = s0 ++ subs ∧ ∀ s ∈ subs, s.bd.BD_CTRL.BUFLEN ≤ PIC32MZ_MAX_BLOCK

/-! ## Theorems: one-shot job engine -/

@[simp]
theorem setObj_freed (w : World) (p : Nat) (b : List Nat) :
    (w.setObj p b).freed = w.freed := rfl
@[simp]
theorem setObj_events (w : World) (p : Nat) (b : List Nat) :
    (w.setObj p b).events = w.events := rfl
@[simp]
theorem setObj_jobs (w : World) (p : Nat) (b : List Nat) :
    (w.setObj p b).jobs = w.jobs := rfl
@[simp]
theorem setObj_ring (w : World) (p : Nat) (b : List Nat) :
    (w.setObj p b).ring = w.ring := rfl
@[simp]
theorem setObj_hash (w : World) (p : Nat) (b : List Nat) :
    (w.setObj p b).hash = w.hash := rfl
@[simp]
theorem setObj_digest (w : World) (p : Nat) (b : List Nat) :
    (w.setObj p b).digest = w.digest := rfl
@[simp]
theorem free_freed (w : World) (p : Nat) : (w.free p).freed = w.freed ++ [p] := rfl
@[simp]
theorem free_events (w : World) (p : Nat) : (w.free p).events = w.events := rfl
@[simp]
theorem free_jobs (w : World) (p : Nat) : (w.free p).jobs = w.jobs := rfl
@[simp]
theorem free_ring (w : World) (p : Nat) : (w.free p).ring = w.ring := rfl
@[simp]
theorem free_hash (w : World) (p : Nat) : (w.free p).hash = w.hash := rfl
@[simp]
theorem free_digest (w : World) (p : Nat) : (w.free p).digest = w.digest := rfl
@[simp]
theorem free_objs (w : World) (p : Nat) : (w.free p).objs = w.objs := rfl

theorem testBit_hi (v : Nat) (hv : v < 4294967296) (j : Nat) (hj : 32 ≤ j) :
    v.testBit j = false := by
  apply Nat.testBit_lt_two_pow
  calc v < 2 ^ 32 := by simpa using hv
    _ ≤ 2 ^ j := Nat.pow_le_pow_right (by norm_num) hj

/-- `ByteReverseWord32` written with one mask and shift per byte. -/
theorem ByteReverseWord32_bitwise (v : Nat) (hv : v < 4294967296) :
    ByteReverseWord32 v =
      ((v &&& 255) <<< 24) ||| ((((v >>> 8) &&& 255) <<< 16) |||
        ((((v >>> 16) &&& 255) <<< 8) ||| (v >>> 24))) := by
  apply Nat.eq_of_testBit_eq
  intro i
  simp only [ByteReverseWord32, rotlFixed]
  have e : (4294967296 : Nat) = 2 ^ 32 := by norm_num
  have m1 : (0xFF00FF00 : Nat) = ((2 ^ 8 - 1) <<< 8) ||| ((2 ^ 8 - 1) <<< 24) := by decide
  have m2 : (0x00FF00FF : Nat) = (2 ^ 8 - 1) ||| ((2 ^ 8 - 1) <<< 16) := by decide
  have m3 : (255 : Nat) = 2 ^ 8 - 1 := by decide
  rw [e, m1, m2, m3]
  simp only [Nat.testBit_or, Nat.testBit_and, Nat.testBit_shiftRight, Nat.testBit_shiftLeft,
    Nat.testBit_mod_two_pow, Nat.testBit_two_pow_sub_one]
  by_cases hi : i < 32
  · interval_cases i <;> simp [testBit_hi v hv]
  · have h1 : v.testBit (8 + (16 + i)) = false := testBit_hi v hv _ (by omega)
    have b1 : ¬ (16 + i < 32) := by omega
    have b2 : ¬ (i - 24 < 8) := by omega
    have b3 : ¬ (i - 16 < 8) := by omega
    have b4 : ¬ (i - 8 < 8) := by omega
    have a1 : i ≥ 16 := by omega
    have a2 : i ≥ 24 := by omega
    have a3 : i ≥ 8 := by omega
    simp [a1, a2, a3, h1, b1, b2, b3, b4, testBit_hi v hv (24 + i) (by omega)]
    intro hlt
    omega

/-- `ByteReverseWord32` reverses the four bytes of a word. -/
theorem ByteReverseWord32_bytes (b0 b1 b2 b3 : Nat) (h0 : b0 < 256) (h1 : b1 < 256)
    (h2 : b2 < 256) (h3 : b3 < 256) :
    ByteReverseWord32 (b0 + 256 * b1 + 65536 * b2 + 16777216 * b3)
      = b3 + 256 * b2 + 65536 * b1 + 16777216 * b0 := by
  rw [ByteReverseWord32_bitwise _ (by omega)]
  have e1 : (b0 + 256 * b1 + 65536 * b2 + 16777216 * b3) &&& 255 = b0 := by
    have : (255 : Nat) = 2 ^ 8 - 1 := by decide
    rw [this, Nat.and_pow_two_sub_one_eq_mod]; omega
  have e2 : ((b0 + 256 * b1 + 65536 * b2 + 16777216 * b3) >>> 8) &&& 255 = b1 := by
    have : (255 : Nat) = 2 ^ 8 - 1 := by decide
    rw [this, Nat.and_pow_two_sub_one_eq_mod, Nat.shiftRight_eq_div_pow]; omega
  have e3 : ((b0 + 256 * b1 + 65536 * b2 + 16777216 * b3) >>> 16) &&& 255 = b2 := by
    have : (255 : Nat) = 2 ^ 8 - 1 := by decide
    rw [this, Nat.and_pow_two_sub_one_eq_mod, Nat.shiftRight_eq_div_pow]; omega
  have e4 : (b0 + 256 * b1 + 65536 * b2 + 16777216 * b3) >>> 24 = b3 := by
    rw [Nat.shiftRight_eq_div_pow]; omega
  rw [e1, e2, e3, e4]
  simp only [Nat.shiftLeft_eq]
  have f1 : b2 * 2 ^ 8 ||| b3 = 2 ^ 8 * b2 + b3 := by
    rw [Nat.mul_comm]; exact (Nat.mul_add_lt_is_or (by omega) b2).symm
  have f2 : b1 * 2 ^ 16 ||| (2 ^ 8 * b2 + b3) = 2 ^ 16 * b1 + (2 ^ 8 * b2 + b3) := by
    rw [Nat.mul_comm]; exact (Nat.mul_add_lt_is_or (by omega) b1).symm
  have f3 : b0 * 2 ^ 24 ||| (2 ^ 16 * b1 + (2 ^ 8 * b2 + b3))
      = 2 ^ 24 * b0 + (2 ^ 16 * b1 + (2 ^ 8 * b2 + b3)) := by
    rw [Nat.mul_comm]; exact (Nat.mul_add_lt_is_or (by omega) b0).symm
  rw [f1, f2, f3]
  omega

theorem storeWords_right (n : Nat) (ws : List Nat) (h : ws.length ≤ n) :
    storeWords (List.replicate n 0) ((n : Int) - (ws.length : Nat)) ws
      = List.replicate (n - ws.length) 0 ++ ws := by
  apply List.ext_getElem
  · simp [storeWords]; omega
  · intro j h1 h2
    simp only [storeWords, List.length_replicate, List.getElem_map, List.getElem_range]
    simp only [storeWords, List.length_map, List.length_range, List.length_replicate] at h1
    by_cases hj : j < n - ws.length
    · rw [List.getElem_append_left (by simpa using hj)]
      have : ¬ (0 ≤ (j : Int) - ((n : Int) - (ws.length : Nat))) := by omega
      simp [this, List.getD_eq_getElem?_getD, h1]
    · rw [List.getElem_append_right (by simpa using hj)]
      have h3 : (0 ≤ (j : Int) - ((n : Int) - (ws.length : Nat))) ∧
          (j : Int) - ((n : Int) - (ws.length : Nat)) < ws.length := by omega
      have h4 : ((j : Int) - ((n : Int) - (ws.length : Nat))).toNat = j - (n - ws.length) := by
        omega
      simp only [h3, and_self, if_true, h4, List.length_replicate]
      rw [List.getD_eq_getElem?_getD, List.getElem?_eq_getElem (by omega)]
      simp

theorem ByteReverseWords_eq_map (ws : List Nat) (m : Nat) (h : m ≤ ws.length) :
    ByteReverseWords ws (4 * m) = (ws.take m).map ByteReverseWord32 := by
  unfold ByteReverseWords
  have e : 4 * m / 4 = m := by omega
  rw [e]
  apply List.ext_getElem
  · simp [h]
  · intro j h1 h2
    simp only [List.length_map, List.length_range] at h1
    simp only [List.getElem_map, List.getElem_range, List.getElem_take]
    rw [List.getD_eq_getElem?_getD, List.getElem?_eq_getElem (by omega)]
    simp

theorem toU32_of_nat (n : Nat) (h : n < 4294967296) : toU32 (n : Int) = n := by
  unfold toU32
  omega

/-- A key (or IV) of `4 * m` bytes stored by `ByteReverseWords` at the end of a
zeroed slot of `n` words. -/
theorem slot_right_justified (n m : Nat) (ws : List Nat) (len : Int) (hlen : len = 4 * m)
    (h32 : len < 2147483648) (hm : m ≤ n) (hws : m ≤ ws.length) :
    storeWords (List.replicate n 0) ((n : Int) - (toU32 len / 4 : Nat))
        (ByteReverseWords ws (toU32 len))
      = List.replicate (n - m) 0 ++ (ws.take m).map ByteReverseWord32 := by
  have e : toU32 len = 4 * m := by
    rw [hlen]
    have := toU32_of_nat (4 * m) (by omega)
    simpa using this
  rw [e, ByteReverseWords_eq_map ws m hws]
  have e2 : 4 * m / 4 = m := by omega
  rw [e2]
  have hl : ((ws.take m).map ByteReverseWord32).length = m := by simp [hws]
  have := storeWords_right n ((ws.take m).map ByteReverseWord32) (by omega)
  rw [hl] at this
  exact this

theorem getBlockSize_eq_zero_iff (K : Header) (hbs : K.blockSizesNonzero) (algo : Int) :
    Pic32GetBlockSize K algo = 0 ↔
      algo ∉ [K.PIC32_ALGO_HMAC1, K.PIC32_ALGO_SHA256, K.PIC32_ALGO_SHA1, K.PIC32_ALGO_MD5,
              K.PIC32_ALGO_AES, K.PIC32_ALGO_TDES, K.PIC32_ALGO_DES] := by
  obtain ⟨h1, h2, h3, h4, h5, h6, h7⟩ := hbs
  unfold Pic32GetBlockSize
  simp only [List.mem_cons, List.mem_singleton, List.not_mem_nil, or_false, not_or]
  split_ifs <;> simp_all

theorem invalid_iff (K : Header) (hbs : K.blockSizesNonzero) (a : CryptoArgs) :
    (a.inAddr = 0 ∨ a.inLen ≤ 0 ∨ a.outAddr = 0 ∨ Pic32GetBlockSize K a.algo = 0) ↔
      a.invalid K := by
  unfold CryptoArgs.invalid
  rw [getBlockSize_eq_zero_iff K hbs]

theorem waitReset_some (cecon : Nat → Nat) :
    ∀ (fuel j k : Nat), j ≤ k → cecon k = 0 → k - j < fuel →
      ∃ m, waitReset cecon fuel j = some m := by
  intro fuel
  induction fuel with
  | zero => intro j k _ _ h; omega
  | succ n ih =>
    intro j k hjk hk hlt
    unfold waitReset
    by_cases h0 : cecon j = 0
    · exact ⟨j + 1, by simp [h0]⟩
    · have hne : j ≠ k := fun e => h0 (e ▸ hk)
      simp only [h0, if_false]
      exact ih (j + 1) k (by omega) hk (by omega)

/-- The result of `Pic32Crypto` once the arguments are accepted and the mutex
is granted, provided the reset loop ends. -/
theorem Pic32Crypto_locked (K : Header) (hw : Engine) (fuel : Nat) (a : CryptoArgs)
    (hv : ¬ (a.inAddr = 0 ∨ a.inLen ≤ 0 ∨ a.outAddr = 0 ∨ Pic32GetBlockSize K a.algo = 0))
    (ha : ¬ (a.inAddr % 4 ≠ 0 ∨ a.outAddr % 4 ≠ 0)) (hl : hw.lockRet = 0)
    (res : CryptoResult) (h : Pic32Crypto K hw fuel a = some res) :
    res.events = [Ev.lock 0, Ev.reg Reg.CECON 64, Ev.reg Reg.CEINTSRC 15,
        Ev.bdp (PA.bd 0), Ev.reg Reg.CEINTEN 7,
        Ev.reg Reg.CECON (if K.PIC32_NO_OUT_SWAP then 0x25 else 0xa5),
        Ev.reg Reg.CEINTSRC 15, Ev.unlock] ∧
    res.ret = (if hw.errop ∨ (pollLoop hw.pktif 0xFFFFFF 0 0xFFFFFF).2 ≤ 0
                then K.ASYNC_OP_E else 0) ∧
    res.reads = (pollLoop hw.pktif 0xFFFFFF 0 0xFFFFFF).1 ∧
    res.job = some { sa := Pic32Crypto_setupSA K a, bd := Pic32Crypto_setupBD K a,
                     src := a.inBytes.take a.inLen.toNat } := by
  unfold Pic32Crypto at h
  simp only [hv, ha, if_false, hl, if_true] at h
  cases hr : waitReset hw.cecon fuel 0 with
  | none => simp [hr] at h
  | some m =>
    simp only [hr, Option.some.injEq] at h
    subst h
    simp

/-- The result of `Pic32Crypto` once the arguments are accepted and the mutex
is refused. -/
theorem Pic32Crypto_refused (K : Header) (hw : Engine) (fuel : Nat) (a : CryptoArgs)
    (hv : ¬ (a.inAddr = 0 ∨ a.inLen ≤ 0 ∨ a.outAddr = 0 ∨ Pic32GetBlockSize K a.algo = 0))
    (ha : ¬ (a.inAddr % 4 ≠ 0 ∨ a.outAddr % 4 ≠ 0)) (hl : hw.lockRet ≠ 0) :
    ∃ res, Pic32Crypto K hw fuel a = some res ∧ res.ret = hw.lockRet ∧
      res.events = [Ev.lock hw.lockRet] ∧ res.iv = a.iv ∧
      res.job = some { sa := Pic32Crypto_setupSA K a, bd := Pic32Crypto_setupBD K a,
                       src := a.inBytes.take a.inLen.toNat } := by
  unfold Pic32Crypto
  simp only [hv, ha, if_false, hl]
  exact ⟨_, rfl, rfl, rfl, rfl, rfl⟩

/-- C8: `Pic32Crypto` validates its arguments before any side effect. The call
returns `BAD_FUNC_ARG` exactly when `in` is `NULL`, `inLen <= 0`, `out` is `NULL`
or the algorithm is none of the seven selectors of `Pic32GetBlockSize`;
otherwise it returns `BUFFER_E` exactly when `in` or `out` is not a multiple of
4; in both cases it returns at once (whatever the engine does) with the output
and IV objects unchanged, no mutex call and no register store. The block sizes
of the header are non-zero, its error codes distinct from each other, from `0`
and from the code of a refused mutex. -/
theorem Pic32Crypto_validates (K : Header) (hw : Engine) (fuel : Nat) (a : CryptoArgs)
    (hbs : K.blockSizesNonzero)
    (hcodes : K.BAD_FUNC_ARG ≠ 0 ∧ K.BUFFER_E ≠ 0 ∧ K.BAD_FUNC_ARG ≠ K.BUFFER_E ∧
      K.ASYNC_OP_E ≠ K.BAD_FUNC_ARG ∧ K.ASYNC_OP_E ≠ K.BUFFER_E)
    (hlock : hw.lockRet ≠ K.BAD_FUNC_ARG ∧ hw.lockRet ≠ K.BUFFER_E) :
    ((Pic32Crypto K hw fuel a).map (fun res => res.ret) = some K.BAD_FUNC_ARG ↔ a.invalid K) ∧
    (¬ a.invalid K →
      ((Pic32Crypto K hw fuel a).map (fun res => res.ret) = some K.BUFFER_E ↔ a.misaligned)) ∧
    (∀ res, Pic32Crypto K hw fuel a = some res →
      res.ret = K.BAD_FUNC_ARG ∨ res.ret = K.BUFFER_E →
        res.out = a.out ∧ res.iv = a.iv ∧ res.events = [] ∧ res.job = none ∧ res.reads = 0) := by
  obtain ⟨hc1, hc2, hc3, hc4, hc5⟩ := hcodes
  obtain ⟨hl1, hl2⟩ := hlock
  have key : ∀ res, Pic32Crypto K hw fuel a = some res →
      (a.invalid K ∧ res.ret = K.BAD_FUNC_ARG ∧ res.out = a.out ∧ res.iv = a.iv ∧
        res.events = [] ∧ res.job = none ∧ res.reads = 0) ∨
      (¬ a.invalid K ∧ a.misaligned ∧ res.ret = K.BUFFER_E ∧ res.out = a.out ∧ res.iv = a.iv ∧
        res.events = [] ∧ res.job = none ∧ res.reads = 0) ∨
      (¬ a.invalid K ∧ ¬ a.misaligned ∧ res.ret ≠ K.BAD_FUNC_ARG ∧ res.ret ≠ K.BUFFER_E) := by
    intro res h
    by_cases hv : a.inAddr = 0 ∨ a.inLen ≤ 0 ∨ a.outAddr = 0 ∨ Pic32GetBlockSize K a.algo = 0
    · left
      have hi := (invalid_iff K hbs a).1 hv
      unfold Pic32Crypto at h
      simp only [hv, if_true, Option.some.injEq] at h
      subst h
      exact ⟨hi, rfl, rfl, rfl, rfl, rfl, rfl⟩
    · right
      have hi : ¬ a.invalid K := fun hh => hv ((invalid_iff K hbs a).2 hh)
      by_cases ha : a.inAddr % 4 ≠ 0 ∨ a.outAddr % 4 ≠ 0
      · left
        unfold Pic32Crypto at h
        simp only [hv, ha, if_false, if_true, Option.some.injEq] at h
        subst h
        exact ⟨hi, ha, rfl, rfl, rfl, rfl, rfl, rfl⟩
      · right
        refine ⟨hi, ha, ?_⟩
        by_cases hl : hw.lockRet = 0
        · obtain ⟨_, hret, _, _⟩ := Pic32Crypto_locked K hw fuel a hv ha hl res h
          rw [hret]
          split_ifs
          · exact ⟨hc4, hc5⟩
          · exact ⟨fun e => hc1 e.symm, fun e => hc2 e.symm⟩
        · obtain ⟨r, hr, hret, _⟩ := Pic32Crypto_refused K hw fuel a hv ha hl
          rw [h] at hr
          cases hr
          rw [hret]
          exact ⟨hl1, hl2⟩
  have total : a.invalid K ∨ a.misaligned → ∃ res, Pic32Crypto K hw fuel a = some res := by
    intro hh
    by_cases hv : a.inAddr = 0 ∨ a.inLen ≤ 0 ∨ a.outAddr = 0 ∨ Pic32GetBlockSize K a.algo = 0
    · unfold Pic32Crypto
      simp only [hv, if_true]
      exact ⟨_, rfl⟩
    · have hi : ¬ a.invalid K := fun hh => hv ((invalid_iff K hbs a).2 hh)
      have ha : a.inAddr % 4 ≠ 0 ∨ a.outAddr % 4 ≠ 0 := hh.resolve_left hi
      unfold Pic32Crypto
      simp only [hv, ha, if_false, if_true]
      exact ⟨_, rfl⟩
  refine ⟨⟨?_, ?_⟩, ?_, ?_⟩
  · intro h
    cases hr : Pic32Crypto K hw fuel a with
    | none => simp [hr] at h
    | some res =>
      simp only [hr, Option.map_some', Option.some.injEq] at h
      rcases key res hr with ⟨hi, _⟩ | ⟨_, _, hb, _⟩ | ⟨_, _, hn, _⟩
      · exact hi
      · exact absurd (hb ▸ h) (fun e => hc3 e.symm)
      · exact absurd h hn
  · intro hi
    obtain ⟨res, hr⟩ := total (Or.inl hi)
    rcases key res hr with ⟨_, hb, _⟩ | ⟨hn, _⟩ | ⟨hn, _⟩
    · simp [hr, hb]
    · exact absurd hi hn
    · exact absurd hi hn
  · intro hi
    constructor
    · intro h
      cases hr : Pic32Crypto K hw fuel a with
      | none => simp [hr] at h
      | some res =>
        simp only [hr, Option.map_some', Option.some.injEq] at h
        rcases key res hr with ⟨hi2, _⟩ | ⟨_, hm, _⟩ | ⟨_, _, _, hn⟩
        · exact absurd hi2 hi
        · exact hm
        · exact absurd h hn
    · intro hm
      obtain ⟨res, hr⟩ := total (Or.inr hm)
      rcases key res hr with ⟨hi2, _⟩ | ⟨_, _, hb, _⟩ | ⟨_, hn, _⟩
      · exact absurd hi2 hi
      · simp [hr, hb]
      · exact absurd hm hn
  · intro res hr hret
    rcases key res hr with ⟨_, _, h⟩ | ⟨_, _, _, h⟩ | ⟨_, _, h1, h2⟩
    · exact h
    · exact h
    · rcases hret with e | e
      · exact absurd e h1
      · exact absurd e h2

/-- C9: for a cipher job whose key has `keyLen = 4 * m` bytes with `m` words
fitting the key slot, the security association built by `Pic32Crypto` (the one
in the job of every call that passes validation) holds the key right-justified:
the slot is `encKeyWords - m` zero words followed by the `m` key words in the
same order, each through `ByteReverseWord32`; the same holds for an IV of
`ivLen = 4 * n` bytes in the IV slot; and `ByteReverseWord32` reverses the four
bytes of a word. -/
theorem Pic32Crypto_key_right_justified (K : Header) (hw : Engine) (fuel : Nat)
    (a : CryptoArgs) (key : List Nat) (m : Nat)
    (hv : ¬ (a.inAddr = 0 ∨ a.inLen ≤ 0 ∨ a.outAddr = 0 ∨ Pic32GetBlockSize K a.algo = 0))
    (ha : ¬ (a.inAddr % 4 ≠ 0 ∨ a.outAddr % 4 ≠ 0))
    (hkey : a.key = some key) (hlen : a.keyLen = 4 * m) (h32 : a.keyLen < 2147483648)
    (hfit : m ≤ K.encKeyWords) (hwords : m ≤ key.length) :
    (∀ res, Pic32Crypto K hw fuel a = some res →
      res.job.map Job.sa = some (Pic32Crypto_setupSA K a)) ∧
    (Pic32Crypto_setupSA K a).SA_ENCKEY
      = List.replicate (K.encKeyWords - m) 0 ++ (key.take m).map ByteReverseWord32 ∧
    (∀ (iv : List Nat) (n : Nat), a.iv = some iv → a.ivLen = 4 * n → 0 < n →
      a.ivLen < 2147483648 → n ≤ K.encIvWords → n ≤ iv.length →
      (Pic32Crypto_setupSA K a).SA_ENCIV
        = List.replicate (K.encIvWords - n) 0 ++ (iv.take n).map ByteReverseWord32) ∧
    (∀ b0 b1 b2 b3 : Nat, b0 < 256 → b1 < 256 → b2 < 256 → b3 < 256 →
      ByteReverseWord32 (b0 + 256 * b1 + 65536 * b2 + 16777216 * b3)
        = b3 + 256 * b2 + 65536 * b1 + 16777216 * b0) := by
  refine ⟨?_, ?_, ?_, ?_⟩
  · intro res h
    by_cases hl : hw.lockRet = 0
    · obtain ⟨_, _, _, hj⟩ := Pic32Crypto_locked K hw fuel a hv ha hl res h
      rw [hj]; rfl
    · obtain ⟨r, hr, _, _, _, hj⟩ := Pic32Crypto_refused K hw fuel a hv ha hl
      rw [h] at hr
      cases hr
      rw [hj]; rfl
  · have hs := slot_right_justified K.encKeyWords m key a.keyLen hlen h32 hfit hwords
    unfold Pic32Crypto_setupSA
    simp only [hkey]
    cases hiv : a.iv with
    | none => simpa using hs
    | some iv =>
      by_cases hp : a.ivLen > 0
      · simpa [hp] using hs
      · simpa [hp] using hs
  · intro iv n hiv hlen2 hn h322 hfit2 hwords2
    have hs := slot_right_justified K.encIvWords n iv a.ivLen hlen2 h322 hfit2 hwords2
    have hp : a.ivLen > 0 := by omega
    unfold Pic32Crypto_setupSA
    simp only [hkey, hiv, hp, if_true]
    exact hs
  · intro b0 b1 b2 b3 h0 h1 h2 h3
    exact ByteReverseWord32_bytes b0 b1 b2 b3 h0 h1 h2 h3

/-- C10: for every call of `Pic32Crypto` whose arguments pass validation: if
`wolfSSL_CryptHwMutexLock` fails the call returns that code, its only action is
the failed lock call (no register store, no unlock) and the caller's IV is
unchanged; if the mutex is granted, every return (code `0` or `ASYNC_OP_E`)
comes after exactly one lock call and exactly one unlock, the unlock being the
last action, and the call does return once the reset loop sees `CECON` clear. -/
theorem Pic32Crypto_lock_released (K : Header) (hw : Engine) (a : CryptoArgs)
    (hv : ¬ (a.inAddr = 0 ∨ a.inLen ≤ 0 ∨ a.outAddr = 0 ∨ Pic32GetBlockSize K a.algo = 0))
    (ha : ¬ (a.inAddr % 4 ≠ 0 ∨ a.outAddr % 4 ≠ 0)) :
    (hw.lockRet ≠ 0 → ∀ fuel, ∃ res, Pic32Crypto K hw fuel a = some res ∧
      res.ret = hw.lockRet ∧ res.events = [Ev.lock hw.lockRet] ∧
      (∀ e ∈ res.events, e.isRegWrite = false ∧ e.isUnlock = false) ∧ res.iv = a.iv) ∧
    (hw.lockRet = 0 →
      (∀ fuel res, Pic32Crypto K hw fuel a = some res →
        (res.ret = 0 ∨ res.ret = K.ASYNC_OP_E) ∧
        res.events.head? = some (Ev.lock 0) ∧
        (res.events.filter Ev.isLock).length = 1 ∧
        (res.events.filter Ev.isUnlock).length = 1 ∧
        res.events.getLast? = some Ev.unlock) ∧
      (∀ k, hw.cecon k = 0 → ∀ fuel, k < fuel → ∃ res, Pic32Crypto K hw fuel a = some res)) := by
  constructor
  · intro hl fuel
    obtain ⟨res, hr, hret, hev, hiv, _⟩ := Pic32Crypto_refused K hw fuel a hv ha hl
    refine ⟨res, hr, hret, hev, ?_, hiv⟩
    intro e he
    rw [hev] at he
    simp only [List.mem_singleton] at he
    subst he
    exact ⟨rfl, rfl⟩
  · intro hl
    constructor
    · intro fuel res h
      obtain ⟨hev, hret, _, _⟩ := Pic32Crypto_locked K hw fuel a hv ha hl res h
      refine ⟨?_, ?_, ?_, ?_, ?_⟩
      · rw [hret]; split_ifs
        · exact Or.inr rfl
        · exact Or.inl rfl
      · rw [hev]; rfl
      · rw [hev]; rfl
      · rw [hev]; rfl
      · rw [hev]; rfl
    · intro k hk fuel hlt
      obtain ⟨m, hm⟩ := waitReset_some hw.cecon fuel 0 k (Nat.zero_le _) hk (by omega)
      unfold Pic32Crypto
      simp only [hv, ha, if_false, hl, if_true, hm]
      exact ⟨_, rfl⟩

/-- C7 (as amended): `wc_Pic32Hash` called with input length `0` does not hash:
for every algorithm and whatever the engine does it returns `BAD_FUNC_ARG` at
the argument check, leaves the output object unchanged, sets up no job, calls
no mutex and stores to no register. -/
theorem wc_Pic32Hash_empty_rejected (K : Header) (hw : Engine) (fuel : Nat)
    (inAddr : Nat) (inBytes : List Nat) (outAddr : Nat) (out : List Nat) (outLen : Int)
    (algo : Int) :
    wc_Pic32Hash K hw fuel inAddr inBytes 0 outAddr out outLen algo
      = some { ret := K.BAD_FUNC_ARG, out := out, iv := none, job := none, events := [],
               reads := 0 } := by
  unfold wc_Pic32Hash Pic32Crypto
  simp

/-- C7 (counterexample): the one-shot SHA-256 hash of the empty message, with
aligned non-null buffers and an engine that is free and works, does not succeed
with the canonical empty-message digest: it returns `BAD_FUNC_ARG` (-173) and
the output keeps its old bytes. -/
theorem wc_Pic32Hash_empty_counterexample :
    (¬ ∃ res, wc_Pic32Hash wolfHeader idleEngine 1 4096 [] 0 8192 (List.replicate 32 0) 32
        wolfHeader.PIC32_ALGO_SHA256 = some res ∧ res.ret = 0 ∧ res.out = sha256EmptyHash) ∧
    (wc_Pic32Hash wolfHeader idleEngine 1 4096 [] 0 8192 (List.replicate 32 0) 32
        wolfHeader.PIC32_ALGO_SHA256).map (fun res => (res.ret, res.out))
      = some (-173, List.replicate 32 0) := by
  constructor
  · rintro ⟨res, h, hret, _⟩
    have e : wc_Pic32Hash wolfHeader idleEngine 1 4096 [] 0 8192 (List.replicate 32 0) 32
        wolfHeader.PIC32_ALGO_SHA256 = some
          { ret := -173, out := (List.replicate 32 0), iv := none, job := none, events := [],
            reads := 0 } := by
      simp [wc_Pic32Hash, Pic32Crypto, wolfHeader]
    rw [e] at h
    cases h
    exact absurd hret (by decide)
  · simp [wc_Pic32Hash, Pic32Crypto, wolfHeader]

theorem aesDemoArgs_valid :
    ¬ (aesDemoArgs.inAddr = 0 ∨ aesDemoArgs.inLen ≤ 0 ∨ aesDemoArgs.outAddr = 0 ∨
        Pic32GetBlockSize wolfHeader aesDemoArgs.algo = 0) := by
  simp [aesDemoArgs, Pic32GetBlockSize, wolfHeader]

theorem aesDemoArgs_aligned :
    ¬ (aesDemoArgs.inAddr % 4 ≠ 0 ∨ aesDemoArgs.outAddr % 4 ≠ 0) := by
  simp [aesDemoArgs]

theorem wolfHeader_blockSizesNonzero : wolfHeader.blockSizesNonzero := by
  simp [Header.blockSizesNonzero, wolfHeader]

/-- C8 (witness): with wolfSSL's constants the hypotheses hold, and the
one-block AES job is neither rejected as invalid nor as misaligned. -/
theorem Pic32Crypto_validates_witness :
    ((Pic32Crypto wolfHeader idleEngine 1 aesDemoArgs).map (fun res => res.ret)
        = some wolfHeader.BAD_FUNC_ARG ↔ aesDemoArgs.invalid wolfHeader) ∧
    ((Pic32Crypto wolfHeader idleEngine 1 { aesDemoArgs with inAddr := 4097 }).map
        (fun res => res.ret) = some wolfHeader.BUFFER_E) :=
  ⟨(Pic32Crypto_validates wolfHeader idleEngine 1 aesDemoArgs wolfHeader_blockSizesNonzero
      (by decide) (by decide)).1,
   ((Pic32Crypto_validates wolfHeader idleEngine 1 { aesDemoArgs with inAddr := 4097 }
      wolfHeader_blockSizesNonzero (by decide) (by decide)).2.1
      (by simp [CryptoArgs.invalid, aesDemoArgs, wolfHeader])).2
      (by simp [CryptoArgs.misaligned, aesDemoArgs])⟩

/-- C9 (witness): the 128-bit key `00 01 .. 0f` lands in the last four words of
the eight-word key slot, byte-reversed, and the IV fills the four-word IV slot. -/
theorem Pic32Crypto_key_right_justified_witness :
    (Pic32Crypto_setupSA wolfHeader aesDemoArgs).SA_ENCKEY
      = [0, 0, 0, 0, 0x00010203, 0x04050607, 0x08090a0b, 0x0c0d0e0f] ∧
    (Pic32Crypto_setupSA wolfHeader aesDemoArgs).SA_ENCIV
      = [0x10111213, 0x14151617, 0x18191a1b, 0x1c1d1e1f] :=
  ⟨(Pic32Crypto_key_right_justified wolfHeader idleEngine 1 aesDemoArgs
      [0x03020100, 0x07060504, 0x0b0a0908, 0x0f0e0d0c] 4 aesDemoArgs_valid aesDemoArgs_aligned
      rfl rfl (by decide) (by decide) (by decide)).2.1.trans (by decide),
   ((Pic32Crypto_key_right_justified wolfHeader idleEngine 1 aesDemoArgs
      [0x03020100, 0x07060504, 0x0b0a0908, 0x0f0e0d0c] 4 aesDemoArgs_valid aesDemoArgs_aligned
      rfl rfl (by decide) (by decide) (by decide)).2.2.1
      [0x13121110, 0x17161514, 0x1b1a1918, 0x1f1e1d1c] 4 rfl rfl (by decide) (by decide)
      (by decide) (by decide)).trans (by decide)⟩

/-- C10 (witness): with the mutex refused the one-block AES job returns the
mutex code after the single failed lock call; with the mutex granted it returns
with the lock released. -/
theorem Pic32Crypto_lock_released_witness :
    (∃ res, Pic32Crypto wolfHeader busyEngine 0 aesDemoArgs = some res ∧ res.ret = -106 ∧
      res.events = [Ev.lock (-106)]) ∧
    (∃ res, Pic32Crypto wolfHeader idleEngine 1 aesDemoArgs = some res) := by
  have h1 := (Pic32Crypto_lock_released wolfHeader busyEngine aesDemoArgs aesDemoArgs_valid
    aesDemoArgs_aligned).1 (by decide) 0
  have h2 := (Pic32Crypto_lock_released wolfHeader idleEngine aesDemoArgs aesDemoArgs_valid
    aesDemoArgs_aligned).2 rfl
  obtain ⟨res, hr, hret, hev, _⟩ := h1
  exact ⟨⟨res, hr, hret, hev⟩, h2.2 0 rfl 1 (by decide)⟩

theorem poll_bd_length (hw : RingHw) (r : Ring) :
    (r.poll hw).desc.bd.length = r.desc.bd.length := by
  simp [Ring.poll]

theorem poll_bdAt (hw : RingHw) (r : Ring) (i : Nat) (hi : i < r.desc.bd.length) :
    (r.poll hw).bdAt i =
      if hw.done r.polls i
        then { r.bdAt i with BD_CTRL := { (r.bdAt i).BD_CTRL with DESC_EN := false } }
        else r.bdAt i := by
  unfold Ring.bdAt Ring.poll
  simp only [List.getD_eq_getElem?_getD]
  rw [List.getElem?_eq_getElem (by simpa using hi), List.getElem?_eq_getElem hi]
  simp

theorem poll_bdAt_en (hw : RingHw) (r : Ring) (i : Nat) (hi : i < r.desc.bd.length) :
    ((r.poll hw).bdAt i).BD_CTRL.DESC_EN = ((r.bdAt i).BD_CTRL.DESC_EN && !hw.done r.polls i) := by
  rw [poll_bdAt hw r i hi]
  cases hw.done r.polls i <;> simp

theorem any_enabled_iff (r : Ring) :
    r.desc.bd.any (fun b => b.BD_CTRL.DESC_EN) = true ↔
      ∃ i, i < r.desc.bd.length ∧ (r.bdAt i).BD_CTRL.DESC_EN = true := by
  simp only [List.any_eq_true, Ring.bdAt]
  constructor
  · rintro ⟨b, hb, he⟩
    obtain ⟨i, hi, rfl⟩ := List.getElem_of_mem hb
    exact ⟨i, hi, by simpa [List.getD_eq_getElem?_getD, List.getElem?_eq_getElem hi] using he⟩
  · rintro ⟨i, hi, he⟩
    refine ⟨r.desc.bd[i], List.getElem_mem _, ?_⟩
    simpa [List.getD_eq_getElem?_getD, List.getElem?_eq_getElem hi] using he

theorem waitAllFree_some (hw : RingHw) :
    ∀ (fuel : Nat) (r : Ring),
      (∀ i, i < r.desc.bd.length → (r.bdAt i).BD_CTRL.DESC_EN = true →
        ∃ k, r.polls ≤ k ∧ k < r.polls + fuel ∧ hw.done k i = true) →
      ∃ r', waitAllFree hw (fuel + 1) r = some r' := by
  intro fuel
  induction fuel with
  | zero =>
    intro r h
    unfold waitAllFree
    by_cases ha : (r.poll hw).desc.bd.any (fun b => b.BD_CTRL.DESC_EN) = true
    · exfalso
      obtain ⟨i, hi, he⟩ := (any_enabled_iff _).1 ha
      rw [poll_bd_length] at hi
      rw [poll_bdAt_en hw r i hi] at he
      simp only [Bool.and_eq_true] at he
      obtain ⟨k, h1, h2, _⟩ := h i hi he.1
      omega
    · simp [ha]
  | succ n ih =>
    intro r h
    unfold waitAllFree
    by_cases ha : (r.poll hw).desc.bd.any (fun b => b.BD_CTRL.DESC_EN) = true
    · simp only [ha, if_true]
      apply ih
      intro i hi he
      rw [poll_bd_length] at hi
      rw [poll_bdAt_en hw r i hi] at he
      simp only [Bool.and_eq_true, Bool.not_eq_true'] at he
      obtain ⟨k, h1, h2, h3⟩ := h i hi he.1
      have hne : k ≠ r.polls := fun e => by rw [e, he.2] at h3; cases h3
      refine ⟨k, ?_, ?_, h3⟩
      · simp only [Ring.poll]; omega
      · simp only [Ring.poll]; omega
    · simp [ha]

theorem live_bound (hw : RingHw) (hl : hw.live) (p : Nat) :
    ∀ L : Nat, ∃ B, ∀ i, i < L → ∃ k, p ≤ k ∧ k < p + B ∧ hw.done k i = true := by
  intro L
  induction L with
  | zero => exact ⟨0, fun i hi => absurd hi (Nat.not_lt_zero _)⟩
  | succ n ih =>
    obtain ⟨B, hB⟩ := ih
    obtain ⟨k, hk1, hk2⟩ := hl n p
    refine ⟨max B (k - p + 1), ?_⟩
    intro i hi
    by_cases h : i < n
    · obtain ⟨k', h1, h2, h3⟩ := hB i h
      exact ⟨k', h1, lt_of_lt_of_le h2 (by omega), h3⟩
    · have : i = n := by omega
      subst this
      exact ⟨k, hk1, by omega, hk2⟩

theorem waitAllFree_mono (hw : RingHw) :
    ∀ (fuel : Nat) (r r' : Ring), waitAllFree hw fuel r = some r' →
      ∀ fuel', fuel ≤ fuel' → waitAllFree hw fuel' r = some r' := by
  intro fuel
  induction fuel with
  | zero => intro r r' h; simp [waitAllFree] at h
  | succ n ih =>
    intro r r' h fuel' hle
    obtain ⟨m, rfl⟩ : ∃ m, fuel' = m + 1 := ⟨fuel' - 1, by omega⟩
    unfold waitAllFree at h ⊢
    by_cases ha : (r.poll hw).desc.bd.any (fun b => b.BD_CTRL.DESC_EN) = true
    · simp only [ha, if_true] at h ⊢
      exact ih _ _ h m (by omega)
    · simp only [ha] at h ⊢
      exact h

theorem waitAllFree_live (hw : RingHw) (hl : hw.live) (r : Ring) :
    ∃ n, ∀ fuel, n ≤ fuel → ∃ r', waitAllFree hw fuel r = some r' := by
  obtain ⟨B, hB⟩ := live_bound hw hl r.polls r.desc.bd.length
  obtain ⟨r', hr⟩ := waitAllFree_some hw B r (fun i hi _ => hB i hi)
  exact ⟨B + 1, fun fuel hf => ⟨r', waitAllFree_mono hw _ _ _ hr fuel hf⟩⟩

/-- C4 (as amended): whenever the allocation inside `wc_Pic32HashUpdate` fails
the call returns `MEMORY_E`; when the cache buffer is neither the inline scratch
buffer nor a copy (an owned heap block, or none) that buffer is passed to
`XFREE` and the cache is left empty (`buf = NULL`, `updLen = 0`, `bufLen = 0`);
when the cache uses the inline scratch buffer or is copy-flagged, the cache and
the memory are left exactly as they were. -/
theorem wc_Pic32HashUpdate_alloc_failure (K : Header) (hw : RingHw) (fuel : Nat) (w : World)
    (cache : hashUpdCache) (stdBuf stdBufLen digest : Nat) (data : List Nat) (inRam : Bool)
    (algo : Int)
    (hreach : reachesAlloc K cache stdBufLen data.length) :
    wc_Pic32HashUpdate K hw fuel w cache stdBuf stdBufLen digest data inRam algo 0
      = some (K.MEMORY_E,
          if cache.buf ≠ stdBuf ∧ cache.isCopy = 0
            then { cache with buf := 0, updLen := 0, bufLen := 0 } else cache,
          if cache.buf ≠ stdBuf ∧ cache.isCopy = 0 then w.free cache.buf else w) := by
  obtain ⟨h1, h2, h3⟩ := hreach
  unfold wc_Pic32HashUpdate
  simp only [h1, ne_eq, not_true_eq_false, if_false, h2, h3, if_true]
  split_ifs <;> rfl

/-- C4 (counterexample): a cache holding 10 bytes in its 64-byte inline scratch
buffer is fed 100 more bytes and `XMALLOC` fails: the call returns `MEMORY_E`
(-125) but the cache is not emptied, it still has `buf = stdBuf`, `updLen = 10`
and `bufLen = 64`. -/
theorem wc_Pic32HashUpdate_alloc_failure_counterexample :
    (wc_Pic32HashUpdate wolfHeader idleRingHw 0 demoWorld
        { buf := 4096, bufLen := 64, updLen := 10, isCopy := 0, finalLen := 0 }
        4096 64 8192 (List.replicate 100 7) true 32 0).map (fun r => (r.1, r.2.1))
      = some (-125, { buf := 4096, bufLen := 64, updLen := 10, isCopy := 0, finalLen := 0 }) ∧
    ¬ (∀ r, wc_Pic32HashUpdate wolfHeader idleRingHw 0 demoWorld
        { buf := 4096, bufLen := 64, updLen := 10, isCopy := 0, finalLen := 0 }
        4096 64 8192 (List.replicate 100 7) true 32 0 = some r →
          r.2.1.buf = 0 ∧ r.2.1.updLen = 0 ∧ r.2.1.bufLen = 0) := by
  have e : wc_Pic32HashUpdate wolfHeader idleRingHw 0 demoWorld
        { buf := 4096, bufLen := 64, updLen := 10, isCopy := 0, finalLen := 0 }
        4096 64 8192 (List.replicate 100 7) true 32 0
      = some (-125, { buf := 4096, bufLen := 64, updLen := 10, isCopy := 0, finalLen := 0 },
          demoWorld) := by
    simp [wc_Pic32HashUpdate, paddedLen, wolfHeader]
  constructor
  · rw [e]; rfl
  · intro h
    have := (h _ e).1
    exact absurd this (by decide)

/-- C4 (witness): the amended statement at the input of the counterexample. -/
theorem wc_Pic32HashUpdate_alloc_failure_witness :
    reachesAlloc wolfHeader
      { buf := 4096, bufLen := 64, updLen := 10, isCopy := 0, finalLen := 0 } 64 100 ∧
    (wc_Pic32HashUpdate wolfHeader idleRingHw 0 demoWorld
        { buf := 4096, bufLen := 64, updLen := 10, isCopy := 0, finalLen := 0 }
        4096 64 8192 (List.replicate 100 7) true 32 0).map (fun r => r.1) = some (-125) := by
  have hr : reachesAlloc wolfHeader
      { buf := 4096, bufLen := 64, updLen := 10, isCopy := 0, finalLen := 0 } 64
      (List.replicate 100 7).length := by
    simp [reachesAlloc, paddedLen, wolfHeader]
  refine ⟨by simpa using hr, ?_⟩
  rw [wc_Pic32HashUpdate_alloc_failure wolfHeader idleRingHw 0 demoWorld _ 4096 64 8192
    (List.replicate 100 7) true 32 hr]
  rfl

theorem padWorld_proj (w : World) (cache : hashUpdCache) :
    (padWorld w cache).freed = w.freed ∧ (padWorld w cache).events = w.events ∧
    (padWorld w cache).jobs = w.jobs ∧ (padWorld w cache).ring = w.ring ∧
    (padWorld w cache).hash = w.hash ∧ (padWorld w cache).digest = w.digest := by
  unfold padWorld
  split_ifs <;> simp

theorem freeWorld_proj (w : World) (cache : hashUpdCache) (stdBuf : Nat) :
    (freeWorld w cache stdBuf).freed
      = w.freed ++ (if freesBuffer cache stdBuf then [cache.buf] else []) ∧
    (freeWorld w cache stdBuf).events = w.events ∧
    (freeWorld w cache stdBuf).jobs = w.jobs ∧ (freeWorld w cache stdBuf).ring = w.ring ∧
    (freeWorld w cache stdBuf).hash = w.hash ∧ (freeWorld w cache stdBuf).digest = w.digest := by
  unfold freeWorld freesBuffer
  split_ifs <;> simp

/-- The zero-byte branch of `wc_Pic32HashFinal`. -/
theorem final_empty_branch (K : Header) (hw : Engine) (rhw : RingHw) (fuel : Nat) (w : World)
    (cache : hashUpdCache) (stdBuf digest : Nat) (digestSz : Int) (algo : Int)
    (hf : cache.finalLen = 0) (hu : cache.updLen = 0) :
    ∃ w', wc_Pic32HashFinal K hw rhw fuel w cache stdBuf digest digestSz algo
        = some (0, { cache with buf := 0, bufLen := 0, updLen := 0 }, w') ∧
      w'.freed = w.freed ++ (if freesBuffer cache stdBuf then [cache.buf] else []) ∧
      w'.events = w.events ∧ w'.jobs = w.jobs ∧ w'.ring = w.ring ∧ w'.digest = w.digest ∧
      w'.hash =
        (if algo = K.PIC32_ALGO_SHA256 then memcpyN w.hash sha256EmptyHash digestSz
         else if algo = K.PIC32_ALGO_SHA1 then memcpyN w.hash shaEmptyHash digestSz
         else if algo = K.PIC32_ALGO_MD5 then memcpyN w.hash md5EmptyHash digestSz
         else w.hash) := by
  obtain ⟨p1, p2, p3, p4, p5, p6⟩ := padWorld_proj w cache
  unfold wc_Pic32HashFinal
  simp only [hf, ne_eq, not_true_eq_false, if_false, hu, if_true]
  refine ⟨_, rfl, ?_⟩
  have hpad : (if ¬cache.buf = 0 ∧ 0 < cache.bufLen then
      w.setObj cache.buf (memWrite (w.objs cache.buf) 0 [128]) else w) = padWorld w cache := by
    unfold padWorld; simp [hu]
  simp only [hpad]
  unfold freesBuffer
  by_cases h1 : algo = K.PIC32_ALGO_SHA256
  · simp only [h1, if_true]
    split_ifs <;> simp [p1, p2, p3, p4, p5, p6]
  · by_cases h2 : algo = K.PIC32_ALGO_SHA1
    · simp only [h1, h2, if_true, if_false]
      split_ifs <;> simp [p1, p2, p3, p4, p5, p6]
    · by_cases h3 : algo = K.PIC32_ALGO_MD5
      · simp only [h1, h2, h3, if_true, if_false]
        split_ifs <;> simp [p1, p2, p3, p4, p5, p6]
      · simp only [h1, h2, h3, if_false]
        split_ifs <;> simp [p1, p2, p3, p4, p5, p6]

theorem memcpyN_head (dst src : List Nat) (n : Nat) (hn : n < 2147483648)
    (hd : n ≤ dst.length) (hs : n ≤ src.length) :
    memcpyN dst src (n : Int) = src.take n ++ dst.drop n := by
  unfold memcpyN memWrite
  rw [toU32_of_nat n (by omega)]
  simp [List.take_take, hd, hs, Nat.min_eq_left hs]

theorem memWrite_length (buf : List Nat) (off : Nat) (src : List Nat) :
    (memWrite buf off src).length = buf.length := by
  unfold memWrite
  simp only [List.length_append, List.length_take, List.length_drop]
  omega

theorem memWrite_take (buf : List Nat) (off : Nat) (src : List Nat) :
    (memWrite buf off src).take off = buf.take off := by
  unfold memWrite
  by_cases h : off ≤ buf.length
  · rw [List.take_append_of_le_length (by simp [h])]
    simp [List.take_take]
  · have h1 : buf.length - off = 0 := by omega
    have h2 : buf.drop (off + src.length) = [] := List.drop_eq_nil_of_le (by omega)
    simp [h1, h2, List.take_take]

theorem padWorld_head (w : World) (cache : hashUpdCache) :
    ((padWorld w cache).objs cache.buf).take cache.updLen
      = (w.objs cache.buf).take cache.updLen := by
  unfold padWorld
  split_ifs
  · simp [World.setObj, memWrite_take]
  · rfl

/-- The one-shot branch of `wc_Pic32HashFinal`. -/
theorem final_oneshot_branch (K : Header) (hw : Engine) (rhw : RingHw) (fuel : Nat) (w : World)
    (cache : hashUpdCache) (stdBuf digest : Nat) (digestSz : Int) (algo : Int)
    (hf : cache.finalLen = 0) (hu : cache.updLen ≠ 0) :
    wc_Pic32HashFinal K hw rhw fuel w cache stdBuf digest digestSz algo
      = (wc_Pic32Hash K hw fuel cache.buf ((padWorld w cache).objs cache.buf)
          (toI32 cache.updLen) digest w.digest digestSz algo).map (fun res =>
          (res.ret, { cache with buf := 0, bufLen := 0, updLen := 0 },
            freeWorld
              { padWorld w cache with
                digest := res.out, events := w.events ++ res.events,
                jobs := w.jobs ++ res.job.toList,
                hash := if res.ret = (0 : Int) then memcpyN w.hash res.out digestSz else w.hash }
              cache stdBuf)) := by
  obtain ⟨p1, p2, p3, p4, p5, p6⟩ := padWorld_proj w cache
  unfold wc_Pic32HashFinal
  simp only [hf, ne_eq, not_true_eq_false, if_false, hu]
  have hpad : (if ¬cache.buf = 0 ∧ cache.updLen < cache.bufLen then
      w.setObj cache.buf (memWrite (w.objs cache.buf) cache.updLen [128]) else w)
        = padWorld w cache := by
    unfold padWorld; simp
  simp only [hpad, p6]
  cases hres : wc_Pic32Hash K hw fuel cache.buf ((padWorld w cache).objs cache.buf)
      (toI32 cache.updLen) digest w.digest digestSz algo with
  | none => simp
  | some res =>
    simp only [Option.map_some', Option.some.injEq, Prod.mk.injEq, true_and]
    unfold freeWorld
    by_cases hr : res.ret = 0
    · simp [hr, p2, p3, p5]
    · simp [hr, p2, p3, p5]

/-- The streaming branch of `wc_Pic32HashFinal`. -/
theorem final_stream_branch (K : Header) (hw : Engine) (rhw : RingHw) (fuel : Nat) (w : World)
    (cache : hashUpdCache) (stdBuf digest : Nat) (digestSz : Int) (algo : Int)
    (hf : cache.finalLen ≠ 0) :
    wc_Pic32HashFinal K hw rhw fuel w cache stdBuf digest digestSz algo
      = (wait_engine K rhw fuel (start_engine w.ring) w.digest digestSz).map (fun rd =>
          ((0 : Int), { cache with buf := 0, bufLen := 0, updLen := 0, finalLen := 0 },
            freeWorld
              { padWorld w cache with
                ring := rd.1, digest := rd.2, hash := memcpyN w.hash rd.2 digestSz }
              cache stdBuf)) := by
  obtain ⟨p1, p2, p3, p4, p5, p6⟩ := padWorld_proj w cache
  unfold wc_Pic32HashFinal
  simp only [hf, ne_eq, not_false_eq_true, if_true]
  have hpad : (if ¬cache.buf = 0 ∧ cache.updLen < cache.bufLen then
      w.setObj cache.buf (memWrite (w.objs cache.buf) cache.updLen [128]) else w)
        = padWorld w cache := by
    unfold padWorld; simp
  simp only [hpad, p4, p5, p6]
  cases hres : wait_engine K rhw fuel (start_engine w.ring) w.digest digestSz with
  | none => simp
  | some rd =>
    obtain ⟨r, dg⟩ := rd
    simp only [Option.map_some', Option.some.injEq, Prod.mk.injEq, true_and]
    unfold freeWorld
    simp

theorem wait_engine_live (K : Header) (hw : RingHw) (hl : hw.live) (r : Ring) (hash : List Nat)
    (hash_sz : Int) :
    ∃ n, ∀ fuel, n ≤ fuel → ∃ rd, wait_engine K hw fuel r hash hash_sz = some rd := by
  obtain ⟨n, hn⟩ := waitAllFree_live hw hl r
  refine ⟨n, fun fuel hf => ?_⟩
  obtain ⟨r', hr⟩ := hn fuel hf
  unfold wait_engine
  simp only [hr]
  exact ⟨_, rfl⟩

theorem wc_Pic32Hash_returns (K : Header) (hw : Engine) (inAddr : Nat) (inBytes : List Nat)
    (inLen : Int) (outAddr : Nat) (out : List Nat) (outLen : Int) (algo : Int)
    (k : Nat) (hk : hw.cecon k = 0) (fuel : Nat) (hf : k < fuel) :
    ∃ res, wc_Pic32Hash K hw fuel inAddr inBytes inLen outAddr out outLen algo = some res := by
  obtain ⟨m, hm⟩ := waitReset_some hw.cecon fuel 0 k (Nat.zero_le _) hk (by omega)
  unfold wc_Pic32Hash Pic32Crypto
  simp only [hm]
  split_ifs <;> exact ⟨_, rfl⟩

/-- C5: for every cache state and every branch of `wc_Pic32HashFinal`
(streaming, empty-input constant, one-shot job succeeding or failing): on
return the cache is empty (`buf = NULL`, `bufLen = 0`, `updLen = 0`,
`finalLen = 0`), the backing buffer has been passed to `XFREE` (once) exactly
when it was non-`NULL`, different from the inline scratch buffer and the cache
was not copy-flagged, and the returned code is the code of the one-shot
`wc_Pic32Hash` call on the accumulated bytes, `0` on the other branches. The
call does return: always on the empty-input branch, once the engine reset
completes on the one-shot branch, once the engine has drained the ring on the
streaming branch. -/
theorem wc_Pic32HashFinal_cleanup (K : Header) (hw : Engine) (rhw : RingHw) (w : World)
    (cache : hashUpdCache) (stdBuf digest : Nat) (digestSz : Int) (algo : Int) :
    (∀ fuel ret c' w',
      wc_Pic32HashFinal K hw rhw fuel w cache stdBuf digest digestSz algo = some (ret, c', w') →
        c' = { buf := 0, bufLen := 0, updLen := 0, isCopy := cache.isCopy, finalLen := 0 } ∧
        w'.freed = w.freed ++ (if freesBuffer cache stdBuf then [cache.buf] else []) ∧
        (cache.finalLen ≠ 0 ∨ cache.updLen = 0 → ret = 0) ∧
        (cache.finalLen = 0 → cache.updLen ≠ 0 →
          ∃ bytes res, bytes.take cache.updLen = (w.objs cache.buf).take cache.updLen ∧
            wc_Pic32Hash K hw fuel cache.buf bytes (toI32 cache.updLen) digest w.digest
              digestSz algo = some res ∧ ret = res.ret)) ∧
    (cache.finalLen = 0 → cache.updLen = 0 → ∀ fuel,
      (wc_Pic32HashFinal K hw rhw fuel w cache stdBuf digest digestSz algo).isSome = true) ∧
    (cache.finalLen = 0 → cache.updLen ≠ 0 → ∀ k, hw.cecon k = 0 → ∀ fuel, k < fuel →
      (wc_Pic32HashFinal K hw rhw fuel w cache stdBuf digest digestSz algo).isSome = true) ∧
    (cache.finalLen ≠ 0 → rhw.live → ∃ n, ∀ fuel, n ≤ fuel →
      (wc_Pic32HashFinal K hw rhw fuel w cache stdBuf digest digestSz algo).isSome = true) := by
  refine ⟨?_, ?_, ?_, ?_⟩
  · intro fuel ret c' w' h
    by_cases hf : cache.finalLen = 0
    · by_cases hu : cache.updLen = 0
      · obtain ⟨w2, he, hfr, _⟩ :=
          final_empty_branch K hw rhw fuel w cache stdBuf digest digestSz algo hf hu
        rw [he] at h
        simp only [Option.some.injEq, Prod.mk.injEq] at h
        obtain ⟨h1, h2, h3⟩ := h
        subst h1 h2 h3
        refine ⟨?_, hfr, fun _ => rfl, fun _ hne => absurd hu hne⟩
        cases cache
        simp_all
      · rw [final_oneshot_branch K hw rhw fuel w cache stdBuf digest digestSz algo hf hu] at h
        cases hres : wc_Pic32Hash K hw fuel cache.buf ((padWorld w cache).objs cache.buf)
            (toI32 cache.updLen) digest w.digest digestSz algo with
        | none => simp [hres] at h
        | some res =>
          simp only [hres, Option.map_some', Option.some.injEq, Prod.mk.injEq] at h
          obtain ⟨h1, h2, h3⟩ := h
          subst h1 h2 h3
          refine ⟨?_, ?_, ?_, ?_⟩
          · cases cache
            simp_all
          · rw [(freeWorld_proj _ cache stdBuf).1]
            simp [(padWorld_proj w cache).1]
          · rintro (h | h)
            · exact absurd hf h
            · exact absurd h hu
          · intro _ _
            exact ⟨_, res, padWorld_head w cache, hres, rfl⟩
    · rw [final_stream_branch K hw rhw fuel w cache stdBuf digest digestSz algo hf] at h
      cases hres : wait_engine K rhw fuel (start_engine w.ring) w.digest digestSz with
      | none => simp [hres] at h
      | some rd =>
        simp only [hres, Option.map_some', Option.some.injEq, Prod.mk.injEq] at h
        obtain ⟨h1, h2, h3⟩ := h
        subst h1 h2 h3
        refine ⟨rfl, ?_, fun _ => rfl, fun h0 => absurd h0 hf⟩
        rw [(freeWorld_proj _ cache stdBuf).1]
        simp [(padWorld_proj w cache).1]
  · intro hf hu fuel
    obtain ⟨w2, he, _⟩ :=
      final_empty_branch K hw rhw fuel w cache stdBuf digest digestSz algo hf hu
    rw [he]; rfl
  · intro hf hu k hk fuel hlt
    rw [final_oneshot_branch K hw rhw fuel w cache stdBuf digest digestSz algo hf hu]
    obtain ⟨res, hres⟩ := wc_Pic32Hash_returns K hw cache.buf ((padWorld w cache).objs cache.buf)
      (toI32 cache.updLen) digest w.digest digestSz algo k hk fuel hlt
    rw [hres]; rfl
  · intro hf hl
    obtain ⟨n, hn⟩ := wait_engine_live K rhw hl (start_engine w.ring) w.digest digestSz
    refine ⟨n, fun fuel hle => ?_⟩
    rw [final_stream_branch K hw rhw fuel w cache stdBuf digest digestSz algo hf]
    obtain ⟨rd, hrd⟩ := hn fuel hle
    rw [hrd]; rfl

/-- C6: when no final length is declared and zero bytes were accumulated
(`updLen = 0`), `wc_Pic32HashFinal` returns `0` for any fuel and any engine,
makes no mutex call, stores to no engine register and sets up no job (the
one-shot log and the streaming globals are as before), and stores to the output
the first `digestSz` bytes of the canonical empty-message digest of the
algorithm: `e3b0c442...7852b855` for SHA-256, `da39a3ee...afd80709` for SHA-1,
`d41d8cd9...ecf8427e` for MD5 (the rest of the output is unchanged). -/
theorem wc_Pic32HashFinal_empty_digest (K : Header) (hw : Engine) (rhw : RingHw) (fuel : Nat)
    (w : World) (cache : hashUpdCache) (stdBuf digest : Nat) (digestSz : Int) (algo : Int)
    (n : Nat)
    (hf : cache.finalLen = 0) (hu : cache.updLen = 0)
    (hdist : K.PIC32_ALGO_SHA1 ≠ K.PIC32_ALGO_SHA256 ∧ K.PIC32_ALGO_MD5 ≠ K.PIC32_ALGO_SHA256 ∧
      K.PIC32_ALGO_MD5 ≠ K.PIC32_ALGO_SHA1)
    (hsz : digestSz = n) (hroom : n ≤ w.hash.length) :
    ∃ c' w', wc_Pic32HashFinal K hw rhw fuel w cache stdBuf digest digestSz algo
        = some (0, c', w') ∧
      w'.events = w.events ∧ w'.jobs = w.jobs ∧ w'.ring = w.ring ∧
      (algo = K.PIC32_ALGO_SHA256 → n ≤ 32 →
        w'.hash = List.take n
          [0xe3, 0xb0, 0xc4, 0x42, 0x98, 0xfc, 0x1c, 0x14, 0x9a, 0xfb, 0xf4, 0xc8, 0x99, 0x6f,
           0xb9, 0x24, 0x27, 0xae, 0x41, 0xe4, 0x64, 0x9b, 0x93, 0x4c, 0xa4, 0x95, 0x99, 0x1b,
           0x78, 0x52, 0xb8, 0x55] ++ w.hash.drop n) ∧
      (algo = K.PIC32_ALGO_SHA1 → n ≤ 20 →
        w'.hash = List.take n
          [0xda, 0x39, 0xa3, 0xee, 0x5e, 0x6b, 0x4b, 0x0d, 0x32, 0x55, 0xbf, 0xef, 0x95, 0x60,
           0x18, 0x90, 0xaf, 0xd8, 0x07, 0x09] ++ w.hash.drop n) ∧
      (algo = K.PIC32_ALGO_MD5 → n ≤ 16 →
        w'.hash = List.take n
          [0xd4, 0x1d, 0x8c, 0xd9, 0x8f, 0x00, 0xb2, 0x04, 0xe9, 0x80, 0x09, 0x98, 0xec, 0xf8,
           0x42, 0x7e] ++ w.hash.drop n) := by
  obtain ⟨d1, d2, d3⟩ := hdist
  obtain ⟨w', he, _, hev, hj, hr, _, hh⟩ :=
    final_empty_branch K hw rhw fuel w cache stdBuf digest digestSz algo hf hu
  refine ⟨_, w', he, hev, hj, hr, ?_, ?_, ?_⟩
  · intro ha hn
    rw [hh, if_pos ha, hsz]
    exact memcpyN_head w.hash sha256EmptyHash n (by omega) hroom (by simpa [sha256EmptyHash] using hn)
  · intro ha hn
    have h1 : algo ≠ K.PIC32_ALGO_SHA256 := ha ▸ d1
    rw [hh, if_neg h1, if_pos ha, hsz]
    exact memcpyN_head w.hash shaEmptyHash n (by omega) hroom (by simpa [shaEmptyHash] using hn)
  · intro ha hn
    have h1 : algo ≠ K.PIC32_ALGO_SHA256 := ha ▸ d2
    have h2 : algo ≠ K.PIC32_ALGO_SHA1 := ha ▸ d3
    rw [hh, if_neg h1, if_neg h2, if_pos ha, hsz]
    exact memcpyN_head w.hash md5EmptyHash n (by omega) hroom (by simpa [md5EmptyHash] using hn)

/-- C6 (witness): finalizing an empty SHA-256 context writes the 32 bytes of the
empty-message digest. -/
theorem wc_Pic32HashFinal_empty_digest_witness :
    ∃ c' w', wc_Pic32HashFinal wolfHeader idleEngine idleRingHw 0 demoWorld
        { buf := 0, bufLen := 0, updLen := 0, isCopy := 0, finalLen := 0 } 4096 8192 32 32
        = some (0, c', w') ∧ w'.events = [] ∧ w'.hash = sha256EmptyHash := by
  obtain ⟨c', w', h, hev, _, _, hs, _⟩ := wc_Pic32HashFinal_empty_digest wolfHeader idleEngine
    idleRingHw 0 demoWorld { buf := 0, bufLen := 0, updLen := 0, isCopy := 0, finalLen := 0 }
    4096 8192 32 32 32 rfl rfl (by decide) rfl (by decide)
  exact ⟨c', w', h, hev, (hs rfl (by decide)).trans (by decide)⟩

theorem memWrite_head (buf : List Nat) (off : Nat) (src : List Nat)
    (h : off + src.length ≤ buf.length) :
    (memWrite buf off src).take (off + src.length) = buf.take off ++ src := by
  unfold memWrite
  have h1 : (buf.take off).length = off := by simp; omega
  have h2 : src.take (buf.length - off) = src := List.take_of_length_le (by omega)
  rw [h2, ← List.append_assoc]
  rw [List.take_append_of_le_length (by simp [h1])]
  apply List.take_of_length_le
  simp [h1]

theorem memWrite_self (buf : List Nat) (n : Nat) :
    memWrite buf 0 (buf.take n) = buf := by
  unfold memWrite
  have h1 : (buf.take n).take (buf.length - 0) = buf.take n :=
    List.take_of_length_le (by simp)
  rw [h1]
  simp only [List.take_zero, List.nil_append, Nat.zero_add, List.length_take]
  by_cases h : n ≤ buf.length
  · rw [Nat.min_eq_left h]; exact List.take_append_drop n buf
  · have h2 : buf.length ≤ n := by omega
    rw [Nat.min_eq_right h2, List.take_of_length_le h2, List.drop_length]
    simp

/-- What `wc_Pic32HashFinal` leaves of the cache pointer, the copy flag and the
`XFREE` record, on every branch. -/
theorem final_freed (K : Header) (hw : Engine) (rhw : RingHw) (fuel : Nat) (w : World)
    (cache : hashUpdCache) (stdBuf digest : Nat) (digestSz : Int) (algo : Int)
    (ret : Int) (c' : hashUpdCache) (w' : World)
    (h : wc_Pic32HashFinal K hw rhw fuel w cache stdBuf digest digestSz algo = some (ret, c', w')) :
    c'.buf = 0 ∧ c'.isCopy = cache.isCopy ∧
    w'.freed = w.freed ++ (if freesBuffer cache stdBuf then [cache.buf] else []) := by
  by_cases hf : cache.finalLen = 0
  · by_cases hu : cache.updLen = 0
    · obtain ⟨w2, he, hfr, _⟩ :=
        final_empty_branch K hw rhw fuel w cache stdBuf digest digestSz algo hf hu
      rw [he] at h
      simp only [Option.some.injEq, Prod.mk.injEq] at h
      obtain ⟨h1, h2, h3⟩ := h
      subst h1 h2 h3
      exact ⟨rfl, rfl, hfr⟩
    · rw [final_oneshot_branch K hw rhw fuel w cache stdBuf digest digestSz algo hf hu] at h
      cases hres : wc_Pic32Hash K hw fuel cache.buf ((padWorld w cache).objs cache.buf)
          (toI32 cache.updLen) digest w.digest digestSz algo with
      | none => simp [hres] at h
      | some res =>
        simp only [hres, Option.map_some', Option.some.injEq, Prod.mk.injEq] at h
        obtain ⟨h1, h2, h3⟩ := h
        subst h1 h2 h3
        refine ⟨rfl, rfl, ?_⟩
        rw [(freeWorld_proj _ cache stdBuf).1]
        simp [(padWorld_proj w cache).1]
  · rw [final_stream_branch K hw rhw fuel w cache stdBuf digest digestSz algo hf] at h
    cases hres : wait_engine K rhw fuel (start_engine w.ring) w.digest digestSz with
    | none => simp [hres] at h
    | some rd =>
      simp only [hres, Option.map_some', Option.some.injEq, Prod.mk.injEq] at h
      obtain ⟨h1, h2, h3⟩ := h
      subst h1 h2 h3
      refine ⟨rfl, rfl, ?_⟩
      rw [(freeWorld_proj _ cache stdBuf).1]
      simp [(padWorld_proj w cache).1]

/-- The `XFREE` record of `wc_Pic32HashUpdate_store`. -/
theorem store_freed (w : World) (c : hashUpdCache) (stdBuf newBuf : Nat) (isNew : Bool)
    (data : List Nat) :
    (wc_Pic32HashUpdate_store w c stdBuf newBuf isNew data).freed
      = w.freed ++ (if (c.buf ≠ 0 ∧ c.updLen > 0) ∧ isNew = true ∧ c.buf ≠ stdBuf
          then [c.buf] else []) := by
  unfold wc_Pic32HashUpdate_store
  dsimp only
  split_ifs <;> simp_all

/-- What `wc_Pic32HashUpdate` does to the cache pointer, the copy flag and the
`XFREE` record: nothing is freed (pointer kept or set to the inline buffer), or
the allocation failed on an owned buffer, or a new block was allocated. -/
theorem update_freed (K : Header) (hw : RingHw) (fuel : Nat) (w : World) (c : hashUpdCache)
    (stdBuf stdBufLen digest : Nat) (data : List Nat) (inRam : Bool) (algo : Int) (alloc : Nat)
    (ret : Int) (c' : hashUpdCache) (w' : World)
    (h : wc_Pic32HashUpdate K hw fuel w c stdBuf stdBufLen digest data inRam algo alloc
      = some (ret, c', w')) :
    (w'.freed = w.freed ∧ (c'.buf = c.buf ∨ c'.buf = stdBuf) ∧ c'.isCopy = c.isCopy) ∨
    (alloc = 0 ∧ c.buf ≠ stdBuf ∧ c.isCopy = 0 ∧ w'.freed = w.freed ++ [c.buf] ∧
      c'.buf = 0 ∧ c'.isCopy = 0) ∨
    (alloc ≠ 0 ∧ reachesAlloc K c stdBufLen data.length ∧ c'.buf = alloc ∧ c'.isCopy = 0 ∧
      w'.freed = w.freed ++
        (if (c.buf ≠ 0 ∧ c.updLen > 0) ∧ c.buf ≠ stdBuf then [c.buf] else [])) := by
  unfold wc_Pic32HashUpdate at h
  by_cases hf : c.finalLen = 0
  · simp only [hf, ne_eq, not_true_eq_false, if_false] at h
    by_cases h1 : paddedLen K ((c.updLen + data.length) % 4294967296) ≤ stdBufLen
    · simp only [h1, if_true, Option.some.injEq, Prod.mk.injEq] at h
      obtain ⟨_, h2, h3⟩ := h
      subst h2 h3
      left
      refine ⟨?_, Or.inr rfl, rfl⟩
      rw [store_freed]; simp
    · simp only [h1, if_false] at h
      by_cases h2 : paddedLen K ((c.updLen + data.length) % 4294967296) > c.bufLen
      · simp only [h2, if_true] at h
        by_cases ha : alloc = 0
        · simp only [ha, if_true] at h
          by_cases hg : c.buf ≠ stdBuf ∧ c.isCopy = 0
          · simp only [hg, and_self, if_true, Option.some.injEq, Prod.mk.injEq, ne_eq,
              not_false_eq_true] at h
            obtain ⟨_, h3, h4⟩ := h
            subst h3 h4
            right; left
            exact ⟨ha, hg.1, hg.2, rfl, rfl, rfl⟩
          · rw [if_neg hg] at h
            simp only [Option.some.injEq, Prod.mk.injEq] at h
            obtain ⟨_, h3, h4⟩ := h
            subst h3 h4
            left
            exact ⟨rfl, Or.inl rfl, rfl⟩
        · simp only [ha, if_false, Option.some.injEq, Prod.mk.injEq] at h
          obtain ⟨_, h3, h4⟩ := h
          subst h3 h4
          right; right
          refine ⟨ha, ⟨hf, h1, h2⟩, rfl, rfl, ?_⟩
          rw [store_freed]
          simp
      · simp only [h2, if_false, Option.some.injEq, Prod.mk.injEq] at h
        obtain ⟨_, h3, h4⟩ := h
        subst h3 h4
        left
        refine ⟨?_, Or.inl rfl, rfl⟩
        rw [store_freed]; simp
  · simp only [hf, ne_eq, not_false_eq_true, if_true] at h
    left
    split at h
    · cases h
    · split at h
      · cases h
      · simp only [Option.some.injEq, Prod.mk.injEq] at h
        obtain ⟨_, h3, h4⟩ := h
        subst h3 h4
        exact ⟨rfl, Or.inl rfl, rfl⟩

theorem Inv2.symm {sx sy : Nat} {x y : hashUpdCache} {freed : List Nat}
    (h : Inv2 sx sy x y freed) : Inv2 sy sx y x freed := by
  obtain ⟨h1, h2, h3, h4, h5, h6⟩ := h
  refine ⟨?_, ?_, ?_, h4, h6, h5⟩
  · intro hc
    rcases h2 hc with h | h | ⟨ha, hb, hd⟩
    · exact Or.inl h
    · exact Or.inr (Or.inl h)
    · exact Or.inr (Or.inr ⟨ha, hd, hb⟩)
  · intro hc
    rcases h1 hc with h | h | ⟨ha, hb, hd⟩
    · exact Or.inl h
    · exact Or.inr (Or.inl h)
    · exact Or.inr (Or.inr ⟨ha, hd, hb⟩)
  · intro hy hx e
    have := h3 hx hy e.symm
    rw [e]; exact this

/-- The owner `x` frees its buffer (not its inline one) and ends up with no
buffer or with a fresh block. -/
theorem Inv2.free {sx sy : Nat} {x y x' : hashUpdCache} {freed : List Nat}
    (hs1 : sy ≠ 0)
    (h : Inv2 sx sy x y freed) (hx : x.isCopy = 0) (hne : x.buf ≠ sx)
    (hx' : x'.buf = 0 ∨ (x'.buf ∉ freed ∧ x'.buf ≠ x.buf ∧ x'.buf ≠ sx ∧ x'.buf ≠ sy ∧
      x'.buf ≠ y.buf)) :
    Inv2 sx sy x' y (freed ++ [x.buf]) := by
  obtain ⟨h1, h2, h3, h4, h5, h6⟩ := h
  have hxo : x.buf = 0 ∨ (x.buf ∉ freed ∧ x.buf ≠ sx ∧ x.buf ≠ sy) := by
    rcases h1 hx with h | h | h
    · exact Or.inl h
    · exact absurd h hne
    · exact Or.inr h
  refine ⟨?_, ?_, ?_, ?_, ?_, ?_⟩
  · intro _
    rcases hx' with h | ⟨a1, a2, a3, a4, a5⟩
    · exact Or.inl h
    · refine Or.inr (Or.inr ⟨?_, a3, a4⟩)
      simp only [List.mem_append, List.mem_singleton, not_or]
      exact ⟨a1, a2⟩
  · intro hy
    rcases h2 hy with h | h | ⟨b1, b2, b3⟩
    · exact Or.inl h
    · exact Or.inr (Or.inl h)
    · by_cases e : y.buf = x.buf
      · left
        have := h3 hx hy e.symm
        rw [e]; exact this
      · refine Or.inr (Or.inr ⟨?_, b2, b3⟩)
        simp only [List.mem_append, List.mem_singleton, not_or]
        exact ⟨b1, e⟩
  · intro _ _ e
    rcases hx' with h | ⟨a1, a2, a3, a4, a5⟩
    · exact h
    · exact absurd e a5
  · rw [List.filter_append]
    rcases hxo with h | ⟨c1, c2, c3⟩
    · simpa [h] using h4
    · by_cases h0 : x.buf = 0
      · simpa [h0] using h4
      · have : List.filter (fun p => decide (p ≠ 0)) [x.buf] = [x.buf] := by simp [h0]
        rw [this]
        apply List.Nodup.append h4 (List.nodup_singleton _)
        intro p hp hq
        simp only [List.mem_singleton] at hq
        subst hq
        exact c1 (List.mem_of_mem_filter hp)
  · simp only [List.mem_append, List.mem_singleton, not_or]
    exact ⟨h5, fun e => hne e.symm⟩
  · simp only [List.mem_append, List.mem_singleton, not_or]
    refine ⟨h6, ?_⟩
    rcases hxo with h | ⟨c1, c2, c3⟩
    · rw [h]; exact hs1
    · exact fun e => c3 e.symm

/-- The context `x` changes its pointer without freeing: it keeps it, or takes
its inline buffer, no buffer, or a fresh block. -/
theorem Inv2.keep {sx sy : Nat} {x y x' : hashUpdCache} {freed : List Nat}
    (hs0 : sx ≠ 0) (hs : sx ≠ sy)
    (h : Inv2 sx sy x y freed)
    (hx' : x'.isCopy = 0 → x'.buf = 0 ∨ x'.buf = sx ∨ (x.isCopy = 0 ∧ x'.buf = x.buf) ∨
      (x'.buf ∉ freed ∧ x'.buf ≠ sx ∧ x'.buf ≠ sy ∧ x'.buf ≠ y.buf)) :
    Inv2 sx sy x' y freed := by
  obtain ⟨h1, h2, h3, h4, h5, h6⟩ := h
  refine ⟨?_, h2, ?_, h4, h5, h6⟩
  · intro hc
    rcases hx' hc with h | h | ⟨hx, h⟩ | ⟨a1, a3, a4, _⟩
    · exact Or.inl h
    · exact Or.inr (Or.inl h)
    · rw [h]; exact h1 hx
    · exact Or.inr (Or.inr ⟨a1, a3, a4⟩)
  · intro hc hy e
    rcases hx' hc with h | h | ⟨hx, h⟩ | ⟨a1, a3, a4, a5⟩
    · exact h
    · exfalso
      rcases h2 hy with g | g | ⟨_, g, _⟩
      · rw [← e, h] at g; exact hs0 g
      · rw [← e, h] at g; exact hs g
      · rw [← e, h] at g; exact g rfl
    · rw [h] at e ⊢; exact h3 hx hy e
    · exact absurd e a5

/-- An admissible update of context `x` keeps the ownership invariant. -/
theorem Inv2.update {E : PairEnv} {s : Pair} {sx sy : Nat} {x y : hashUpdCache}
    (hs0 : sx ≠ 0) (hs1 : sy ≠ 0) (hs : sx ≠ sy)
    (hstd : (sx = E.stdO ∧ sy = E.stdD) ∨ (sx = E.stdD ∧ sy = E.stdO))
    (hxy : (x = s.orig ∧ y = s.dup) ∨ (x = s.dup ∧ y = s.orig))
    (hinv : Inv2 sx sy x y s.w.freed)
    (data : List Nat) (inRam : Bool) (alloc : Nat)
    (hadm : admissibleUpdate E s x sx data.length alloc)
    (ret : Int) (x' : hashUpdCache) (w' : World)
    (h : wc_Pic32HashUpdate E.K E.rhw E.fuel s.w x sx E.stdBufLen E.digest data inRam E.algo alloc
      = some (ret, x', w')) :
    Inv2 sx sy x' y w'.freed := by
  obtain ⟨hfresh, hslip⟩ := hadm
  have hfr : alloc ≠ 0 → alloc ∉ s.w.freed ∧ alloc ≠ sx ∧ alloc ≠ sy ∧ alloc ≠ x.buf ∧
      alloc ≠ y.buf := by
    intro ha
    obtain ⟨f1, f2, f3, f4, f5⟩ := hfresh ha
    rcases hstd with ⟨e1, e2⟩ | ⟨e1, e2⟩ <;> rcases hxy with ⟨e3, e4⟩ | ⟨e3, e4⟩ <;>
      subst e1 e2 e3 e4 <;> exact ⟨f1, by assumption, by assumption, by assumption, by assumption⟩
  rcases update_freed E.K E.rhw E.fuel s.w x sx E.stdBufLen E.digest data inRam E.algo alloc
      ret x' w' h with ⟨a1, a2, a3⟩ | ⟨_, b2, b3, b4, b5, _⟩ | ⟨c1, c2, c3, c4, c5⟩
  · rw [a1]
    apply Inv2.keep hs0 hs hinv
    intro hc
    rw [a3] at hc
    rcases a2 with e | e
    · exact Or.inr (Or.inr (Or.inl ⟨hc, e⟩))
    · exact Or.inr (Or.inl e)
  · rw [b4]
    exact Inv2.free hs1 hinv b3 b2 (Or.inl b5)
  · obtain ⟨f1, f2, f3, f4, f5⟩ := hfr c1
    by_cases hcond : (x.buf ≠ 0 ∧ x.updLen > 0) ∧ x.buf ≠ sx
    · rw [c5, if_pos hcond]
      have hx : x.isCopy = 0 := by
        by_contra hne
        exact hslip ⟨hne, hcond.1.1, hcond.2, hcond.1.2, c2, c1⟩
      apply Inv2.free hs1 hinv hx hcond.2
      right
      rw [c3]
      exact ⟨f1, f4, f2, f3, f5⟩
    · rw [c5, if_neg hcond, List.append_nil]
      apply Inv2.keep hs0 hs hinv
      intro _
      right; right; right
      rw [c3]
      exact ⟨f1, f2, f3, f5⟩

/-- `wc_Pic32HashFinal` on context `x` keeps the ownership invariant. -/
theorem Inv2.final {E : PairEnv} {sx sy : Nat} {x y : hashUpdCache} {w : World}
    (hs0 : sx ≠ 0) (hs1 : sy ≠ 0) (hs : sx ≠ sy)
    (hinv : Inv2 sx sy x y w.freed)
    (ret : Int) (x' : hashUpdCache) (w' : World)
    (h : wc_Pic32HashFinal E.K E.ehw E.rhw E.fuel w x sx E.digest E.digestSz E.algo
      = some (ret, x', w')) :
    Inv2 sx sy x' y w'.freed := by
  obtain ⟨h1, h2, h3⟩ := final_freed E.K E.ehw E.rhw E.fuel w x sx E.digest E.digestSz E.algo
    ret x' w' h
  rw [h3]
  by_cases hc : freesBuffer x sx
  · rw [if_pos hc]
    exact Inv2.free hs1 hinv hc.2.2 hc.2.1 (Or.inl h1)
  · rw [if_neg hc, List.append_nil]
    exact Inv2.keep hs0 hs hinv (fun _ => Or.inl h1)

/-- An admissible run keeps the ownership invariant of the two contexts. -/
theorem runPair_inv (E : PairEnv) (hs0 : E.stdO ≠ 0) (hs1 : E.stdD ≠ 0) (hs : E.stdO ≠ E.stdD) :
    ∀ (ops : List CacheOp) (s s' : Pair),
      Inv2 E.stdO E.stdD s.orig s.dup s.w.freed → Admissible E s ops →
      runPair E s ops = some s' → Inv2 E.stdO E.stdD s'.orig s'.dup s'.w.freed := by
  intro ops
  induction ops with
  | nil =>
    intro s s' hinv _ h
    simp only [runPair, Option.some.injEq] at h
    subst h
    exact hinv
  | cons op rest ih =>
    intro s s' hinv hadm h
    obtain ⟨hop, hrest⟩ := hadm
    simp only [runPair] at h
    cases hstep : stepPair E s op with
    | none => simp [hstep] at h
    | some s1 =>
      simp only [hstep] at h hrest
      refine ih s1 s' ?_ hrest h
      cases op with
      | update dup data inRam alloc =>
        cases dup with
        | false =>
          simp only [stepPair] at hstep
          cases hr : wc_Pic32HashUpdate E.K E.rhw E.fuel s.w s.orig E.stdO E.stdBufLen E.digest
              data inRam E.algo alloc with
          | none => simp [hr] at hstep
          | some r =>
            obtain ⟨ret, x', w'⟩ := r
            simp only [hr, Option.map_some', Option.some.injEq] at hstep
            subst hstep
            exact Inv2.update hs0 hs1 hs (Or.inl ⟨rfl, rfl⟩) (Or.inl ⟨rfl, rfl⟩) hinv data inRam
              alloc hop ret x' w' hr
        | true =>
          simp only [stepPair] at hstep
          cases hr : wc_Pic32HashUpdate E.K E.rhw E.fuel s.w s.dup E.stdD E.stdBufLen E.digest
              data inRam E.algo alloc with
          | none => simp [hr] at hstep
          | some r =>
            obtain ⟨ret, x', w'⟩ := r
            simp only [hr, Option.map_some', Option.some.injEq] at hstep
            subst hstep
            exact (Inv2.update hs1 hs0 (Ne.symm hs) (Or.inr ⟨rfl, rfl⟩) (Or.inr ⟨rfl, rfl⟩)
              hinv.symm data inRam alloc hop ret x' w' hr).symm
      | final dup =>
        cases dup with
        | false =>
          simp only [stepPair] at hstep
          cases hr : wc_Pic32HashFinal E.K E.ehw E.rhw E.fuel s.w s.orig E.stdO E.digest
              E.digestSz E.algo with
          | none => simp [hr] at hstep
          | some r =>
            obtain ⟨ret, x', w'⟩ := r
            simp only [hr, Option.map_some', Option.some.injEq] at hstep
            subst hstep
            exact Inv2.final hs0 hs1 hs hinv ret x' w' hr
        | true =>
          simp only [stepPair] at hstep
          cases hr : wc_Pic32HashFinal E.K E.ehw E.rhw E.fuel s.w s.dup E.stdD E.digest
              E.digestSz E.algo with
          | none => simp [hr] at hstep
          | some r =>
            obtain ⟨ret, x', w'⟩ := r
            simp only [hr, Option.map_some', Option.some.injEq] at hstep
            subst hstep
            exact (Inv2.final hs1 hs0 (Ne.symm hs) hinv.symm ret x' w' hr).symm

/-- Away from the growth of a copy-flagged cache: an original cache `o`
(holding no buffer, its inline buffer or a heap block) and its duplicate marked
by `wc_Pic32HashCopy` share the buffer pointer. For any sequence of
`wc_Pic32HashUpdate` and `wc_Pic32HashFinal` calls on the two, in which `XMALLOC`
returns blocks that were never passed to `XFREE` before and are held by neither
context, and no copy-flagged cache that holds data outside its own inline buffer
allocates a new buffer: no non-null pointer is passed to `XFREE` more than once
and neither inline scratch buffer is ever passed to `XFREE`; in particular
copying and then finalizing both contexts frees the shared buffer at most once.
(The original may free the shared buffer while the duplicate still points to
it.) -/
theorem wc_Pic32HashCopy_frees_once (E : PairEnv) (o d : hashUpdCache) (w : World)
    (ops : List CacheOp)
    (hs : E.stdO ≠ 0 ∧ E.stdD ≠ 0 ∧ E.stdO ≠ E.stdD)
    (hown : o.buf ≠ E.stdD)
    (hd : (wc_Pic32HashCopy (some o)).2 = some d)
    (hw0 : w.freed = [])
    (hadm : Admissible E { orig := o, dup := d, w := w } ops) :
    ∀ s', runPair E { orig := o, dup := d, w := w } ops = some s' →
      (∀ p, p ≠ 0 → s'.w.freed.count p ≤ 1) ∧ E.stdO ∉ s'.w.freed ∧ E.stdD ∉ s'.w.freed := by
  obtain ⟨hs0, hs1, hs2⟩ := hs
  intro s' hrun
  have hdc : d.isCopy ≠ 0 := by
    simp only [wc_Pic32HashCopy, Option.some.injEq] at hd
    subst hd
    simp
  have hinit : Inv2 E.stdO E.stdD o d w.freed := by
    rw [hw0]
    refine ⟨?_, fun h => absurd h hdc, fun _ h => absurd h hdc, by simp, by simp, by simp⟩
    intro _
    by_cases h1 : o.buf = E.stdO
    · exact Or.inr (Or.inl h1)
    · exact Or.inr (Or.inr ⟨by simp, h1, hown⟩)
  obtain ⟨_, _, _, hnd, h5, h6⟩ :=
    runPair_inv E hs0 hs1 hs2 ops { orig := o, dup := d, w := w } s' hinit hadm hrun
  refine ⟨?_, h5, h6⟩
  intro p hp
  have hc := List.nodup_iff_count_le_one.1 hnd p
  rw [List.count_filter (by simpa using hp)] at hc
  exact hc

/-- C3 (failing input): an original holds 100 bytes in the heap block 12288
(or 10 bytes in its inline buffer 4096) and is duplicated by `wc_Pic32HashCopy`.
The duplicate is fed 100 more bytes and grows into a new block: line 498 clears
its copy flag and line 506 passes the shared block 12288 to `XFREE` while the
original still points to it; finalizing the original then passes 12288 to
`XFREE` a second time. With the original on its inline buffer, the same update
of the duplicate passes the original's inline buffer 4096 to `XFREE`. -/
theorem wc_Pic32HashUpdate_copy_growth_frees :
    wc_Pic32HashCopy (some heapCache) = (0, some { heapCache with isCopy := 1 }) ∧
    wc_Pic32HashCopy (some inlineCache) = (0, some { inlineCache with isCopy := 1 }) ∧
    (runPair demoEnv { orig := heapCache, dup := { heapCache with isCopy := 1 }, w := demoHeap }
      [CacheOp.update true (List.replicate 100 7) true 16384, CacheOp.final false]).map
        (fun s => s.w.freed) = some [12288, 12288] ∧
    (runPair demoEnv { orig := heapCache, dup := { heapCache with isCopy := 1 }, w := demoHeap }
      [CacheOp.update true (List.replicate 100 7) true 16384]).map
        (fun s => (s.w.freed, s.orig.buf, s.dup.buf, s.dup.isCopy))
      = some ([12288], 12288, 16384, 0) ∧
    (runPair demoEnv
      { orig := inlineCache, dup := { inlineCache with isCopy := 1 }, w := demoHeap }
      [CacheOp.update true (List.replicate 100 7) true 16384]).map
        (fun s => (s.w.freed, s.orig.buf)) = some ([4096], 4096) := by
  refine ⟨?_, ?_, ?_, ?_, ?_⟩ <;> rfl

/-- Finalizing the original right after the copy frees the shared block 12288
while the duplicate still points to it: only the copy flag of the duplicate
protects the block, nothing protects the duplicate from the original. -/
theorem wc_Pic32HashFinal_frees_shared :
    (runPair demoEnv { orig := heapCache, dup := { heapCache with isCopy := 1 }, w := demoHeap }
      [CacheOp.final false]).map (fun s => (s.w.freed, s.dup.buf)) = some ([12288], 12288) :=
  rfl

/-- A run of `wc_Pic32HashFinal` calls only is admissible. -/
theorem admissible_finals (E : PairEnv) :
    ∀ (ops : List CacheOp) (s : Pair), (∀ op ∈ ops, ∃ d, op = CacheOp.final d) →
      Admissible E s ops := by
  intro ops
  induction ops with
  | nil => intro s _; trivial
  | cons op rest ih =>
    intro s h
    obtain ⟨d, rfl⟩ := h op (List.mem_cons_self _ _)
    refine ⟨trivial, ?_⟩
    cases hstep : stepPair E s (CacheOp.final d) with
    | none => trivial
    | some s1 => exact ih s1 (fun op hop => h op (List.mem_cons_of_mem _ hop))

/-- Copying the heap-backed original and finalizing the duplicate, then the
original, frees the shared block 12288 once and no inline buffer. -/
theorem wc_Pic32HashCopy_frees_once_witness :
    ∃ s', runPair demoEnv
        { orig := heapCache, dup := { heapCache with isCopy := 1 }, w := demoHeap }
        [CacheOp.final true, CacheOp.final false] = some s' ∧
      s'.w.freed = [12288] ∧ s'.w.freed.count 12288 ≤ 1 ∧ 4096 ∉ s'.w.freed ∧
      8192 ∉ s'.w.freed := by
  have hsome : (runPair demoEnv
      { orig := heapCache, dup := { heapCache with isCopy := 1 }, w := demoHeap }
      [CacheOp.final true, CacheOp.final false]).isSome = true := by rfl
  obtain ⟨s', hs'⟩ := Option.isSome_iff_exists.1 hsome
  have hfreed : (runPair demoEnv
      { orig := heapCache, dup := { heapCache with isCopy := 1 }, w := demoHeap }
      [CacheOp.final true, CacheOp.final false]).map (fun s => s.w.freed) = some [12288] := by rfl
  rw [hs'] at hfreed
  simp only [Option.map_some', Option.some.injEq] at hfreed
  obtain ⟨h1, h2, h3⟩ := wc_Pic32HashCopy_frees_once demoEnv heapCache
    { heapCache with isCopy := 1 } demoHeap [CacheOp.final true, CacheOp.final false]
    (by decide) (by decide) rfl rfl
    (admissible_finals _ _ _ (by simp)) s' hs'
  exact ⟨s', hs', hfreed, h1 12288 (by decide), h2, h3⟩

theorem bdAt_set (r : Ring) (i j : Nat) (b : bufferDescriptor) :
    (r.desc.bd.set i b).getD j {} = if j = i ∧ i < r.desc.bd.length then b else r.bdAt j := by
  unfold Ring.bdAt
  simp only [List.getD_eq_getElem?_getD, List.getElem?_set]
  by_cases h : i = j
  · subst h
    by_cases h2 : i < r.desc.bd.length
    · simp [h2]
    · simp [h2, List.getElem?_eq_none (Nat.le_of_not_lt h2)]
  · have : ¬ (j = i ∧ i < r.desc.bd.length) := fun hh => h hh.1.symm
    simp [h, this]

theorem setBd_bdAt (r : Ring) (i j : Nat) (f : bufferDescriptor → bufferDescriptor) :
    (r.setBd i f).bdAt j = if j = i ∧ i < r.desc.bd.length then f (r.bdAt i) else r.bdAt j := by
  have := bdAt_set r i j (f (r.bdAt i))
  simpa [Ring.setBd, Ring.bdAt] using this

theorem enable_bdAt (r : Ring) (i j : Nat) :
    (r.enable i).bdAt j = if j = i ∧ i < r.desc.bd.length
      then { r.bdAt i with BD_CTRL := { (r.bdAt i).BD_CTRL with DESC_EN := true } }
      else r.bdAt j := by
  have := bdAt_set r i j { r.bdAt i with BD_CTRL := { (r.bdAt i).BD_CTRL with DESC_EN := true } }
  simpa [Ring.enable, Ring.bdAt] using this

theorem poll_same (hw : RingHw) (r : Ring) : SameButEnable r (r.poll hw) := by
  refine ⟨rfl, rfl, rfl, rfl, rfl, poll_bd_length hw r, ?_⟩
  intro i
  by_cases hi : i < r.desc.bd.length
  · rw [poll_bdAt hw r i hi]
    split_ifs <;> rfl
  · have h1 : (r.poll hw).bdAt i = {} := by
      unfold Ring.bdAt
      rw [List.getD_eq_getElem?_getD, List.getElem?_eq_none]
      · rfl
      · rw [poll_bd_length]; omega
    have h2 : r.bdAt i = {} := by
      unfold Ring.bdAt
      rw [List.getD_eq_getElem?_getD, List.getElem?_eq_none (by omega)]
      rfl
    rw [h1, h2]

theorem SameButEnable.trans {a b c : Ring} (h1 : SameButEnable a b) (h2 : SameButEnable b c) :
    SameButEnable a c := by
  obtain ⟨a1, a2, a3, a4, a5, a6, a7⟩ := h1
  obtain ⟨b1, b2, b3, b4, b5, b6, b7⟩ := h2
  exact ⟨b1.trans a1, b2.trans a2, b3.trans a3, b4.trans a4, b5.trans a5, b6.trans a6,
    fun i => (b7 i).trans (a7 i)⟩

/-- The wait for the current descriptor ends when the engine clears its flag
within the fuel, and changes only enable flags. -/
theorem waitDescFree_some (hw : RingHw) :
    ∀ (fuel : Nat) (r : Ring), r.desc.currBd < r.desc.bd.length →
      (∃ k, r.polls ≤ k ∧ k < r.polls + fuel ∧ hw.done k r.desc.currBd = true) →
      ∃ r', waitDescFree hw fuel r = some r' ∧ SameButEnable r r' ∧
        r'.polls ≤ r.polls + fuel := by
  intro fuel
  induction fuel with
  | zero =>
    intro r _ h
    obtain ⟨k, h1, h2, _⟩ := h
    omega
  | succ n ih =>
    intro r hc h
    unfold waitDescFree
    have hs := poll_same hw r
    by_cases he : ((r.poll hw).bdAt (r.poll hw).desc.currBd).BD_CTRL.DESC_EN = true
    · simp only [he, if_true]
      have hcur : (r.poll hw).desc.currBd = r.desc.currBd := rfl
      rw [hcur, poll_bdAt_en hw r _ hc] at he
      simp only [Bool.and_eq_true, Bool.not_eq_true'] at he
      obtain ⟨k, h1, h2, h3⟩ := h
      have hne : k ≠ r.polls := fun e => by rw [e, he.2] at h3; cases h3
      obtain ⟨r', hr, hsame, hp⟩ := ih (r.poll hw) (by rw [poll_bd_length]; exact hc)
        ⟨k, by simp only [Ring.poll]; omega, by simp only [Ring.poll]; omega, h3⟩
      refine ⟨r', hr, hs.trans hsame, ?_⟩
      simp only [Ring.poll] at hp
      omega
    · simp only [he]
      refine ⟨_, rfl, hs, ?_⟩
      simp only [Ring.poll]
      omega

theorem setBd_same (r : Ring) (i : Nat) (f : bufferDescriptor → bufferDescriptor)
    (hf : ∀ b, (f b).SRCADDR = b.SRCADDR) : SameButEnable r (r.setBd i f) := by
  refine ⟨rfl, rfl, rfl, rfl, rfl, by simp [Ring.setBd], ?_⟩
  intro j
  rw [setBd_bdAt]
  split_ifs with h
  · rw [hf, h.1]
  · rfl

theorem SameButEnable.ok {r r' : Ring} (h : SameButEnable r r') (hok : RingOk r) : RingOk r' := by
  obtain ⟨a1, a2, a3, a4, a5, a6, a7⟩ := h
  obtain ⟨b1, b2, b3, b4, b5, b6⟩ := hok
  refine ⟨a6.trans b1, by rw [a1]; exact b2, ?_, ?_, by rw [a3]; exact b5, by rw [a4]; exact b6⟩
  · intro i hi; rw [a1]; exact b3 i hi
  · intro i hi; rw [a7]; exact b4 i hi

theorem SameButEnable.handed {r r' : Ring} (h : SameButEnable r r') : r'.handed = r.handed := by
  unfold Ring.handed
  rw [h.2.1]

theorem enable_handed (r : Ring) (hok : RingOk r) :
    (r.enable r.desc.currBd).handed
      = r.handed ++ (r.dataBuf.getD r.desc.currBd []).take r.desc.dbPtr ∧
    (r.enable r.desc.currBd).dataBuf = r.dataBuf ∧
    (r.enable r.desc.currBd).desc.currBd = r.desc.currBd ∧
    (r.enable r.desc.currBd).desc.dbPtr = r.desc.dbPtr ∧
    (r.enable r.desc.currBd).desc.msgSize = r.desc.msgSize ∧
    (r.enable r.desc.currBd).desc.bd.length = r.desc.bd.length ∧
    (∀ i, ((r.enable r.desc.currBd).bdAt i).SRCADDR = (r.bdAt i).SRCADDR) ∧
    (r.enable r.desc.currBd).polls = r.polls := by
  obtain ⟨b1, b2, b3, b4, b5, b6⟩ := hok
  refine ⟨?_, rfl, rfl, rfl, rfl, by simp [Ring.enable], ?_, rfl⟩
  · unfold Ring.handed Ring.enable
    simp only [List.flatMap_append, List.flatMap_cons, List.flatMap_nil, List.append_nil]
    rw [b4 _ b5]
    rfl
  · intro i
    rw [enable_bdAt]
    split_ifs with h
    · rw [h.1]
    · rfl

theorem submit_staged (r : Ring) (msg : List Nat) (h : Staged r msg) :
    RingOk (update_engine_submit r) ∧ (update_engine_submit r).handed = msg ∧
    (update_engine_submit r).desc.msgSize = r.desc.msgSize ∧
    (update_engine_submit r).polls = r.polls := by
  obtain ⟨hok, hmsg⟩ := h
  have s1 := setBd_same r r.desc.currBd (fun b =>
    { b with MSGLEN := r.desc.msgSize,
             BD_CTRL := { b.BD_CTRL with BUFLEN := r.desc.dbPtr, LAST_BD := false,
                                         LIFM := false } }) (fun _ => rfl)
  have ok1 := s1.ok hok
  obtain ⟨e1, e2, e3, e4, e5, e6, e7, e8⟩ := enable_handed _ ok1
  obtain ⟨c1, c2, c3, c4, c5, c6⟩ := ok1
  unfold update_engine_submit
  dsimp only
  refine ⟨⟨e6.trans c1, by rw [e2]; exact c2, ?_, ?_, by rw [e3]; exact c5,
    by rw [e4]; exact c6⟩, ?_, ?_, ?_⟩
  · intro i hi; rw [e2]; exact c3 i hi
  · intro i hi; rw [e7]; exact c4 i hi
  · rw [e1, s1.handed]
    exact hmsg
  · rw [e5]; rfl
  · rw [e8]; rfl

theorem advance_ok (r : Ring) (hok : RingOk r) :
    RingOk (update_engine_advance r) ∧ (update_engine_advance r).handed = r.handed ∧
    (update_engine_advance r).desc.msgSize = r.desc.msgSize ∧
    (update_engine_advance r).polls = r.polls := by
  obtain ⟨b1, b2, b3, b4, b5, b6⟩ := hok
  refine ⟨⟨b1, b2, b3, b4, ?_, b6⟩, rfl, rfl, rfl⟩
  show (if r.desc.currBd + 1 ≥ PIC32MZ_MAX_BD then 0 else r.desc.currBd + 1) < PIC32MZ_MAX_BD
  split_ifs with h
  · decide
  · omega

theorem rearm_staged (hash : Nat) (r : Ring) (hok : RingOk r) :
    Staged (update_engine_rearm hash r) r.handed ∧ (update_engine_rearm hash r).desc.dbPtr = 0 ∧
    (update_engine_rearm hash r).desc.msgSize = r.desc.msgSize := by
  have s1 := setBd_same r r.desc.currBd (fun b => { b with UPDPTR := PA.ptr hash })
    (fun _ => rfl)
  obtain ⟨c1, c2, c3, c4, c5, c6⟩ := s1.ok hok
  have hh := s1.handed
  unfold update_engine_rearm
  dsimp only
  refine ⟨⟨⟨c1, c2, c3, c4, c5, Nat.zero_le _⟩, ?_⟩, rfl, rfl⟩
  simp only [List.take_zero, List.append_nil]
  exact hh

/-- Flushing the full descriptor hands its staging buffer to the engine and
leaves an empty current buffer. -/
theorem flush_staged (hw : RingHw) (fuel : Nat) (hash : Nat) (r : Ring) (msg : List Nat)
    (hresp : hw.responsive fuel) (h : Staged r msg) :
    ∃ r', update_engine_flush hw fuel hash r = some r' ∧ Staged r' msg ∧ r'.desc.dbPtr = 0 ∧
      r'.desc.msgSize = r.desc.msgSize := by
  obtain ⟨ok1, h1, m1, _⟩ := submit_staged r msg h
  obtain ⟨ok2, h2, m2, _⟩ := advance_ok _ ok1
  obtain ⟨k, k1, k2, k3⟩ := hresp (update_engine_advance (update_engine_submit r)).desc.currBd
    (update_engine_advance (update_engine_submit r)).polls
  obtain ⟨r4, hr4, hsame, _⟩ := waitDescFree_some hw fuel _
    (by rw [ok2.1]; exact ok2.2.2.2.2.1) ⟨k, k1, k2, k3⟩
  have ok4 := hsame.ok ok2
  obtain ⟨st, d0, m5⟩ := rearm_staged hash r4 ok4
  unfold update_engine_flush
  rw [hr4]
  refine ⟨_, rfl, ?_, d0, ?_⟩
  · rw [hsame.handed, h2, h1] at st
    exact st
  · rw [m5, hsame.2.2.2.2.1, m2, m1]

theorem copyIn_staged (r : Ring) (msg part : List Nat) (h : Staged r msg)
    (hroom : r.desc.dbPtr + part.length ≤ PIC32_BLOCK_SIZE) (n : Nat)
    (hn : n = r.desc.dbPtr + part.length) :
    Staged { r.copyIn r.desc.currBd r.desc.dbPtr part with
             desc := { (r.copyIn r.desc.currBd r.desc.dbPtr part).desc with dbPtr := n } }
      (msg ++ part) ∧
    ({ r.copyIn r.desc.currBd r.desc.dbPtr part with
       desc := { (r.copyIn r.desc.currBd r.desc.dbPtr part).desc with dbPtr := n } } : Ring
      ).desc.msgSize = r.desc.msgSize := by
  obtain ⟨⟨b1, b2, b3, b4, b5, b6⟩, hmsg⟩ := h
  have hcur : r.desc.currBd < r.dataBuf.length := by rw [b2]; exact b5
  have hget : ∀ i, (r.dataBuf.set r.desc.currBd
      (memWrite (r.dataBuf.getD r.desc.currBd []) r.desc.dbPtr part)).getD i []
      = if i = r.desc.currBd then memWrite (r.dataBuf.getD r.desc.currBd []) r.desc.dbPtr part
        else r.dataBuf.getD i [] := by
    intro i
    simp only [List.getD_eq_getElem?_getD, List.getElem?_set]
    by_cases e : r.desc.currBd = i
    · subst e; simp [hcur]
    · have : ¬ i = r.desc.currBd := fun h => e h.symm
      simp [e, this]
  refine ⟨⟨⟨b1, by simp [Ring.copyIn, b2], ?_, b4, b5, by rw [hn]; exact hroom⟩, ?_⟩, rfl⟩
  · intro i hi
    show ((r.dataBuf.set r.desc.currBd _).getD i []).length = PIC32_BLOCK_SIZE
    rw [hget]
    split_ifs with e
    · rw [memWrite_length]; exact b3 _ b5
    · exact b3 i hi
  · show r.handed ++ ((r.dataBuf.set r.desc.currBd _).getD r.desc.currBd []).take n = msg ++ part
    rw [hget, if_pos rfl, hn, memWrite_head _ _ _ (by rw [b3 _ b5]; exact hroom),
      ← List.append_assoc, hmsg]

/-- The `while (len)` loop on RAM input stages all of `input`. -/
theorem loop_staged (hw : RingHw) (fuel : Nat) (hash : Nat) (hresp : hw.responsive fuel) :
    ∀ (n : Nat) (r : Ring) (input msg : List Nat), Staged r msg → input.length ≤ n →
      ∃ r', update_engine_loop hw fuel true hash n r input = some r' ∧
        Staged r' (msg ++ input) ∧ r'.desc.msgSize = r.desc.msgSize := by
  intro n
  induction n with
  | zero =>
    intro r input msg h hlen
    have : input = [] := List.length_eq_zero.1 (by omega)
    subst this
    exact ⟨r, by simp [update_engine_loop], by simpa using h, rfl⟩
  | succ n ih =>
    intro r input msg h hlen
    unfold update_engine_loop
    by_cases h0 : input.length = 0
    · have : input = [] := List.length_eq_zero.1 h0
      subst this
      exact ⟨r, by simp, by simpa using h, rfl⟩
    · simp only [h0, if_false]
      -- the ring after the optional flush
      have hfl : ∃ r1, (if r.desc.dbPtr ≥ PIC32_BLOCK_SIZE then update_engine_flush hw fuel hash r
          else some r) = some r1 ∧ Staged r1 msg ∧ r1.desc.dbPtr < PIC32_BLOCK_SIZE ∧
          r1.desc.msgSize = r.desc.msgSize := by
        by_cases hfull : r.desc.dbPtr ≥ PIC32_BLOCK_SIZE
        · obtain ⟨r1, e, st, d0, m⟩ := flush_staged hw fuel hash r msg hresp h
          exact ⟨r1, by simp [hfull, e], st, by rw [d0]; decide, m⟩
        · exact ⟨r, by simp [hfull], h, by omega, rfl⟩
      obtain ⟨r1, e1, st1, hlt, m1⟩ := hfl
      rw [e1]
      simp only [Bool.not_true, Bool.false_eq_true, if_false]
      have hsp : toU32 ((PIC32_BLOCK_SIZE : Int) - r1.desc.dbPtr) = PIC32_BLOCK_SIZE - r1.desc.dbPtr := by
        unfold toU32
        have : PIC32_BLOCK_SIZE = 256 := rfl
        omega
      rw [hsp]
      by_cases hbig : input.length > PIC32_BLOCK_SIZE - r1.desc.dbPtr
      · simp only [hbig, if_true]
        obtain ⟨st2, m2⟩ := copyIn_staged r1 msg (input.take (PIC32_BLOCK_SIZE - r1.desc.dbPtr))
          st1 (by rw [List.length_take]; omega) PIC32_BLOCK_SIZE
          (by rw [List.length_take]; omega)
        obtain ⟨r', e3, st3, m3⟩ := ih _ (input.drop (PIC32_BLOCK_SIZE - r1.desc.dbPtr))
          (msg ++ input.take (PIC32_BLOCK_SIZE - r1.desc.dbPtr)) st2
          (by rw [List.length_drop]; omega)
        refine ⟨r', e3, ?_, by rw [m3, m2, m1]⟩
        rw [List.append_assoc, List.take_append_drop] at st3
        exact st3
      · simp only [hbig, if_false]
        obtain ⟨st2, m2⟩ := copyIn_staged r1 msg input st1 (by omega)
          (r1.desc.dbPtr + input.length) rfl
        obtain ⟨r', e3, st3, m3⟩ := ih _ [] (msg ++ input) st2 (by simp)
        refine ⟨r', e3, by simpa using st3, by rw [m3, m2, m1]⟩

/-- `update_engine` on RAM input stages all of `input`. -/
theorem update_engine_staged (hw : RingHw) (fuel : Nat) (hash : Nat) (hresp : hw.responsive fuel)
    (r : Ring) (input msg : List Nat) (h : Staged r msg) :
    ∃ r', update_engine hw fuel r input true hash = some r' ∧ Staged r' (msg ++ input) ∧
      r'.desc.msgSize = r.desc.msgSize := by
  have s1 := setBd_same r r.desc.currBd (fun b => { b with UPDPTR := PA.ptr hash })
    (fun _ => rfl)
  have st1 : Staged (r.setBd r.desc.currBd (fun b => { b with UPDPTR := PA.ptr hash })) msg := by
    refine ⟨s1.ok h.1, ?_⟩
    rw [s1.handed, s1.1, s1.2.2.1, s1.2.2.2.1]
    exact h.2
  obtain ⟨r', e, st, m⟩ := loop_staged hw fuel hash hresp input.length _ input msg st1 (le_refl _)
  exact ⟨r', e, st, by rw [m, s1.2.2.2.2.1]⟩

theorem foldl_staged (hw : RingHw) (fuel : Nat) (hash : Nat) (hresp : hw.responsive fuel) :
    ∀ (chunks : List (List Nat × Bool)) (r : Ring) (msg : List Nat), Staged r msg →
      (∀ ch ∈ chunks, ch.2 = true) →
      ∃ r', chunks.foldlM (fun r ch => update_engine hw fuel r ch.1 ch.2 hash) r = some r' ∧
        Staged r' (msg ++ chunks.flatMap Prod.fst) ∧ r'.desc.msgSize = r.desc.msgSize := by
  intro chunks
  induction chunks with
  | nil =>
    intro r msg h _
    exact ⟨r, rfl, by simpa using h, rfl⟩
  | cons ch rest ih =>
    intro r msg h hram
    have h1 : ch.2 = true := hram ch (List.mem_cons_self _ _)
    obtain ⟨r1, e1, st1, m1⟩ := update_engine_staged hw fuel hash hresp r ch.1 msg h
    obtain ⟨r', e2, st2, m2⟩ := ih r1 (msg ++ ch.1) st1
      (fun c hc => hram c (List.mem_cons_of_mem _ hc))
    refine ⟨r', ?_, ?_, by rw [m2, m1]⟩
    · simp only [List.foldlM_cons, h1, e1, Option.bind_eq_bind, Option.some_bind]
      simpa [h1] using e2
    · simpa [List.flatMap_cons, List.append_assoc] using st2

theorem reset_staged (K : Header) (hw : RingHw) (fuel : Nat) (r0 : Ring) (algo : Int)
    (msgSize : Nat) (hsub : r0.submitted = [])
    (hreset : ∃ k, k < fuel ∧ hw.cecon k = 0) :
    ∃ r, reset_engine K hw fuel r0 algo = some r ∧
      Staged { r with desc := { r.desc with msgSize := msgSize } } [] := by
  obtain ⟨k, hk, hc⟩ := hreset
  obtain ⟨m, hm⟩ := waitReset_some hw.cecon fuel 0 k (Nat.zero_le _) hc (by omega)
  unfold reset_engine
  rw [hm]
  refine ⟨_, rfl, ⟨?_, ?_, ?_, ?_, ?_, ?_⟩, ?_⟩
  · simp
  · simp
  · intro i hi
    have : i < 2 := hi
    interval_cases i <;> simp [PIC32MZ_MAX_BD]
  · intro i hi
    have : i < 2 := hi
    interval_cases i <;> simp [Ring.bdAt, PIC32MZ_MAX_BD, reset_bd, List.range_succ]
  · exact Nat.zero_lt_two
  · exact Nat.zero_le _
  · simp [Ring.handed, hsub]

theorem start_handed (r : Ring) (msg : List Nat) (h : Staged r msg) :
    (start_engine r).handed = msg := by
  obtain ⟨hok, hmsg⟩ := h
  unfold start_engine
  dsimp only
  have s1 := setBd_same r r.desc.currBd (fun b =>
    { b with BD_CTRL := { b.BD_CTRL with
        BUFLEN := if r.desc.dbPtr % 4 ≠ 0 then r.desc.dbPtr + 4 - r.desc.dbPtr % 4
                  else r.desc.dbPtr, LAST_BD := true, LIFM := true } }) (fun _ => rfl)
  obtain ⟨e1, _⟩ := enable_handed _ (s1.ok hok)
  rw [e1, s1.handed, s1.1, s1.2.2.1, s1.2.2.2.1]
  exact hmsg

/-- Chunk-size independence for RAM input: a streaming session whose chunks all
lie in RAM, on an engine that completes the reset and clears enable flags
within the fuel, returns and has handed the engine exactly the message. -/
theorem streamSession_ram (K : Header) (hw : RingHw) (fuel : Nat) (algo : Int) (hash : Nat)
    (r0 : Ring) (msgSize : Nat) (chunks : List (List Nat × Bool))
    (hsub : r0.submitted = []) (hreset : ∃ k, k < fuel ∧ hw.cecon k = 0)
    (hresp : hw.responsive fuel) (hram : ∀ ch ∈ chunks, ch.2 = true) :
    ∃ r, streamSession K hw fuel algo hash r0 msgSize chunks = some r ∧
      r.handed = chunks.flatMap Prod.fst := by
  obtain ⟨r1, e1, st1⟩ := reset_staged K hw fuel r0 algo msgSize hsub hreset
  obtain ⟨r2, e2, st2, _⟩ := foldl_staged hw fuel hash hresp chunks _ [] st1 hram
  unfold streamSession
  rw [e1]
  simp only [e2, Option.map_some']
  exact ⟨_, rfl, by simpa using start_handed r2 _ st2⟩

theorem idleRingHw_responsive : idleRingHw.responsive 1 :=
  fun _ n => ⟨n, le_refl _, by omega, rfl⟩

set_option maxRecDepth 100000 in
/-- C2 (failing input): on an engine that clears every flag at once, the
two-byte message `01 02` streamed as two one-byte chunks lying in flash is
handed to the engine as the single byte `02` (the second chunk replaces the
source address and the fill offset of the pending descriptor); a flash chunk
after staged RAM bytes drops those bytes, and RAM bytes staged after a flash
chunk are not the ones the descriptor reads. The same messages in RAM chunks
are handed over whole. -/
theorem streamSession_flash_chunks :
    (streamSession wolfHeader idleRingHw 1 32 20480 initRing 2
        [([1], false), ([2], false)]).map Ring.handed = some [2] ∧
    (streamSession wolfHeader idleRingHw 1 32 20480 initRing 5
        [([1, 2, 3], true), ([4, 5], false)]).map Ring.handed = some [4, 5] ∧
    (streamSession wolfHeader idleRingHw 1 32 20480 initRing 5
        [([1, 2, 3], false), ([4, 5], true)]).map Ring.handed = some [1, 2, 3] ∧
    (streamSession wolfHeader idleRingHw 1 32 20480 initRing 2
        [([1], true), ([2], true)]).map Ring.handed = some [1, 2] := by
  refine ⟨?_, ?_, ?_, ?_⟩ <;> rfl

/-- The poll loop started with its bound equal to the counter: it makes at most
that many further reads, at least one when the counter is positive, and leaves
the counter `<= 0` exactly when every read found the flag clear. -/
theorem pollLoop_spec (pktif : Nat → Bool) :
    ∀ (n k : Nat),
      (pollLoop pktif n k n).1 ≤ k + n ∧ (0 < n → k < (pollLoop pktif n k n).1) ∧
      ((pollLoop pktif n k n).2 ≤ 0 ↔ ∀ j, k ≤ j → j < k + n → pktif j = false) := by
  intro n
  induction n with
  | zero =>
    intro k
    refine ⟨by simp [pollLoop], fun h => absurd h (Nat.lt_irrefl 0), ?_⟩
    simp only [pollLoop]
    constructor
    · intro _ j h1 h2; omega
    · intro _; simp
  | succ n ih =>
    intro k
    unfold pollLoop
    by_cases hp : pktif k = true
    · simp only [hp, if_true]
      refine ⟨by omega, fun _ => by omega, ?_⟩
      constructor
      · intro h; exfalso; push_cast at h; omega
      · intro h
        have := h k (le_refl _) (by omega)
        rw [hp] at this; cases this
    · have hpf : pktif k = false := by simpa using hp
      simp only [hpf, Bool.false_eq_true, if_false]
      by_cases hn : ((n + 1 : Nat) : Int) - 1 > 0
      · simp only [hn, if_true]
        have e : ((n + 1 : Nat) : Int) - 1 = (n : Int) := by push_cast; ring
        rw [e]
        obtain ⟨h1, h2, h3⟩ := ih (k + 1)
        refine ⟨by omega, fun _ => ?_, ?_⟩
        · have hn0 : 0 < n := by push_cast at hn; omega
          have := h2 hn0
          omega
        · rw [h3]
          constructor
          · intro h j hj1 hj2
            by_cases e2 : j = k
            · rw [e2]; exact hpf
            · exact h j (by omega) (by omega)
          · intro h j hj1 hj2
            exact h j (by omega) (by omega)
      · simp only [hn, if_false]
        have hn0 : n = 0 := by push_cast at hn; omega
        subst hn0
        refine ⟨by omega, fun _ => by omega, ?_⟩
        constructor
        · intro _ j hj1 hj2
          have : j = k := by omega
          rw [this]; exact hpf
        · intro _; simp

/-- C11: for every call of `Pic32Crypto` that passes validation and acquires
the lock: whenever it returns, the completion poll loop has made at least one
and at most `0xFFFFFF` reads of the completion flag `PKTIF`; the call returns
`ASYNC_OP_E` if and only if `CESTATbits.ERROP` is set when checked or none of
the `0xFFFFFF` reads of the budget saw the flag set, and otherwise it returns
`0` (`ASYNC_OP_E` being a non-zero code); and the call does return once the
reset loop sees `CECON` clear. -/
theorem Pic32Crypto_poll_bounded (K : Header) (hw : Engine) (a : CryptoArgs)
    (hv : ¬ (a.inAddr = 0 ∨ a.inLen ≤ 0 ∨ a.outAddr = 0 ∨ Pic32GetBlockSize K a.algo = 0))
    (ha : ¬ (a.inAddr % 4 ≠ 0 ∨ a.outAddr % 4 ≠ 0)) (hl : hw.lockRet = 0)
    (hcode : K.ASYNC_OP_E ≠ 0) :
    (∀ fuel res, Pic32Crypto K hw fuel a = some res →
      1 ≤ res.reads ∧ res.reads ≤ 0xFFFFFF ∧
      (res.ret = K.ASYNC_OP_E ↔
        (hw.errop = true ∨ ∀ j, j < 0xFFFFFF → hw.pktif j = false)) ∧
      (¬ (hw.errop = true ∨ ∀ j, j < 0xFFFFFF → hw.pktif j = false) → res.ret = 0)) ∧
    (∀ k, hw.cecon k = 0 → ∀ fuel, k < fuel → ∃ res, Pic32Crypto K hw fuel a = some res) := by
  constructor
  · intro fuel res h
    obtain ⟨_, hret, hreads, _⟩ := Pic32Crypto_locked K hw fuel a hv ha hl res h
    obtain ⟨p1, p2, p3⟩ := pollLoop_spec hw.pktif 0xFFFFFF 0
    have e : ((0xFFFFFF : Nat) : Int) = (0xFFFFFF : Int) := by norm_num
    rw [e] at p1 p2 p3
    have p3' : (pollLoop hw.pktif 0xFFFFFF 0 0xFFFFFF).2 ≤ 0 ↔
        ∀ j, j < 0xFFFFFF → hw.pktif j = false := by
      rw [p3]
      constructor
      · intro h j hj; exact h j (Nat.zero_le _) (by omega)
      · intro h j _ hj; exact h j (by omega)
    refine ⟨?_, ?_, ?_, ?_⟩
    · rw [hreads]; exact p2 (by norm_num)
    · rw [hreads]; simpa using p1
    · rw [hret]
      by_cases hc : hw.errop = true ∨ (pollLoop hw.pktif 0xFFFFFF 0 0xFFFFFF).2 ≤ 0
      · rw [if_pos hc]
        exact ⟨fun _ => (or_congr Iff.rfl p3').1 hc, fun _ => rfl⟩
      · rw [if_neg hc]
        exact ⟨fun h2 => absurd h2.symm hcode,
          fun h2 => absurd ((or_congr Iff.rfl p3').2 h2) hc⟩
    · intro hc
      have hc' : ¬ (hw.errop = true ∨ (pollLoop hw.pktif 0xFFFFFF 0 0xFFFFFF).2 ≤ 0) :=
        fun h2 => hc ((or_congr Iff.rfl p3').1 h2)
      rw [hret, if_neg hc']
  · intro k hk fuel hlt
    obtain ⟨m, hm⟩ := waitReset_some hw.cecon fuel 0 k (Nat.zero_le _) hk (by omega)
    unfold Pic32Crypto
    simp only [hv, ha, if_false, hl, if_true, hm]
    exact ⟨_, rfl⟩

/-- C11 (witness): on an engine that completes at the third read of the flag,
the one-block AES job makes three reads and returns `0`. -/
theorem Pic32Crypto_poll_bounded_witness :
    ∃ res, Pic32Crypto wolfHeader slowEngine 1 aesDemoArgs = some res ∧ res.reads = 3 ∧
      res.reads ≤ 0xFFFFFF ∧ res.ret = 0 := by
  obtain ⟨h1, h2⟩ := Pic32Crypto_poll_bounded wolfHeader slowEngine aesDemoArgs aesDemoArgs_valid
    aesDemoArgs_aligned rfl (by decide)
  obtain ⟨res, hres⟩ := h2 0 rfl 1 (by decide)
  obtain ⟨_, hb, _, hz⟩ := h1 1 res hres
  have hr : res.reads = 3 := by
    obtain ⟨_, _, hreads, _⟩ := Pic32Crypto_locked wolfHeader slowEngine 1 aesDemoArgs
      aesDemoArgs_valid aesDemoArgs_aligned rfl res hres
    rw [hreads]; rfl
  refine ⟨res, hres, hr, hb, hz ?_⟩
  rintro (h | h)
  · cases h
  · have := h 2 (by norm_num)
    revert this
    decide

/-- C12: for every length `sz` that is not a multiple of the AES block size
(`AES_BLOCK_SIZE`, 16), `wc_AesCbcEncrypt` and `wc_AesCbcDecrypt` return
`BAD_FUNC_ARG` before any hardware interaction, for any engine and any fuel: no
mutex call, no register store, no job set up, and the output buffer and the
chaining register `aes->reg` are unchanged. -/
theorem wc_AesCbc_rejects_partial_block (K : Header) (hw : Engine) (fuel : Nat) (aes : Aes)
    (outAddr : Nat) (out : List Nat) (inAddr : Nat) (inBytes : List Nat) (sz : Nat)
    (h : sz % K.AES_BLOCK_SIZE ≠ 0) :
    wc_AesCbcEncrypt K hw fuel aes outAddr out inAddr inBytes sz
      = some { ret := K.BAD_FUNC_ARG, reg := aes.reg, out := out, events := [], job := none } ∧
    wc_AesCbcDecrypt K hw fuel aes outAddr out inAddr inBytes sz
      = some { ret := K.BAD_FUNC_ARG, reg := aes.reg, out := out, events := [], job := none } := by
  constructor
  · unfold wc_AesCbcEncrypt
    rw [if_pos h]
  · unfold wc_AesCbcDecrypt
    rw [if_pos h]

/-- C12 (witness): 20 bytes are rejected by both CBC functions, with the output
and the chaining register as before and no engine action. -/
theorem wc_AesCbc_rejects_partial_block_witness :
    20 % wolfHeader.AES_BLOCK_SIZE ≠ 0 ∧
    (wc_AesCbcEncrypt wolfHeader idleEngine 1 demoAes 8192 (List.replicate 20 7) 4096
        (List.replicate 20 1) 20).map (fun r => (r.ret, r.reg, r.out, r.events))
      = some (-173, demoAes.reg, List.replicate 20 7, []) ∧
    (wc_AesCbcDecrypt wolfHeader idleEngine 1 demoAes 8192 (List.replicate 20 7) 4096
        (List.replicate 20 1) 20).map (fun r => (r.ret, r.reg, r.out, r.events))
      = some (-173, demoAes.reg, List.replicate 20 7, []) := by
  have h := wc_AesCbc_rejects_partial_block wolfHeader idleEngine 1 demoAes 8192
    (List.replicate 20 7) 4096 (List.replicate 20 1) 20 (by decide)
  refine ⟨by decide, ?_, ?_⟩
  · rw [h.1]; rfl
  · rw [h.2]; rfl

/-- A store to the current descriptor that leaves its enable flag alone keeps
the session quiet. -/
theorem Quiet.setBd {L : Nat} {t0 : List (Nat × Bool)} {s0 : List Submission} {r : Ring}
    (h : Quiet L t0 s0 r) (f : bufferDescriptor → bufferDescriptor)
    (hf : ∀ b, (f b).BD_CTRL.DESC_EN = b.BD_CTRL.DESC_EN) :
    Quiet L t0 s0 (r.setBd r.desc.currBd f) := by
  obtain ⟨h1, h2, h3, h4, ⟨new, h5, h6⟩, h7⟩ := h
  refine ⟨by simp [Ring.setBd, h1], h2, ?_, h4, ⟨new ++ [(r.desc.currBd, false)], ?_, ?_⟩, h7⟩
  · show ((r.setBd r.desc.currBd f).bdAt r.desc.currBd).BD_CTRL.DESC_EN = false
    rw [setBd_bdAt]
    split_ifs
    · rw [hf]; exact h3
    · exact h3
  · show r.touched ++ [(r.desc.currBd, (r.bdAt r.desc.currBd).BD_CTRL.DESC_EN)] = _
    rw [h5, h3, List.append_assoc]
  · intro t ht
    rcases List.mem_append.1 ht with h | h
    · exact h6 t h
    · simp only [List.mem_singleton] at h
      subst h
      exact ⟨rfl, h2⟩

/-- A copy into the current staging buffer keeps the session quiet. -/
theorem Quiet.copyIn {L : Nat} {t0 : List (Nat × Bool)} {s0 : List Submission} {r : Ring}
    (h : Quiet L t0 s0 r) (off : Nat) (src : List Nat) :
    Quiet L t0 s0 (r.copyIn r.desc.currBd off src) := by
  obtain ⟨h1, h2, h3, h4, ⟨new, h5, h6⟩, h7⟩ := h
  refine ⟨h1, h2, h3, h4, ⟨new ++ [(r.desc.currBd, false)], ?_, ?_⟩, h7⟩
  · show r.touched ++ [(r.desc.currBd, (r.bdAt r.desc.currBd).BD_CTRL.DESC_EN)] = _
    rw [h5, h3, List.append_assoc]
  · intro t ht
    rcases List.mem_append.1 ht with h | h
    · exact h6 t h
    · simp only [List.mem_singleton] at h
      subst h
      exact ⟨rfl, h2⟩

/-- Changing only the fill offset keeps the session quiet. -/
theorem Quiet.setDbPtr {L : Nat} {t0 : List (Nat × Bool)} {s0 : List Submission} {r : Ring}
    (h : Quiet L t0 s0 r) (n : Nat) :
    Quiet L t0 s0 { r with desc := { r.desc with dbPtr := n } } := h

/-- When the wait for the current descriptor ends, that descriptor is disabled
and nothing but enable flags and the poll count has changed. -/
theorem waitDescFree_exit (hw : RingHw) :
    ∀ (fuel : Nat) (r r' : Ring), waitDescFree hw fuel r = some r' →
      (r'.bdAt r'.desc.currBd).BD_CTRL.DESC_EN = false ∧
      r'.desc.bd.length = r.desc.bd.length ∧ r'.desc.currBd = r.desc.currBd ∧
      r'.desc.msgSize = r.desc.msgSize ∧ r'.touched = r.touched ∧
      r'.submitted = r.submitted := by
  intro fuel
  induction fuel with
  | zero => intro r r' h; simp [waitDescFree] at h
  | succ n ih =>
    intro r r' h
    unfold waitDescFree at h
    by_cases he : ((r.poll hw).bdAt (r.poll hw).desc.currBd).BD_CTRL.DESC_EN = true
    · simp only [he, if_true] at h
      obtain ⟨a1, a2, a3, a4, a5, a6⟩ := ih _ _ h
      exact ⟨a1, a2.trans (poll_bd_length hw r), a3, a4, a5, a6⟩
    · simp only [he] at h
      simp only [Bool.false_eq_true, if_false, Option.some.injEq] at h
      subst h
      exact ⟨by simpa using he, poll_bd_length hw r, rfl, rfl, rfl, rfl⟩

/-- The store `DESC_EN = 1` records one submission, with the `MSGLEN` the
descriptor holds at that moment, and changes nothing else but that flag. -/
theorem enable_log (r : Ring) (i : Nat) :
    ∃ s, (r.enable i).submitted = r.submitted ++ [s] ∧ s.bd.MSGLEN = (r.bdAt i).MSGLEN ∧
      s.idx = i ∧ s.bd.BD_CTRL.DESC_EN = true ∧
      (r.enable i).touched = r.touched ∧ (r.enable i).desc.bd.length = r.desc.bd.length ∧
      (r.enable i).desc.currBd = r.desc.currBd ∧ (r.enable i).desc.msgSize = r.desc.msgSize ∧
      (r.enable i).polls = r.polls :=
  ⟨_, rfl, rfl, rfl, rfl, rfl, by simp [Ring.enable], rfl, rfl, rfl⟩

/-- The stores of the submit step: one recorded store to the current
descriptor, then its submission with `MSGLEN = msgSize`. -/
theorem submit_log (r : Ring) (hc : r.desc.currBd < r.desc.bd.length) :
    ∃ s, (update_engine_submit r).submitted = r.submitted ++ [s] ∧
      s.bd.MSGLEN = r.desc.msgSize ∧ s.idx = r.desc.currBd ∧
      (update_engine_submit r).touched
        = r.touched ++ [(r.desc.currBd, (r.bdAt r.desc.currBd).BD_CTRL.DESC_EN)] ∧
      (update_engine_submit r).desc.bd.length = r.desc.bd.length ∧
      (update_engine_submit r).desc.currBd = r.desc.currBd ∧
      (update_engine_submit r).desc.msgSize = r.desc.msgSize := by
  obtain ⟨s, e1, e2, e3, _, e5, e6, e7, e8, _⟩ := enable_log (r.setBd r.desc.currBd (fun b =>
    { b with MSGLEN := r.desc.msgSize,
             BD_CTRL := { b.BD_CTRL with BUFLEN := r.desc.dbPtr, LAST_BD := false,
                                         LIFM := false } })) r.desc.currBd
  refine ⟨s, e1, ?_, e3, e5, ?_, e7, e8⟩
  · rw [e2, setBd_bdAt, if_pos ⟨rfl, hc⟩]
  · exact e6.trans (by simp [Ring.setBd])

/-- The flush of a full descriptor keeps the session quiet. -/
theorem Quiet.flush {L : Nat} {t0 : List (Nat × Bool)} {s0 : List Submission} {r r' : Ring}
    (hw : RingHw) (fuel hash : Nat) (h : Quiet L t0 s0 r)
    (hr : update_engine_flush hw fuel hash r = some r') : Quiet L t0 s0 r' := by
  unfold update_engine_flush at hr
  cases hwt : waitDescFree hw fuel (update_engine_advance (update_engine_submit r)) with
  | none => simp [hwt] at hr
  | some r4 =>
    simp only [hwt, Option.some.injEq] at hr
    subst hr
    obtain ⟨a1, a2, a3, a4, a5, a6⟩ := waitDescFree_exit hw fuel _ _ hwt
    obtain ⟨h1, h2, h3, h4, ⟨new, h5, h6⟩, ⟨subs, h7, h8⟩⟩ := h
    obtain ⟨s, c1, c2, c3, c4, c5, c6, c7⟩ := submit_log r (by rw [h1]; exact h2)
    have hcur : (update_engine_advance (update_engine_submit r)).desc.currBd
        < PIC32MZ_MAX_BD := by
      show (if (update_engine_submit r).desc.currBd + 1 ≥ PIC32MZ_MAX_BD then 0
        else (update_engine_submit r).desc.currBd + 1) < PIC32MZ_MAX_BD
      split_ifs with hc
      · exact Nat.zero_lt_two
      · omega
    have hq4 : Quiet L t0 s0 r4 := by
      refine ⟨a2.trans (c5.trans h1), by rw [a3]; exact hcur, a1, a4.trans (c7.trans h4),
        ⟨new ++ [(r.desc.currBd, false)], ?_, ?_⟩, ⟨subs ++ [s], ?_, ?_⟩⟩
      · rw [a5]
        show (update_engine_submit r).touched = _
        rw [c4, h5, h3, List.append_assoc]
      · intro t ht
        rcases List.mem_append.1 ht with ht | ht
        · exact h6 t ht
        · simp only [List.mem_singleton] at ht
          subst ht
          exact ⟨rfl, h2⟩
      · rw [a6]
        show (update_engine_submit r).submitted = _
        rw [c1, h7, List.append_assoc]
      · intro s' hs
        rcases List.mem_append.1 hs with hs | hs
        · exact h8 s' hs
        · simp only [List.mem_singleton] at hs
          subst hs
          rw [c2]; exact h4
    exact (hq4.setBd (fun b => { b with UPDPTR := PA.ptr hash }) (fun _ => rfl)).setDbPtr 0

/-- The `while (len)` loop keeps the session quiet, for input in RAM or not. -/
theorem Quiet.loop {L : Nat} {t0 : List (Nat × Bool)} {s0 : List Submission}
    (hw : RingHw) (fuel : Nat) (inRam : Bool) (hash : Nat) :
    ∀ (n : Nat) (r r' : Ring) (input : List Nat), Quiet L t0 s0 r →
      update_engine_loop hw fuel inRam hash n r input = some r' → Quiet L t0 s0 r' := by
  intro n
  induction n with
  | zero =>
    intro r r' input h hr
    unfold update_engine_loop at hr
    split_ifs at hr
    simp only [Option.some.injEq] at hr
    subst hr
    exact h
  | succ n ih =>
    intro r r' input h hr
    unfold update_engine_loop at hr
    by_cases h0 : input.length = 0
    · simp only [h0, if_true, Option.some.injEq] at hr
      subst hr
      exact h
    · simp only [h0, if_false] at hr
      cases hfl : (if r.desc.dbPtr ≥ PIC32_BLOCK_SIZE then update_engine_flush hw fuel hash r
          else some r) with
      | none => simp [hfl] at hr
      | some r1 =>
        have hq1 : Quiet L t0 s0 r1 := by
          by_cases hfull : r.desc.dbPtr ≥ PIC32_BLOCK_SIZE
          · rw [if_pos hfull] at hfl
            exact h.flush hw fuel hash hfl
          · rw [if_neg hfull] at hfl
            simp only [Option.some.injEq] at hfl
            subst hfl
            exact h
        simp only [hfl] at hr
        cases inRam with
        | false =>
          simp only [Bool.not_false, if_true] at hr
          exact ih _ _ _ ((hq1.setBd (fun b => { b with SRCADDR := PA.input input })
            (fun _ => rfl)).setDbPtr _) hr
        | true =>
          simp only [Bool.not_true, Bool.false_eq_true, if_false] at hr
          split_ifs at hr
          · exact ih _ _ _ ((hq1.copyIn _ _).setDbPtr _) hr
          · exact ih _ _ _ ((hq1.copyIn _ _).setDbPtr _) hr

/-- `update_engine` keeps the session quiet. -/
theorem Quiet.updateEngine {L : Nat} {t0 : List (Nat × Bool)} {s0 : List Submission} {r r' : Ring}
    (hw : RingHw) (fuel : Nat) (input : List Nat) (inRam : Bool) (hash : Nat)
    (h : Quiet L t0 s0 r) (hr : update_engine hw fuel r input inRam hash = some r') :
    Quiet L t0 s0 r' :=
  Quiet.loop hw fuel inRam hash input.length _ r' input
    (h.setBd (fun b => { b with UPDPTR := PA.ptr hash }) (fun _ => rfl)) hr

/-- A sequence of `update_engine` calls keeps the session quiet. -/
theorem Quiet.updates {L : Nat} {t0 : List (Nat × Bool)} {s0 : List Submission}
    (hw : RingHw) (fuel : Nat) (hash : Nat) :
    ∀ (chunks : List (List Nat × Bool)) (r r' : Ring), Quiet L t0 s0 r →
      chunks.foldlM (fun r ch => update_engine hw fuel r ch.1 ch.2 hash) r = some r' →
      Quiet L t0 s0 r' := by
  intro chunks
  induction chunks with
  | nil =>
    intro r r' h hr
    simp only [List.foldlM_nil, Option.pure_def, Option.some.injEq] at hr
    subst hr
    exact h
  | cons ch rest ih =>
    intro r r' h hr
    simp only [List.foldlM_cons, Option.bind_eq_bind] at hr
    cases hu : update_engine hw fuel r ch.1 ch.2 hash with
    | none => simp [hu] at hr
    | some r1 =>
      simp only [hu, Option.some_bind] at hr
      exact ih r1 r' (h.updateEngine hw fuel ch.1 ch.2 hash hu) hr

/-- `reset_engine` followed by the assignment of `msgSize` starts a quiet
session: every descriptor is disabled and nothing is recorded yet. -/
theorem Quiet.reset (K : Header) (hw : RingHw) (fuel : Nat) (r0 r : Ring) (algo : Int) (L : Nat)
    (hr : reset_engine K hw fuel r0 algo = some r) :
    Quiet L r0.touched r0.submitted { r with desc := { r.desc with msgSize := L } } := by
  unfold reset_engine at hr
  cases hwr : waitReset hw.cecon fuel 0 with
  | none => simp [hwr] at hr
  | some m =>
    simp only [hwr, Option.some.injEq] at hr
    subst hr
    refine ⟨by simp, Nat.zero_lt_two, ?_, rfl, ⟨[], by simp, by simp⟩, ⟨[], by simp, by simp⟩⟩
    simp [Ring.bdAt, PIC32MZ_MAX_BD, reset_bd, List.range_succ]

/-- When `wait_engine` leaves its loop every descriptor is disabled, and the
loop has changed nothing but enable flags and the poll count. -/
theorem waitAllFree_exit (hw : RingHw) :
    ∀ (fuel : Nat) (r r' : Ring), waitAllFree hw fuel r = some r' →
      (∀ b ∈ r'.desc.bd, b.BD_CTRL.DESC_EN = false) ∧ r'.touched = r.touched ∧
      r'.submitted = r.submitted := by
  intro fuel
  induction fuel with
  | zero => intro r r' h; simp [waitAllFree] at h
  | succ n ih =>
    intro r r' h
    unfold waitAllFree at h
    by_cases ha : (r.poll hw).desc.bd.any (fun b => b.BD_CTRL.DESC_EN) = true
    · simp only [ha, if_true] at h
      exact ih (r.poll hw) r' h
    · simp only [ha] at h
      simp only [Bool.false_eq_true, if_false, Option.some.injEq] at h
      subst h
      refine ⟨?_, rfl, rfl⟩
      intro b hb
      cases hen : b.BD_CTRL.DESC_EN with
      | false => rfl
      | true => exact absurd (List.any_eq_true.2 ⟨b, hb, hen⟩) ha

/-- The loop of `wait_engine` ends within the fuel when the engine clears
every enabled descriptor within that many polls. -/
theorem waitAllFree_within (hw : RingHw) :
    ∀ (fuel : Nat) (r : Ring), 0 < fuel →
      (∀ i, i < r.desc.bd.length → (r.bdAt i).BD_CTRL.DESC_EN = true →
        ∃ k, r.polls ≤ k ∧ k < r.polls + fuel ∧ hw.done k i = true) →
      ∃ r', waitAllFree hw fuel r = some r' := by
  intro fuel
  induction fuel with
  | zero => intro r h; exact absurd h (Nat.lt_irrefl 0)
  | succ n ih =>
    intro r _ h
    unfold waitAllFree
    by_cases ha : (r.poll hw).desc.bd.any (fun b => b.BD_CTRL.DESC_EN) = true
    · simp only [ha, if_true]
      obtain ⟨i, hi, he⟩ := (any_enabled_iff _).1 ha
      rw [poll_bd_length] at hi
      rw [poll_bdAt_en hw r i hi] at he
      simp only [Bool.and_eq_true, Bool.not_eq_true'] at he
      obtain ⟨k, h1, h2, h3⟩ := h i hi he.1
      have hne : k ≠ r.polls := fun e => by rw [e, he.2] at h3; cases h3
      apply ih _ (by omega)
      intro j hj hej
      rw [poll_bd_length] at hj
      rw [poll_bdAt_en hw r j hj] at hej
      simp only [Bool.and_eq_true, Bool.not_eq_true'] at hej
      obtain ⟨k', g1, g2, g3⟩ := h j hj hej.1
      have hne' : k' ≠ r.polls := fun e => by rw [e, hej.2] at g3; cases g3
      refine ⟨k', ?_, ?_, g3⟩
      · simp only [Ring.poll]; omega
      · simp only [Ring.poll]; omega
    · simp [ha]

/-- The flush returns on an engine that clears enable flags within the fuel,
and restarts the fill offset. -/
theorem flush_returns {L : Nat} {t0 : List (Nat × Bool)} {s0 : List Submission} {r : Ring}
    (hw : RingHw) (fuel hash : Nat) (hresp : hw.responsive fuel) (h : Quiet L t0 s0 r) :
    ∃ r', update_engine_flush hw fuel hash r = some r' ∧ r'.desc.dbPtr = 0 := by
  obtain ⟨s, _, _, _, _, c5, c6, _⟩ := submit_log r (by rw [h.1]; exact h.2.1)
  have hcur : (update_engine_advance (update_engine_submit r)).desc.currBd
      < (update_engine_advance (update_engine_submit r)).desc.bd.length := by
    show (if (update_engine_submit r).desc.currBd + 1 ≥ PIC32MZ_MAX_BD then 0
      else (update_engine_submit r).desc.currBd + 1) < (update_engine_submit r).desc.bd.length
    rw [c5, h.1]
    split_ifs with hc
    · exact Nat.zero_lt_two
    · omega
  obtain ⟨k, k1, k2, k3⟩ := hresp (update_engine_advance (update_engine_submit r)).desc.currBd
    (update_engine_advance (update_engine_submit r)).polls
  obtain ⟨r4, e4, _, _⟩ := waitDescFree_some hw fuel _ hcur ⟨k, k1, k2, k3⟩
  unfold update_engine_flush
  rw [e4]
  exact ⟨_, rfl, rfl⟩

/-- The `while (len)` loop returns, for input in RAM or not, on an engine that
clears enable flags within the fuel: each pass consumes at least one byte. -/
theorem loop_returns {L : Nat} {t0 : List (Nat × Bool)} {s0 : List Submission}
    (hw : RingHw) (fuel : Nat) (inRam : Bool) (hash : Nat) (hresp : hw.responsive fuel) :
    ∀ (n : Nat) (r : Ring) (input : List Nat), Quiet L t0 s0 r → input.length ≤ n →
      ∃ r', update_engine_loop hw fuel inRam hash n r input = some r' := by
  intro n
  induction n with
  | zero =>
    intro r input _ hlen
    exact ⟨r, by simp [update_engine_loop, Nat.le_zero.1 hlen]⟩
  | succ n ih =>
    intro r input h hlen
    unfold update_engine_loop
    by_cases h0 : input.length = 0
    · exact ⟨r, by simp [h0]⟩
    · simp only [h0, if_false]
      have hfl : ∃ r1, (if r.desc.dbPtr ≥ PIC32_BLOCK_SIZE then update_engine_flush hw fuel hash r
          else some r) = some r1 ∧ Quiet L t0 s0 r1 ∧ r1.desc.dbPtr < PIC32_BLOCK_SIZE := by
        by_cases hfull : r.desc.dbPtr ≥ PIC32_BLOCK_SIZE
        · obtain ⟨r1, e, d0⟩ := flush_returns hw fuel hash hresp h
          exact ⟨r1, by simp [hfull, e], h.flush hw fuel hash e, by rw [d0]; decide⟩
        · exact ⟨r, by simp [hfull], h, by omega⟩
      obtain ⟨r1, e1, hq1, hlt⟩ := hfl
      rw [e1]
      cases inRam with
      | false =>
        simp only [Bool.not_false, if_true]
        apply ih _ _ ((hq1.setBd (fun b => { b with SRCADDR := PA.input input })
          (fun _ => rfl)).setDbPtr _)
        rw [List.length_drop]
        have : PIC32MZ_MAX_BLOCK = 32768 := rfl
        split_ifs <;> omega
      | true =>
        simp only [Bool.not_true, Bool.false_eq_true, if_false]
        have hsp : toU32 ((PIC32_BLOCK_SIZE : Int) - r1.desc.dbPtr)
            = PIC32_BLOCK_SIZE - r1.desc.dbPtr := by
          unfold toU32
          have : PIC32_BLOCK_SIZE = 256 := rfl
          omega
        rw [hsp]
        by_cases hbig : input.length > PIC32_BLOCK_SIZE - r1.desc.dbPtr
        · simp only [hbig, if_true]
          apply ih _ _ ((hq1.copyIn _ _).setDbPtr _)
          rw [List.length_drop]
          omega
        · simp only [hbig, if_false]
          exact ih _ _ ((hq1.copyIn _ _).setDbPtr _) (by simp)

/-- A sequence of `update_engine` calls returns on an engine that clears enable
flags within the fuel. -/
theorem updates_return {L : Nat} {t0 : List (Nat × Bool)} {s0 : List Submission}
    (hw : RingHw) (fuel : Nat) (hash : Nat) (hresp : hw.responsive fuel) :
    ∀ (chunks : List (List Nat × Bool)) (r : Ring), Quiet L t0 s0 r →
      ∃ r', chunks.foldlM (fun r ch => update_engine hw fuel r ch.1 ch.2 hash) r = some r' := by
  intro chunks
  induction chunks with
  | nil => intro r _; exact ⟨r, rfl⟩
  | cons ch rest ih =>
    intro r h
    obtain ⟨r1, e1⟩ := loop_returns hw fuel ch.2 hash hresp ch.1.length _ ch.1
      (h.setBd (fun b => { b with UPDPTR := PA.ptr hash }) (fun _ => rfl)) (le_refl _)
    have e1' : update_engine hw fuel r ch.1 ch.2 hash = some r1 := e1
    obtain ⟨r', e2⟩ := ih r1 (h.updateEngine hw fuel ch.1 ch.2 hash e1')
    exact ⟨r', by simp only [List.foldlM_cons, e1', Option.bind_eq_bind, Option.some_bind, e2]⟩

/-- The stores of `start_engine` hit a disabled descriptor; the descriptor it
enables carries the `MSGLEN` that descriptor already held. -/
theorem start_log {L : Nat} {t0 : List (Nat × Bool)} {s0 : List Submission} {r : Ring}
    (h : Quiet L t0 s0 r) :
    (∃ new, (start_engine r).touched = t0 ++ new ∧
      ∀ t ∈ new, t.2 = false ∧ t.1 < PIC32MZ_MAX_BD) ∧
    (∃ subs last, (start_engine r).submitted = s0 ++ subs ++ [last] ∧
      (∀ s ∈ subs, s.bd.MSGLEN = L) ∧ last.bd.MSGLEN = (r.bdAt r.desc.currBd).MSGLEN ∧
      last.idx = r.desc.currBd) ∧
    (start_engine r).desc.bd.length = PIC32MZ_MAX_BD ∧ (start_engine r).polls = r.polls := by
  have hq := h.setBd (fun b =>
    { b with BD_CTRL := { b.BD_CTRL with
        BUFLEN := if r.desc.dbPtr % 4 ≠ 0 then r.desc.dbPtr + 4 - r.desc.dbPtr % 4
                  else r.desc.dbPtr, LAST_BD := true, LIFM := true } }) (fun _ => rfl)
  obtain ⟨s, e1, e2, e3, _, e5, e6, _, _, e9⟩ := enable_log (r.setBd r.desc.currBd (fun b =>
    { b with BD_CTRL := { b.BD_CTRL with
        BUFLEN := if r.desc.dbPtr % 4 ≠ 0 then r.desc.dbPtr + 4 - r.desc.dbPtr % 4
                  else r.desc.dbPtr, LAST_BD := true, LIFM := true } })) r.desc.currBd
  obtain ⟨g1, g2, _, _, ⟨new, g5, g6⟩, ⟨subs, g7, g8⟩⟩ := hq
  refine ⟨⟨new, e5.trans g5, g6⟩, ⟨subs, s, ?_, g8, ?_, e3⟩, e6.trans g1, e9⟩
  · exact e1.trans (by rw [g7])
  · rw [e2, setBd_bdAt, if_pos ⟨rfl, by rw [h.1]; exact h.2.1⟩]

/-- C13: in a streaming session run in protocol order (`reset_engine`, the
assignment of `msgSize`, any sequence of `update_engine` calls on input in RAM or
not, `start_engine`, `wait_engine`), whatever the polls at which the engine
clears enable flags, every store of `update_engine` and `start_engine` to a field
of a ring descriptor or to a byte of its staging buffer is made while that
descriptor has `DESC_EN = 0`, and when `wait_engine` returns every descriptor of
the ring is disabled; the session returns when the reset completes and the
engine clears enable flags within the fuel. -/
theorem streamSession_writes_disabled (K : Header) (hw : RingHw) (fuel : Nat) (algo : Int)
    (hash : Nat) (r0 : Ring) (L : Nat) (chunks : List (List Nat × Bool)) (digest : List Nat)
    (hash_sz : Int) :
    (∀ r, streamSession K hw fuel algo hash r0 L chunks = some r →
      ∃ new, r.touched = r0.touched ++ new ∧
        ∀ t ∈ new, t.2 = false ∧ t.1 < PIC32MZ_MAX_BD) ∧
    (∀ r d, streamSessionWait K hw fuel algo hash r0 L chunks digest hash_sz = some (r, d) →
      (∃ new, r.touched = r0.touched ++ new ∧
        ∀ t ∈ new, t.2 = false ∧ t.1 < PIC32MZ_MAX_BD) ∧
      ∀ b ∈ r.desc.bd, b.BD_CTRL.DESC_EN = false) ∧
    ((∃ k, k < fuel ∧ hw.cecon k = 0) → hw.responsive fuel →
      ∃ r d, streamSessionWait K hw fuel algo hash r0 L chunks digest hash_sz = some (r, d)) := by
  have safe : ∀ r, streamSession K hw fuel algo hash r0 L chunks = some r →
      ∃ new, r.touched = r0.touched ++ new ∧
        ∀ t ∈ new, t.2 = false ∧ t.1 < PIC32MZ_MAX_BD := by
    intro r hr
    unfold streamSession at hr
    cases h1 : reset_engine K hw fuel r0 algo with
    | none => simp [h1] at hr
    | some r1 =>
      simp only [h1] at hr
      cases h2 : chunks.foldlM (fun r ch => update_engine hw fuel r ch.1 ch.2 hash)
          { r1 with desc := { r1.desc with msgSize := L } } with
      | none => simp [h2] at hr
      | some r2 =>
        simp only [h2, Option.map_some', Option.some.injEq] at hr
        subst hr
        exact (start_log (Quiet.updates hw fuel hash chunks _ r2
          (Quiet.reset K hw fuel r0 r1 algo L h1) h2)).1
  refine ⟨safe, ?_, ?_⟩
  · intro r d hr
    unfold streamSessionWait at hr
    cases h1 : streamSession K hw fuel algo hash r0 L chunks with
    | none => simp [h1] at hr
    | some r1 =>
      simp only [h1] at hr
      unfold wait_engine at hr
      cases h2 : waitAllFree hw fuel r1 with
      | none => simp [h2] at hr
      | some r2 =>
        simp only [h2, Option.some.injEq, Prod.mk.injEq] at hr
        obtain ⟨a1, a2, _⟩ := waitAllFree_exit hw fuel r1 r2 h2
        obtain ⟨new, n1, n2⟩ := safe r1 h1
        obtain ⟨hr, _⟩ := hr
        subst hr
        exact ⟨⟨new, a2.trans n1, n2⟩, a1⟩
  · intro hreset hresp
    obtain ⟨k, hk, hc⟩ := hreset
    obtain ⟨m, hm⟩ := waitReset_some hw.cecon fuel 0 k (Nat.zero_le _) hc (by omega)
    have h1 : ∃ r1, reset_engine K hw fuel r0 algo = some r1 := by
      unfold reset_engine
      rw [hm]
      exact ⟨_, rfl⟩
    obtain ⟨r1, h1⟩ := h1
    have hq := Quiet.reset K hw fuel r0 r1 algo L h1
    obtain ⟨r2, h2⟩ := updates_return hw fuel hash hresp chunks _ hq
    obtain ⟨_, _, hlen, hpolls⟩ := start_log (Quiet.updates hw fuel hash chunks _ r2 hq h2)
    obtain ⟨r3, h3⟩ := waitAllFree_within hw fuel (start_engine r2) (by omega)
      (fun i _ _ => hresp i (start_engine r2).polls)
    have hs : streamSession K hw fuel algo hash r0 L chunks = some (start_engine r2) := by
      unfold streamSession
      rw [h1]
      simp only [h2, Option.map_some']
    unfold streamSessionWait
    rw [hs]
    simp only [wait_engine, h3]
    exact ⟨_, _, rfl⟩

/-- C13 (witness): a five-byte session on an engine that clears flags at once
runs to its end. -/
theorem streamSession_writes_disabled_witness :
    ∃ r d, streamSessionWait wolfHeader idleRingHw 1 32 20480 initRing 5
      [([1, 2, 3, 4, 5], true)] (List.replicate 32 0) 32 = some (r, d) :=
  (streamSession_writes_disabled wolfHeader idleRingHw 1 32 20480 initRing 5
    [([1, 2, 3, 4, 5], true)] (List.replicate 32 0) 32).2.2 ⟨0, by decide, rfl⟩
    idleRingHw_responsive

theorem loop_nil (hw : RingHw) (fuel : Nat) (inRam : Bool) (hash : Nat) (n : Nat) (r : Ring) :
    update_engine_loop hw fuel inRam hash n r [] = some r := by
  cases n <;> simp [update_engine_loop]

/-- On an empty staging buffer, `update_engine` takes RAM input of at most
`PIC32_BLOCK_SIZE` bytes without submitting a descriptor and without storing
`MSGLEN`. -/
theorem update_engine_small (hw : RingHw) (fuel : Nat) (r : Ring) (data : List Nat) (hash : Nat)
    (hc : r.desc.currBd < r.desc.bd.length) (h0 : r.desc.dbPtr = 0)
    (hlen : data.length ≤ PIC32_BLOCK_SIZE) :
    ∃ r', update_engine hw fuel r data true hash = some r' ∧ r'.submitted = r.submitted ∧
      r'.desc.currBd = r.desc.currBd ∧ r'.desc.bd.length = r.desc.bd.length ∧
      (r'.bdAt r.desc.currBd).MSGLEN = (r.bdAt r.desc.currBd).MSGLEN := by
  have h256 : PIC32_BLOCK_SIZE = 256 := rfl
  have hm : ((r.setBd r.desc.currBd (fun b => { b with UPDPTR := PA.ptr hash })).bdAt
      r.desc.currBd).MSGLEN = (r.bdAt r.desc.currBd).MSGLEN := by
    rw [setBd_bdAt, if_pos ⟨rfl, hc⟩]
  have hl : (r.setBd r.desc.currBd (fun b => { b with UPDPTR := PA.ptr hash })).desc.bd.length
      = r.desc.bd.length := by simp [Ring.setBd]
  unfold update_engine
  generalize hr1 : r.setBd r.desc.currBd (fun b => { b with UPDPTR := PA.ptr hash }) = r1
    at hm hl
  have hcur : r1.desc.currBd = r.desc.currBd := by rw [← hr1]; rfl
  have hsub : r1.submitted = r.submitted := by rw [← hr1]; rfl
  have hd : r1.desc.dbPtr = 0 := by rw [← hr1]; exact h0
  cases data with
  | nil => exact ⟨r1, loop_nil _ _ _ _ _ _, hsub, hcur, hl, hm⟩
  | cons a rest =>
    simp only [List.length_cons] at hlen
    have hsp : toU32 ((PIC32_BLOCK_SIZE : Int) - r1.desc.dbPtr) = 256 := by
      rw [hd]; unfold toU32; rw [h256]; rfl
    suffices h : ∃ r', update_engine_loop hw fuel true hash (rest.length + 1) r1 (a :: rest)
        = some r' ∧ r'.submitted = r1.submitted ∧ r'.desc.currBd = r1.desc.currBd ∧
        r'.desc.bd.length = r1.desc.bd.length ∧
        (r'.bdAt r1.desc.currBd).MSGLEN = (r1.bdAt r1.desc.currBd).MSGLEN by
      obtain ⟨r', e, x1, x2, x3, x4⟩ := h
      rw [hcur] at x4
      exact ⟨r', e, x1.trans hsub, x2.trans hcur, x3.trans hl, x4.trans hm⟩
    unfold update_engine_loop
    rw [if_neg (by simp), if_neg (by rw [hd, h256]; omega)]
    simp only [Bool.not_true, Bool.false_eq_true, if_false]
    rw [hsp, if_neg (by simp only [List.length_cons]; omega), loop_nil]
    exact ⟨_, rfl, rfl, rfl, rfl, rfl⟩

/-- A message in RAM that fits in one staging buffer is submitted by
`start_engine` alone, in descriptor 0, whose `MSGLEN` is still the zero that
`reset_engine` stored: the declared length `L` never reaches the engine. -/
theorem streamSession_single_buffer (K : Header) (hw : RingHw) (fuel : Nat) (algo : Int)
    (hash : Nat) (r0 : Ring) (L : Nat) (data : List Nat)
    (hlen : data.length ≤ PIC32_BLOCK_SIZE) (hreset : ∃ k, k < fuel ∧ hw.cecon k = 0) :
    ∃ r last, streamSession K hw fuel algo hash r0 L [(data, true)] = some r ∧
      r.submitted = r0.submitted ++ [last] ∧ last.idx = 0 ∧ last.bd.MSGLEN = 0 ∧
      last.bd.BD_CTRL.DESC_EN = true := by
  obtain ⟨k, hk, hc⟩ := hreset
  obtain ⟨m, hm⟩ := waitReset_some hw.cecon fuel 0 k (Nat.zero_le _) hc (by omega)
  have h1 : ∃ r1, reset_engine K hw fuel r0 algo = some r1 ∧ r1.submitted = r0.submitted ∧
      r1.desc.currBd = 0 ∧ r1.desc.dbPtr = 0 ∧ r1.desc.bd.length = PIC32MZ_MAX_BD ∧
      (r1.bdAt 0).MSGLEN = 0 := by
    unfold reset_engine
    rw [hm]
    exact ⟨_, rfl, rfl, rfl, rfl, by simp, rfl⟩
  obtain ⟨r1, e1, a1, a2, a3, a4, a5⟩ := h1
  obtain ⟨r2, e2, b1, b2, b3, b4⟩ := update_engine_small hw fuel
    { r1 with desc := { r1.desc with msgSize := L } } data hash
    (by show r1.desc.currBd < r1.desc.bd.length; rw [a2, a4]; exact Nat.zero_lt_two) a3 hlen
  have c2 : r2.desc.currBd = 0 := b2.trans a2
  have hlast := enable_log (r2.setBd r2.desc.currBd (fun b =>
    { b with BD_CTRL := { b.BD_CTRL with
        BUFLEN := if r2.desc.dbPtr % 4 ≠ 0 then r2.desc.dbPtr + 4 - r2.desc.dbPtr % 4
                  else r2.desc.dbPtr, LAST_BD := true, LIFM := true } })) r2.desc.currBd
  obtain ⟨s, s1, s2, s3, s4, _⟩ := hlast
  refine ⟨start_engine r2, s, ?_, ?_, s3.trans c2, ?_, s4⟩
  · unfold streamSession
    rw [e1]
    simp only [List.foldlM_cons, List.foldlM_nil, Option.bind_eq_bind, e2, Option.some_bind,
      Option.pure_def, Option.map_some']
  · exact s1.trans (by rw [← a1, ← b1]; rfl)
  · rw [s2, setBd_bdAt, if_pos ⟨rfl, by rw [c2, b3]; show 0 < r1.desc.bd.length; rw [a4]; exact Nat.zero_lt_two⟩]
    show (r2.bdAt r2.desc.currBd).MSGLEN = 0
    rw [c2]
    have : (r2.bdAt 0).MSGLEN = (r1.bdAt 0).MSGLEN := by
      have := b4
      rw [show ({ r1 with desc := { r1.desc with msgSize := L } } : Ring).desc.currBd = 0 from a2]
        at this
      exact this
    rw [this, a5]

/-- In a session with declared length `L`, every descriptor enabled before
the last one (those flushed by `update_engine`) carries `MSGLEN = L`; the last
one, enabled by `start_engine`, is the only one the session adds after them. -/
theorem streamSession_flushed_msglen (K : Header) (hw : RingHw) (fuel : Nat) (algo : Int)
    (hash : Nat) (r0 : Ring) (L : Nat) (chunks : List (List Nat × Bool)) (r : Ring)
    (hr : streamSession K hw fuel algo hash r0 L chunks = some r) :
    ∃ subs last, r.submitted = r0.submitted ++ subs ++ [last] ∧
      ∀ s ∈ subs, s.bd.MSGLEN = L := by
  unfold streamSession at hr
  cases h1 : reset_engine K hw fuel r0 algo with
  | none => simp [h1] at hr
  | some r1 =>
    simp only [h1] at hr
    cases h2 : chunks.foldlM (fun r ch => update_engine hw fuel r ch.1 ch.2 hash)
        { r1 with desc := { r1.desc with msgSize := L } } with
    | none => simp [h2] at hr
    | some r2 =>
      simp only [h2, Option.map_some', Option.some.injEq] at hr
      subst hr
      obtain ⟨_, ⟨subs, last, e, hs, _⟩, _⟩ := start_log (Quiet.updates hw fuel hash chunks _ r2
        (Quiet.reset K hw fuel r0 r1 algo L h1) h2)
      exact ⟨subs, last, e, hs⟩

set_option maxRecDepth 100000 in
/-- C14 (failing input): on an engine that clears every flag at once, the
session declared with `msgSize = 5` and fed the five bytes `01 02 03 04 05` from
RAM enables one descriptor, in `start_engine`, with `MSGLEN = 0` (and
`BUFLEN = 8`, `LAST_BD = 1`); the session declared with `msgSize = 300` and fed
300 bytes from RAM enables descriptor 0 in `update_engine` with `MSGLEN = 300`
and then descriptor 1 in `start_engine` with `MSGLEN = 0`. -/
theorem start_engine_msglen_unset :
    (streamSession wolfHeader idleRingHw 1 32 20480 initRing 5 [([1, 2, 3, 4, 5], true)]).map
        (fun r => r.submitted.map
          (fun s => (s.idx, s.bd.MSGLEN, s.bd.BD_CTRL.BUFLEN, s.bd.BD_CTRL.LAST_BD)))
      = some [(0, 0, 8, true)] ∧
    (streamSession wolfHeader idleRingHw 1 32 20480 initRing 300
        [(List.replicate 300 7, true)]).map
        (fun r => r.submitted.map
          (fun s => (s.idx, s.bd.MSGLEN, s.bd.BD_CTRL.BUFLEN, s.bd.BD_CTRL.LAST_BD)))
      = some [(0, 300, 256, false), (1, 0, 44, true)] :=
  ⟨rfl, rfl⟩

theorem Capped.setBdCap {s0 : List Submission} {r : Ring} (h : Capped s0 r)
    (f : bufferDescriptor → bufferDescriptor) : Capped s0 (r.setBd r.desc.currBd f) :=
  ⟨by simp [Ring.setBd, h.1], h.2.1, h.2.2.1, h.2.2.2⟩

theorem Capped.copyInCap {s0 : List Submission} {r : Ring} (h : Capped s0 r) (off : Nat)
    (src : List Nat) : Capped s0 (r.copyIn r.desc.currBd off src) := h

theorem Capped.setDbPtrCap {s0 : List Submission} {r : Ring} (h : Capped s0 r) (n : Nat)
    (hn : n ≤ PIC32MZ_MAX_BLOCK) : Capped s0 { r with desc := { r.desc with dbPtr := n } } :=
  ⟨h.1, h.2.1, hn, h.2.2.2⟩

/-- The store `DESC_EN = 1` records the descriptor with the `BUFLEN` it holds. -/
theorem enable_buflen (r : Ring) (i : Nat) :
    ∃ s, (r.enable i).submitted = r.submitted ++ [s] ∧
      s.bd.BD_CTRL.BUFLEN = (r.bdAt i).BD_CTRL.BUFLEN :=
  ⟨_, rfl, rfl⟩

/-- The flush keeps the cap: the descriptor it submits carries the fill offset. -/
theorem Capped.flushCap {s0 : List Submission} {r r' : Ring} (hw : RingHw) (fuel hash : Nat)
    (h : Capped s0 r) (hr : update_engine_flush hw fuel hash r = some r') : Capped s0 r' := by
  unfold update_engine_flush at hr
  cases hwt : waitDescFree hw fuel (update_engine_advance (update_engine_submit r)) with
  | none => simp [hwt] at hr
  | some r4 =>
    simp only [hwt, Option.some.injEq] at hr
    subst hr
    obtain ⟨_, a2, a3, _, _, a6⟩ := waitDescFree_exit hw fuel _ _ hwt
    obtain ⟨h1, h2, h3, subs, h4, h5⟩ := h
    obtain ⟨_, _, _, _, _, c5, c6, _⟩ := submit_log r (by rw [h1]; exact h2)
    obtain ⟨s, e1, e2⟩ := enable_buflen (r.setBd r.desc.currBd (fun b =>
      { b with MSGLEN := r.desc.msgSize,
               BD_CTRL := { b.BD_CTRL with BUFLEN := r.desc.dbPtr, LAST_BD := false,
                                           LIFM := false } })) r.desc.currBd
    have hcur : (update_engine_advance (update_engine_submit r)).desc.currBd
        < PIC32MZ_MAX_BD := by
      show (if (update_engine_submit r).desc.currBd + 1 ≥ PIC32MZ_MAX_BD then 0
        else (update_engine_submit r).desc.currBd + 1) < PIC32MZ_MAX_BD
      split_ifs with hc
      · exact Nat.zero_lt_two
      · omega
    refine ⟨?_, by show r4.desc.currBd < _; rw [a3]; exact hcur, Nat.zero_le _,
      subs ++ [s], ?_, ?_⟩
    · have : (update_engine_rearm hash r4).desc.bd.length = r4.desc.bd.length := by
        simp [update_engine_rearm, Ring.setBd]
      exact this.trans (a2.trans (c5.trans h1))
    · show r4.submitted = _
      rw [a6]
      show (update_engine_submit r).submitted = _
      exact e1.trans (by rw [← List.append_assoc, ← h4]; rfl)
    · intro s' hs
      rcases List.mem_append.1 hs with hs | hs
      · exact h5 s' hs
      · simp only [List.mem_singleton] at hs
        subst hs
        rw [e2, setBd_bdAt, if_pos ⟨rfl, by rw [h1]; exact h2⟩]
        exact h3

/-- The `while (len)` loop keeps the cap, for input in RAM or not. -/
theorem Capped.loopCap {s0 : List Submission} (hw : RingHw) (fuel : Nat) (inRam : Bool)
    (hash : Nat) :
    ∀ (n : Nat) (r r' : Ring) (input : List Nat), Capped s0 r →
      update_engine_loop hw fuel inRam hash n r input = some r' → Capped s0 r' := by
  intro n
  induction n with
  | zero =>
    intro r r' input h hr
    unfold update_engine_loop at hr
    split_ifs at hr
    simp only [Option.some.injEq] at hr
    subst hr
    exact h
  | succ n ih =>
    intro r r' input h hr
    unfold update_engine_loop at hr
    by_cases h0 : input.length = 0
    · simp only [h0, if_true, Option.some.injEq] at hr
      subst hr
      exact h
    · simp only [h0, if_false] at hr
      have h256 : PIC32_BLOCK_SIZE = 256 := rfl
      have hmax : PIC32MZ_MAX_BLOCK = 32768 := rfl
      cases hfl : (if r.desc.dbPtr ≥ PIC32_BLOCK_SIZE then update_engine_flush hw fuel hash r
          else some r) with
      | none => simp [hfl] at hr
      | some r1 =>
        have hq1 : Capped s0 r1 ∧ r1.desc.dbPtr < PIC32_BLOCK_SIZE := by
          by_cases hfull : r.desc.dbPtr ≥ PIC32_BLOCK_SIZE
          · rw [if_pos hfull] at hfl
            refine ⟨h.flushCap hw fuel hash hfl, ?_⟩
            unfold update_engine_flush at hfl
            cases hwt : waitDescFree hw fuel (update_engine_advance (update_engine_submit r)) with
            | none => simp [hwt] at hfl
            | some r4 =>
              simp only [hwt, Option.some.injEq] at hfl
              subst hfl
              show 0 < PIC32_BLOCK_SIZE
              rw [h256]; decide
          · rw [if_neg hfull] at hfl
            simp only [Option.some.injEq] at hfl
            subst hfl
            exact ⟨h, by omega⟩
        obtain ⟨hq1, hlt⟩ := hq1
        simp only [hfl] at hr
        cases inRam with
        | false =>
          simp only [Bool.not_false, if_true] at hr
          refine ih _ _ _ ((hq1.setBdCap (fun b => { b with SRCADDR := PA.input input })).setDbPtrCap _
            ?_) hr
          split_ifs <;> omega
        | true =>
          simp only [Bool.not_true, Bool.false_eq_true, if_false] at hr
          have hsp : toU32 ((PIC32_BLOCK_SIZE : Int) - r1.desc.dbPtr)
              = PIC32_BLOCK_SIZE - r1.desc.dbPtr := by
            unfold toU32
            omega
          rw [hsp] at hr
          split_ifs at hr with hbig
          · exact ih _ _ _ ((hq1.copyInCap _ _).setDbPtrCap _ (by rw [h256, hmax]; decide)) hr
          · refine ih _ _ _ ((hq1.copyInCap _ _).setDbPtrCap _ ?_) hr
            show r1.desc.dbPtr + input.length ≤ PIC32MZ_MAX_BLOCK
            omega

/-- In a session run in protocol order every descriptor enabled, by
`update_engine` or by `start_engine`, carries a `BUFLEN` of at most
`PIC32MZ_MAX_BLOCK`: the ring path never stores a length that a `BUFLEN` field of
16 bits or more would cut. -/
theorem streamSession_buflen_capped (K : Header) (hw : RingHw) (fuel : Nat) (algo : Int)
    (hash : Nat) (r0 : Ring) (L : Nat) (chunks : List (List Nat × Bool)) (r : Ring)
    (hr : streamSession K hw fuel algo hash r0 L chunks = some r) :
    ∃ subs, r.submitted = r0.submitted ++ subs ∧
      ∀ s ∈ subs, s.bd.BD_CTRL.BUFLEN ≤ PIC32MZ_MAX_BLOCK := by
  have hmax : PIC32MZ_MAX_BLOCK = 32768 := rfl
  have hfold : ∀ (chunks : List (List Nat × Bool)) (r r' : Ring), Capped r0.submitted r →
      chunks.foldlM (fun r ch => update_engine hw fuel r ch.1 ch.2 hash) r = some r' →
      Capped r0.submitted r' := by
    intro chunks
    induction chunks with
    | nil =>
      intro r r' h hr
      simp only [List.foldlM_nil, Option.pure_def, Option.some.injEq] at hr
      subst hr
      exact h
    | cons ch rest ih =>
      intro r r' h hr
      simp only [List.foldlM_cons, Option.bind_eq_bind] at hr
      cases hu : update_engine hw fuel r ch.1 ch.2 hash with
      | none => simp [hu] at hr
      | some r1 =>
        simp only [hu, Option.some_bind] at hr
        exact ih r1 r' (Capped.loopCap hw fuel ch.2 hash ch.1.length _ r1 ch.1
          (h.setBdCap (fun b => { b with UPDPTR := PA.ptr hash })) hu) hr
  unfold streamSession at hr
  cases h1 : reset_engine K hw fuel r0 algo with
  | none => simp [h1] at hr
  | some r1 =>
    simp only [h1] at hr
    cases h2 : chunks.foldlM (fun r ch => update_engine hw fuel r ch.1 ch.2 hash)
        { r1 with desc := { r1.desc with msgSize := L } } with
    | none => simp [h2] at hr
    | some r2 =>
      simp only [h2, Option.map_some', Option.some.injEq] at hr
      subst hr
      have hreset : Capped r0.submitted { r1 with desc := { r1.desc with msgSize := L } } := by
        unfold reset_engine at h1
        cases hwr : waitReset hw.cecon fuel 0 with
        | none => simp [hwr] at h1
        | some m =>
          simp only [hwr, Option.some.injEq] at h1
          subst h1
          exact ⟨by simp, Nat.zero_lt_two, Nat.zero_le _, [], by simp, by simp⟩
      obtain ⟨g1, g2, g3, subs, g4, g5⟩ := hfold chunks _ r2 hreset h2
      obtain ⟨s, e1, e2⟩ := enable_buflen (r2.setBd r2.desc.currBd (fun b =>
        { b with BD_CTRL := { b.BD_CTRL with
            BUFLEN := if r2.desc.dbPtr % 4 ≠ 0 then r2.desc.dbPtr + 4 - r2.desc.dbPtr % 4
                      else r2.desc.dbPtr, LAST_BD := true, LIFM := true } })) r2.desc.currBd
      refine ⟨subs ++ [s], ?_, ?_⟩
      · show (start_engine r2).submitted = _
        exact e1.trans (by rw [← List.append_assoc, ← g4]; rfl)
      · intro s' hs
        rcases List.mem_append.1 hs with hs | hs
        · exact g5 s' hs
        · simp only [List.mem_singleton] at hs
          subst hs
          rw [e2, setBd_bdAt, if_pos ⟨rfl, by rw [g1]; exact g2⟩]
          show (if r2.desc.dbPtr % 4 ≠ 0 then r2.desc.dbPtr + 4 - r2.desc.dbPtr % 4
            else r2.desc.dbPtr) ≤ PIC32MZ_MAX_BLOCK
          split_ifs <;> omega

end Pic32
